import Mathlib

/-!
# Streaming RLP transaction decoder (src/rlp.c)

A shallow embedding of the chunked RLP decoder: the primitive header decoder
(rlpCanDecode, rlpDecodeLength), the input cursor (readTxByte, copyTxData), the
per-field handlers and the driver loop processTx.

Conventions of the embedding

* A byte is a natural number below 256; a uint32_t is a natural number below
  2^32 and every increment or decrement of one is reduced modulo 2^32.
* A C array is a list of bytes of the array's size.
* The input pointer workBuffer is an offset into the list chunk, the memory
  the caller's chunk lives in.
* THROW(EXCEPTION) leaves the function at once; the embedding records the
  context as it is at that moment.
* The uint32_t shard slots are read and written byte-wise by the source; their
  bytes are laid out least significant first, as the source's own comment
  "adjust from big endian to little endian" assumes.
-/

namespace Rlp

/-! ## Constants and types of the absent header rlp.h -/

/-- Modelled from the spec: rlp.h is not part of the sources; the size ceiling of the
256-bit integer fields (nonce, gas price, gas limit, amount) is 32 bytes. -/
def MAX_INT256 : Nat := 32

/-- Modelled from the spec: rlp.h is not part of the sources; the size ceiling of the
shard fields is 4 bytes. -/
def MAX_INT32 : Nat := 4

/-- Modelled from the spec: rlp.h is not part of the sources; the size ceiling of the
recipient address is 20 bytes. -/
def MAX_ADDRESS : Nat := 20

/-- Modelled from the spec: rlp.h is not part of the sources; sizeof(context->rlpBuffer),
the capacity of the staging buffer, is 5 bytes. -/
def RLP_BUFFER_SIZE : Nat := 5

/-- Modelled from the spec: rlp.h is not part of the sources; the schema positions in
their order Envelope, Nonce, GasPrice, GasLimit, FromShard, ToShard, Recipient, Amount,
Done, under the names the source uses for them. -/
inductive rlpTxField_e where
  | TX_RLP_CONTENT
  | TX_RLP_NONCE
  | TX_RLP_GASPRICE
  | TX_RLP_STARTGAS
  | TX_RLP_FROMSHARD
  | TX_RLP_TOSHARD
  | TX_RLP_TO
  | TX_RLP_AMOUNT
  | TX_RLP_DONE
  deriving DecidableEq, Repr

open rlpTxField_e

/-- Position of a field in the schema order. -/
def rlpTxField_e.toNat : rlpTxField_e → Nat
  | TX_RLP_CONTENT => 0
  | TX_RLP_NONCE => 1
  | TX_RLP_GASPRICE => 2
  | TX_RLP_STARTGAS => 3
  | TX_RLP_FROMSHARD => 4
  | TX_RLP_TOSHARD => 5
  | TX_RLP_TO => 6
  | TX_RLP_AMOUNT => 7
  | TX_RLP_DONE => 8

/-- The statement context->currentField++. The driver never dispatches a handler at
TX_RLP_DONE, the last enumerator, where the increment has no enumerator to go to. -/
def rlpTxField_e.incr : rlpTxField_e → rlpTxField_e
  | TX_RLP_CONTENT => TX_RLP_NONCE
  | TX_RLP_NONCE => TX_RLP_GASPRICE
  | TX_RLP_GASPRICE => TX_RLP_STARTGAS
  | TX_RLP_STARTGAS => TX_RLP_FROMSHARD
  | TX_RLP_FROMSHARD => TX_RLP_TOSHARD
  | TX_RLP_TOSHARD => TX_RLP_TO
  | TX_RLP_TO => TX_RLP_AMOUNT
  | TX_RLP_AMOUNT => TX_RLP_DONE
  | TX_RLP_DONE => TX_RLP_DONE

/-- Reduction of a natural number to the range of uint32_t. -/
def u32 (x : Nat) : Nat := x % 4294967296

/-- Reduction of an integer to the range of a 32-bit two's complement int. -/
def wrapInt32 (x : Int) : Int := (x + 2147483648) % 4294967296 - 2147483648

/-- Conversion of an int to uint32_t. -/
def toUint32 (x : Int) : Nat := (x % 4294967296).toNat

/-- The expression x << k on an int (a byte is promoted to int before it is shifted). -/
def shlInt (x : Int) (k : Nat) : Int := wrapInt32 (x * 2 ^ k)

/-- The expression x + y on ints. -/
def addInt (x y : Int) : Int := wrapInt32 (x + y)

/-- Modelled from the spec: rlp.h is not part of the sources; a variable-width numeric
output field is a fixed 32-byte buffer with a length counter. -/
structure txInt256_t where
  value : List Nat
  length : Nat
  deriving DecidableEq, Repr

/-- Modelled from the spec: rlp.h is not part of the sources; the output record has the
byte buffers with length counters the handlers write (gasprice, startgas, value,
destination with destinationLength) and the two 32-bit shard integers. -/
structure txContent_t where
  gasprice : txInt256_t
  startgas : txInt256_t
  value : txInt256_t
  fromShard : Nat
  toShard : Nat
  destination : List Nat
  destinationLength : Nat
  deriving DecidableEq, Repr

/-- Modelled from the spec: rlp.h is not part of the sources; the decode context has the
members the source reads and writes. The pair (chunk, workBuffer) stands for the
pointer workBuffer: chunk is the memory it points into, workBuffer the offset. -/
structure txContext_t where
  currentField : rlpTxField_e
  currentFieldLength : Nat
  currentFieldPos : Nat
  currentFieldIsList : Bool
  processingField : Bool
  fieldSingleByte : Bool
  dataLength : Nat
  rlpBuffer : List Nat
  rlpBufferPos : Nat
  chunk : List Nat
  workBuffer : Nat
  commandLength : Nat
  content : txContent_t
  deriving DecidableEq, Repr

/-! ## Primitive length decoder -/

/-- The function rlpCanDecode. The result is the returned flag paired with the value of
the out-parameter valid after the call (the argument valid is its value before). -/
def rlpCanDecode (buffer : List Nat) (bufferLength : Nat) (valid : Bool) : Bool × Bool :=
  let b := buffer.getD 0 0
  if b ≤ 0x7f then (true, true)
  else if b ≤ 0xb7 then (true, true)
  else if b ≤ 0xbf then
    if bufferLength < 1 + (b - 0xb7) then (false, valid)
    else if b > 0xbb then (true, false)
    else (true, true)
  else if b ≤ 0xf7 then (true, true)
  else
    if bufferLength < 1 + (b - 0xf7) then (false, valid)
    else if b > 0xfb then (true, false)
    else (true, true)

/-- Out-parameters of rlpDecodeLength together with its returned flag. -/
structure DecodedLength where
  ok : Bool
  fieldLength : Nat
  offset : Nat
  list : Bool
  deriving DecidableEq, Repr

/-- The length expression of the one-byte long form: buffer[1]. -/
def lengthOf1 (buffer : List Nat) : Nat :=
  toUint32 (buffer.getD 1 0)

/-- The length expression of the two-byte long form: (buffer[1] << 8) + buffer[2]. -/
def lengthOf2 (buffer : List Nat) : Nat :=
  toUint32 (addInt (shlInt (buffer.getD 1 0) 8) (buffer.getD 2 0))

/-- The length expression of the three-byte long form. -/
def lengthOf3 (buffer : List Nat) : Nat :=
  toUint32 (addInt (addInt (shlInt (buffer.getD 1 0) 16) (shlInt (buffer.getD 2 0) 8))
    (buffer.getD 3 0))

/-- The length expression of the four-byte long form. -/
def lengthOf4 (buffer : List Nat) : Nat :=
  toUint32 (addInt (addInt (addInt (shlInt (buffer.getD 1 0) 24) (shlInt (buffer.getD 2 0) 16))
    (shlInt (buffer.getD 3 0) 8)) (buffer.getD 4 0))

/-- The function rlpDecodeLength. The argument fieldLength is the value of that
out-parameter before the call (the failing paths leave it as it is; offset and list are
written on every path); the result holds the out-parameters after the call. The source
never reads bufferLength. -/
def rlpDecodeLength (buffer : List Nat) (_bufferLength : Nat) (fieldLength : Nat) :
    DecodedLength :=
  let b := buffer.getD 0 0
  if b ≤ 0x7f then ⟨true, 1, 0, false⟩
  else if b ≤ 0xb7 then ⟨true, b - 0x80, 1, false⟩
  else if b ≤ 0xbf then
    if b = 0xb8 then ⟨true, lengthOf1 buffer, 1 + (b - 0xb7), false⟩
    else if b = 0xb9 then ⟨true, lengthOf2 buffer, 1 + (b - 0xb7), false⟩
    else if b = 0xba then ⟨true, lengthOf3 buffer, 1 + (b - 0xb7), false⟩
    else if b = 0xbb then ⟨true, lengthOf4 buffer, 1 + (b - 0xb7), false⟩
    else ⟨false, fieldLength, 1 + (b - 0xb7), false⟩
  else if b ≤ 0xf7 then ⟨true, b - 0xc0, 1, true⟩
  else
    if b = 0xf8 then ⟨true, lengthOf1 buffer, 1 + (b - 0xf7), true⟩
    else if b = 0xf9 then ⟨true, lengthOf2 buffer, 1 + (b - 0xf7), true⟩
    else if b = 0xfa then ⟨true, lengthOf3 buffer, 1 + (b - 0xf7), true⟩
    else if b = 0xfb then ⟨true, lengthOf4 buffer, 1 + (b - 0xf7), true⟩
    else ⟨false, fieldLength, 1 + (b - 0xf7), true⟩

/-! ## Input cursor -/

/-- Outcome of a function that may THROW: it finished with a context, or it threw with
the context as it was at the THROW. -/
inductive Handled where
  | ok (ctx : txContext_t)
  | throw (ctx : txContext_t)
  deriving DecidableEq, Repr

/-- The function readTxByte: the byte read and the context after the call. A read
beyond the end of the chunk memory yields 0 in the embedding. -/
def readTxByte (context : txContext_t) : Nat × txContext_t :=
  let data := context.chunk.getD context.workBuffer 0
  let c1 := { context with workBuffer := context.workBuffer + 1 }
  let c2 := { c1 with commandLength := u32 (c1.commandLength + 4294967295) }
  let c3 := if c2.processingField then
      { c2 with currentFieldPos := u32 (c2.currentFieldPos + 1) } else c2
  (data, c3)

/-- The bytes os_memmove reads: length bytes of the chunk memory from the offset on. -/
def readBytes (chunk : List Nat) (workBuffer length : Nat) : List Nat :=
  (chunk.drop workBuffer).take length

/-- The function copyTxData. The destination pointer out is a store operation on the
output record (none for NULL): it is given the record and the bytes moved. -/
def copyTxData (context : txContext_t)
    (out : Option (txContent_t → List Nat → txContent_t)) (length : Nat) : Handled :=
  if context.commandLength < length then .throw context
  else
    let moved := readBytes context.chunk context.workBuffer length
    let c1 := { context with content :=
      match out with
      | some store => store context.content moved
      | none => context.content }
    let c2 := { c1 with workBuffer := c1.workBuffer + length }
    let c3 := { c2 with commandLength := c2.commandLength - length }
    let c4 := if c3.processingField then
        { c3 with currentFieldPos := u32 (c3.currentFieldPos + length) } else c3
    .ok c4

/-- Bytes written into an array from index pos on. -/
def writeBytes (arr : List Nat) (pos : Nat) (data : List Nat) : List Nat :=
  arr.take pos ++ data ++ arr.drop (pos + data.length)

/-- The four bytes of a uint32_t in memory, least significant first. -/
def u32Bytes (v : Nat) : List Nat :=
  [v % 256, v / 256 % 256, v / 65536 % 256, v / 16777216 % 256]

/-- The uint32_t held by four bytes of memory, least significant first. -/
def bytesU32 (bs : List Nat) : Nat :=
  bs.getD 0 0 + 256 * bs.getD 1 0 + 65536 * bs.getD 2 0 + 16777216 * bs.getD 3 0

/-- The reassembly loop of the shard handlers over the bytes of the slot:
for i below n, shardId <<= 8 and then shardId |= shardIdArray[i]. -/
def shardLoop (shardIdArray : List Nat) (n : Nat) : Nat :=
  (List.range n).foldl (fun shardId i => u32 (shardId <<< 8) ||| shardIdArray.getD i 0) 0

/-- The copy size every handler computes:
commandLength < fieldLength - fieldPos ? commandLength : fieldLength - fieldPos. -/
def copySize (context : txContext_t) : Nat :=
  if context.commandLength < context.currentFieldLength - context.currentFieldPos
  then context.commandLength
  else context.currentFieldLength - context.currentFieldPos

/-! ## Field handlers -/

/-- The function processContent. -/
def processContent (context : txContext_t) : Handled :=
  if !context.currentFieldIsList then .throw context
  else
    let c1 := { context with dataLength := context.currentFieldLength }
    let c2 := { c1 with currentField := c1.currentField.incr }
    .ok { c2 with processingField := false }

/-- The function processNonce: the payload is consumed and not stored. -/
def processNonce (context : txContext_t) : Handled :=
  if context.currentFieldIsList then .throw context
  else if context.currentFieldLength > MAX_INT256 then .throw context
  else
    let copied : Handled :=
      if context.currentFieldPos < context.currentFieldLength then
        copyTxData context none (copySize context)
      else .ok context
    match copied with
    | Handled.throw c => Handled.throw c
    | Handled.ok c =>
      if c.currentFieldPos = c.currentFieldLength then
        .ok { c with currentField := c.currentField.incr, processingField := false }
      else .ok c

/-- Destination pointer content->startgas.value + pos. -/
def storeStartgas (pos : Nat) (content : txContent_t) (data : List Nat) : txContent_t :=
  { content with startgas := { content.startgas with
      value := writeBytes content.startgas.value pos data } }

/-- The function processStartGas. -/
def processStartGas (context : txContext_t) : Handled :=
  if context.currentFieldIsList then .throw context
  else if context.currentFieldLength > MAX_INT256 then .throw context
  else
    let copied : Handled :=
      if context.currentFieldPos < context.currentFieldLength then
        copyTxData context (some (storeStartgas context.currentFieldPos)) (copySize context)
      else .ok context
    match copied with
    | Handled.throw c => Handled.throw c
    | Handled.ok c =>
      if c.currentFieldPos = c.currentFieldLength then
        .ok { c with
          content := { c.content with
            startgas := { c.content.startgas with length := c.currentFieldLength } },
          currentField := c.currentField.incr,
          processingField := false }
      else .ok c

/-- Destination pointer content->gasprice.value + pos. -/
def storeGasprice (pos : Nat) (content : txContent_t) (data : List Nat) : txContent_t :=
  { content with gasprice := { content.gasprice with
      value := writeBytes content.gasprice.value pos data } }

/-- The function processGasprice. -/
def processGasprice (context : txContext_t) : Handled :=
  if context.currentFieldIsList then .throw context
  else if context.currentFieldLength > MAX_INT256 then .throw context
  else
    let copied : Handled :=
      if context.currentFieldPos < context.currentFieldLength then
        copyTxData context (some (storeGasprice context.currentFieldPos)) (copySize context)
      else .ok context
    match copied with
    | Handled.throw c => Handled.throw c
    | Handled.ok c =>
      if c.currentFieldPos = c.currentFieldLength then
        .ok { c with
          content := { c.content with
            gasprice := { c.content.gasprice with length := c.currentFieldLength } },
          currentField := c.currentField.incr,
          processingField := false }
      else .ok c

/-- Destination pointer content->value.value + pos. -/
def storeValue (pos : Nat) (content : txContent_t) (data : List Nat) : txContent_t :=
  { content with value := { content.value with
      value := writeBytes content.value.value pos data } }

/-- The function processValue. -/
def processValue (context : txContext_t) : Handled :=
  if context.currentFieldIsList then .throw context
  else if context.currentFieldLength > MAX_INT256 then .throw context
  else
    let copied : Handled :=
      if context.currentFieldPos < context.currentFieldLength then
        copyTxData context (some (storeValue context.currentFieldPos)) (copySize context)
      else .ok context
    match copied with
    | Handled.throw c => Handled.throw c
    | Handled.ok c =>
      if c.currentFieldPos = c.currentFieldLength then
        .ok { c with
          content := { c.content with
            value := { c.content.value with length := c.currentFieldLength } },
          currentField := c.currentField.incr,
          processingField := false }
      else .ok c

/-- Destination pointer (uint8_t *)&content->fromShard + pos: the bytes land in the
memory of the 32-bit slot. -/
def storeFromShard (pos : Nat) (content : txContent_t) (data : List Nat) : txContent_t :=
  { content with fromShard := bytesU32 (writeBytes (u32Bytes content.fromShard) pos data) }

/-- The function processFromShard. The reassembly runs inside the copy branch, over
currentFieldLength bytes of the slot, on every call that copies. -/
def processFromShard (context : txContext_t) : Handled :=
  if context.currentFieldIsList then .throw context
  else if context.currentFieldLength > 4 then .throw context
  else
    let copied : Handled :=
      if context.currentFieldPos < context.currentFieldLength then
        match copyTxData context (some (storeFromShard context.currentFieldPos))
            (copySize context) with
        | Handled.throw c => Handled.throw c
        | Handled.ok c =>
          let shardId := shardLoop (u32Bytes c.content.fromShard) c.currentFieldLength
          .ok { c with content := { c.content with fromShard := shardId } }
      else .ok context
    match copied with
    | Handled.throw c => Handled.throw c
    | Handled.ok c =>
      if c.currentFieldPos = c.currentFieldLength then
        .ok { c with
          content := { c.content with destinationLength := c.currentFieldLength },
          currentField := c.currentField.incr,
          processingField := false }
      else .ok c

/-- Destination pointer (uint8_t *)&content->toShard + pos. -/
def storeToShard (pos : Nat) (content : txContent_t) (data : List Nat) : txContent_t :=
  { content with toShard := bytesU32 (writeBytes (u32Bytes content.toShard) pos data) }

/-- The function processToShard. -/
def processToShard (context : txContext_t) : Handled :=
  if context.currentFieldIsList then .throw context
  else if context.currentFieldLength > MAX_INT32 then .throw context
  else
    let copied : Handled :=
      if context.currentFieldPos < context.currentFieldLength then
        match copyTxData context (some (storeToShard context.currentFieldPos))
            (copySize context) with
        | Handled.throw c => Handled.throw c
        | Handled.ok c =>
          let shardId := shardLoop (u32Bytes c.content.toShard) c.currentFieldLength
          .ok { c with content := { c.content with toShard := shardId } }
      else .ok context
    match copied with
    | Handled.throw c => Handled.throw c
    | Handled.ok c =>
      if c.currentFieldPos = c.currentFieldLength then
        .ok { c with
          content := { c.content with destinationLength := c.currentFieldLength },
          currentField := c.currentField.incr,
          processingField := false }
      else .ok c

/-- Destination pointer content->destination + pos. -/
def storeDestination (pos : Nat) (content : txContent_t) (data : List Nat) : txContent_t :=
  { content with destination := writeBytes content.destination pos data }

/-- The function processTo. -/
def processTo (context : txContext_t) : Handled :=
  if context.currentFieldIsList then .throw context
  else if context.currentFieldLength > MAX_ADDRESS then .throw context
  else
    let copied : Handled :=
      if context.currentFieldPos < context.currentFieldLength then
        copyTxData context (some (storeDestination context.currentFieldPos)) (copySize context)
      else .ok context
    match copied with
    | Handled.throw c => Handled.throw c
    | Handled.ok c =>
      if c.currentFieldPos = c.currentFieldLength then
        .ok { c with
          content := { c.content with destinationLength := c.currentFieldLength },
          currentField := c.currentField.incr,
          processingField := false }
      else .ok c

/-! ## Driver loop -/

/-- How a call of processTx ends: it returns a status with the context as it then is,
or a THROW of a handler leaves it. -/
inductive Outcome where
  | ret (status : Int) (ctx : txContext_t)
  | thrown (ctx : txContext_t)
  deriving DecidableEq, Repr

/-- How the inner while loop of processTx ends: a return statement inside it, or the
loop is left (by its condition or by break) with the local canDecode. -/
inductive Staged where
  | ret (status : Int) (ctx : txContext_t)
  | left (canDecode : Bool) (ctx : txContext_t)
  deriving DecidableEq, Repr

/-- The inner loop while (context->commandLength != 0) of processTx, which feeds the
staging buffer. Every pass takes one byte, so commandLength passes are enough: the
pass counter starts at commandLength and reaches 0 only together with it. The local
valid is uninitialised before rlpCanDecode writes it. A store into rlpBuffer at an
index outside the array, which the loop makes only when it is entered with five or more
bytes staged, as a context left by a fatal failure may have, is dropped by the
embedding: the embedding follows the code on contexts with at most four bytes staged,
where every store is inside the array (stageHeader_stores). -/
def stageHeader : Nat → txContext_t → Staged
  | 0, context => .left false context
  | passes + 1, context =>
    if context.commandLength ≠ 0 then
      if context.commandLength < 1 then .ret (-1) context
      else
        let (data, c1) := readTxByte context
        let c2 := { c1 with rlpBuffer := c1.rlpBuffer.set c1.rlpBufferPos data,
                            rlpBufferPos := u32 (c1.rlpBufferPos + 1) }
        let (can, valid) := rlpCanDecode c2.rlpBuffer c2.rlpBufferPos false
        if can then
          if !valid then .ret (-1) c2
          else .left true c2
        else if c2.rlpBufferPos = RLP_BUFFER_SIZE then .ret (-1) c2
        else stageHeader passes c2
    else .left false context

/-- One pass of the body of for (;;): the call ends, or the loop goes round again. -/
inductive Step where
  | done (o : Outcome)
  | again (ctx : txContext_t)
  deriving DecidableEq, Repr

/-- A handler called from the switch, followed by break. -/
def afterHandler : Handled → Step
  | .ok c => .again c
  | .throw c => .done (.thrown c)

/-- The handler of the amount called from the switch, followed by return 0. -/
def afterValue : Handled → Step
  | .ok c => .done (.ret 0 c)
  | .throw c => .done (.thrown c)

/-- The switch (context->currentField) of processTx. TX_RLP_DONE, the one enumerator
without a case, takes the default branch. -/
def dispatch (context : txContext_t) : Step :=
  match context.currentField with
  | TX_RLP_CONTENT => afterHandler (processContent context)
  | TX_RLP_NONCE => afterHandler (processNonce context)
  | TX_RLP_GASPRICE => afterHandler (processGasprice context)
  | TX_RLP_STARTGAS => afterHandler (processStartGas context)
  | TX_RLP_FROMSHARD => afterHandler (processFromShard context)
  | TX_RLP_TOSHARD => afterHandler (processToShard context)
  | TX_RLP_TO => afterHandler (processTo context)
  | TX_RLP_AMOUNT => afterValue (processValue context)
  | TX_RLP_DONE => .done (.ret (-1) context)

/-- The statements of processTx between a decodable staged header and the switch. -/
def startField (c : txContext_t) : Step :=
  let d := rlpDecodeLength c.rlpBuffer c.rlpBufferPos c.currentFieldLength
  let c1 := { c with currentFieldLength := d.fieldLength, currentFieldIsList := d.list }
  if !d.ok then .done (.ret (-1) c1)
  else
    let c2 :=
      if d.offset = 0 then
        { c1 with workBuffer := c1.workBuffer - 1,
                  commandLength := u32 (c1.commandLength + 1),
                  fieldSingleByte := true }
      else { c1 with fieldSingleByte := false }
    dispatch { c2 with currentFieldPos := 0, rlpBufferPos := 0, processingField := true }

/-- The body of the loop for (;;) of processTx. -/
def processTxBody (context : txContext_t) : Step :=
  if context.currentField = TX_RLP_DONE then .done (.ret 0 context)
  else if context.commandLength = 0 then .done (.ret 1 context)
  else if !context.processingField then
    match stageHeader context.commandLength context with
    | .ret status c => .done (.ret status c)
    | .left false c => .done (.ret 1 c)
    | .left true c => startField c
  else dispatch context

/-- The function processTx, with a bound on the passes of for (;;): none when the
bound is used up before the call ends. -/
def processTx : Nat → txContext_t → Option Outcome
  | 0, _ => none
  | fuel + 1, context =>
    match processTxBody context with
    | .done o => some o
    | .again c => processTx fuel c

/-! ## The caller -/

/-- Modelled from the spec: the transport is not part of the sources; it hands each chunk
to the decoder as (pointer, length) on the same context. -/
def deliver (context : txContext_t) (data : List Nat) : txContext_t :=
  { context with chunk := data, workBuffer := 0, commandLength := data.length }

/-- Modelled from the spec: the code that creates the context is not part of the sources;
a context is created with all counters zeroed, the output record zeroed and
activeField = Envelope. -/
def freshContext : txContext_t where
  currentField := TX_RLP_CONTENT
  currentFieldLength := 0
  currentFieldPos := 0
  currentFieldIsList := false
  processingField := false
  fieldSingleByte := false
  dataLength := 0
  rlpBuffer := List.replicate 5 0
  rlpBufferPos := 0
  chunk := []
  workBuffer := 0
  commandLength := 0
  content :=
    { gasprice := ⟨List.replicate 32 0, 0⟩
      startgas := ⟨List.replicate 32 0, 0⟩
      value := ⟨List.replicate 32 0, 0⟩
      fromShard := 0
      toShard := 0
      destination := List.replicate 20 0
      destinationLength := 0 }

/-- Whether an outcome is a fatal failure: the status -1 or a THROW. -/
def Outcome.fatal : Outcome → Bool
  | .ret status _ => status == -1
  | .thrown _ => true

/-- The context an outcome carries. -/
def Outcome.context : Outcome → txContext_t
  | .ret _ c => c
  | .thrown c => c

/-- Modelled from the spec: the transport is not part of the sources; successive chunks
are delivered on the same context, one call of processTx each, for as long as no call
fails fatally. The result is the outcome of the last call made (before any call: need
more input). -/
def feedChunks (fuel : Nat) : Outcome → List (List Nat) → Option Outcome
  | o, [] => some o
  | o, data :: more =>
    if o.fatal then some o
    else
      match processTx fuel (deliver o.context data) with
      | none => none
      | some o1 => feedChunks fuel o1 more

/-! ## Reference notions of the specification -/

/-- The big-endian integer formed by a sequence of bytes. -/
def bigEndian (bs : List Nat) : Nat :=
  bs.foldl (fun acc b => acc * 256 + b) 0

/-- Number of bytes of the header that starts with the byte b, for the supported forms
(a self-encoded byte counts as a header of one byte). -/
def headerBytes (b : Nat) : Nat :=
  if b ≤ 0xb7 then 1
  else if b ≤ 0xbb then 1 + (b - 0xb7)
  else if b ≤ 0xbf then 1
  else if b ≤ 0xf7 then 1
  else if b ≤ 0xfb then 1 + (b - 0xf7)
  else 1

/-- The reference RLP header decoder, following the words of the specification: the
triple (fieldLength, offset, isList), or none for the unsupported leading bytes. -/
def referenceHeader (buffer : List Nat) : Option (Nat × Nat × Bool) :=
  let b := buffer.getD 0 0
  if b ≤ 0x7f then some (1, 0, false)
  else if b ≤ 0xb7 then some (b - 0x80, 1, false)
  else if b ≤ 0xbb then
    some (bigEndian ((buffer.drop 1).take (b - 0xb7)), 1 + (b - 0xb7), false)
  else if b ≤ 0xbf then none
  else if b ≤ 0xf7 then some (b - 0xc0, 1, true)
  else if b ≤ 0xfb then
    some (bigEndian ((buffer.drop 1).take (b - 0xf7)), 1 + (b - 0xf7), true)
  else none

/-- The result of rlpDecodeLength as the reference decoder reports one. -/
def DecodedLength.report (d : DecodedLength) : Option (Nat × Nat × Bool) :=
  if d.ok then some (d.fieldLength, d.offset, d.list) else none

/-- The RLP encoding of a byte string of at most 55 bytes: a single byte up to 0x7f is
its own encoding, any other string follows the header byte 0x80 + length. -/
def rlpString (p : List Nat) : List Nat :=
  match p with
  | [b] => if b ≤ 0x7f then [b] else [0x81, b]
  | _ => (0x80 + p.length) :: p

/-- The RLP list header for a payload of fewer than 256 bytes. -/
def rlpListHeader (n : Nat) : List Nat :=
  if n ≤ 55 then [0xc0 + n] else [0xf8, n]

/-- The fields of a transaction up to the amount, each as an RLP string, in schema order. -/
def txBody (nonce gasPrice gasLimit fromShard toShard recipient amount : List Nat) :
    List Nat :=
  rlpString nonce ++ (rlpString gasPrice ++ (rlpString gasLimit ++ (rlpString fromShard ++
    (rlpString toShard ++ (rlpString recipient ++ rlpString amount)))))

/-- A well-formed transaction encoding: the outer list header, then the fields. -/
def txEncoding (nonce gasPrice gasLimit fromShard toShard recipient amount : List Nat) :
    List Nat :=
  rlpListHeader (txBody nonce gasPrice gasLimit fromShard toShard recipient amount).length ++
    txBody nonce gasPrice gasLimit fromShard toShard recipient amount

/-- Every element of the list is a byte. -/
def isBytes (l : List Nat) : Prop := ∀ x ∈ l, x < 256

instance (l : List Nat) : Decidable (isBytes l) := by
  unfold isBytes
  infer_instance

/-! ## Notions used by the proofs -/

/-- The common shape of the handlers of the fields that hold a byte string: the type
check, the ceiling, the copy through the destination pointer out (none for NULL) and
the completion, whose stores into the output record are finish. -/
def stringHandler (ceiling : Nat)
    (out : Option (Nat → txContent_t → List Nat → txContent_t))
    (finish : Nat → txContent_t → txContent_t) (context : txContext_t) : Handled :=
  if context.currentFieldIsList then .throw context
  else if context.currentFieldLength > ceiling then .throw context
  else
    let copied : Handled :=
      if context.currentFieldPos < context.currentFieldLength then
        copyTxData context (out.map fun store => store context.currentFieldPos)
          (copySize context)
      else .ok context
    match copied with
    | Handled.throw c => Handled.throw c
    | Handled.ok c =>
      if c.currentFieldPos = c.currentFieldLength then
        .ok { c with
          content := finish c.currentFieldLength c.content,
          currentField := c.currentField.incr,
          processingField := false }
      else .ok c

/-- The store of the completed gas price: its length. -/
def finishGasprice (n : Nat) (content : txContent_t) : txContent_t :=
  { content with gasprice := { content.gasprice with length := n } }

/-- The store of the completed gas limit: its length. -/
def finishStartgas (n : Nat) (content : txContent_t) : txContent_t :=
  { content with startgas := { content.startgas with length := n } }

/-- The store of the completed amount: its length. -/
def finishValue (n : Nat) (content : txContent_t) : txContent_t :=
  { content with value := { content.value with length := n } }

/-- The store of the completed recipient (and of a completed shard field):
destinationLength. -/
def finishDestination (n : Nat) (content : txContent_t) : txContent_t :=
  { content with destinationLength := n }

/-- The common shape of the two shard handlers, over the slot they read and write. -/
def shardHandler (ceiling : Nat) (slot : txContent_t → Nat)
    (setSlot : Nat → txContent_t → txContent_t) (context : txContext_t) : Handled :=
  if context.currentFieldIsList then .throw context
  else if context.currentFieldLength > ceiling then .throw context
  else
    let copied : Handled :=
      if context.currentFieldPos < context.currentFieldLength then
        match copyTxData context
            (some fun content data =>
              setSlot (bytesU32 (writeBytes (u32Bytes (slot content))
                context.currentFieldPos data)) content)
            (copySize context) with
        | Handled.throw c => Handled.throw c
        | Handled.ok c =>
          let shardId := shardLoop (u32Bytes (slot c.content)) c.currentFieldLength
          .ok { c with content := setSlot shardId c.content }
      else .ok context
    match copied with
    | Handled.throw c => Handled.throw c
    | Handled.ok c =>
      if c.currentFieldPos = c.currentFieldLength then
        .ok { c with
          content := { c.content with destinationLength := c.currentFieldLength },
          currentField := c.currentField.incr,
          processingField := false }
      else .ok c

/-- The context waits for the header of the field f, and input is what is left of the
chunk. -/
structure Awaiting (ctx : txContext_t) (f : rlpTxField_e) (input : List Nat) : Prop where
  field : ctx.currentField = f
  idle : ctx.processingField = false
  staged : ctx.rlpBufferPos = 0
  buffer : ctx.rlpBuffer.length = 5
  rest : ctx.chunk.drop ctx.workBuffer = input
  count : ctx.commandLength = input.length

/-- The output record after a copy through the destination pointer out. -/
def applyOut (out : Option (Nat → txContent_t → List Nat → txContent_t)) (pos : Nat)
    (content : txContent_t) (data : List Nat) : txContent_t :=
  match out with
  | some store => store pos content data
  | none => content

/-- The status a call returned, none for a THROW. -/
def Outcome.status : Outcome → Option Int
  | .ret status _ => some status
  | .thrown _ => none

/-- A transaction whose origin shard has the two payload bytes 0x01 0x02. -/
def shardTx : List Nat :=
  txEncoding [0x01] [0x0a] [0x05] [0x01, 0x02] [0x01] (List.replicate 20 0) [0x2a]

/-- A transaction whose destination shard has the two payload bytes 0x01 0x02. -/
def toShardTx : List Nat :=
  txEncoding [0x01] [0x0a] [0x05] [0x00] [0x01, 0x02] (List.replicate 20 0) [0x2a]

/-- A transaction whose amount has the two payload bytes 0x01 0x02. -/
def amountTx : List Nat :=
  txEncoding [0x01] [0x0a] [0x05] [0x00] [0x01] (List.replicate 20 0) [0x01, 0x02]

/-- The leading byte of the header being staged: the first byte of the staging buffer,
or the next byte of the chunk while nothing is staged. -/
def leadingByte (c : txContext_t) : Nat :=
  if c.rlpBufferPos = 0 then c.chunk.getD c.workBuffer 0 else c.rlpBuffer.getD 0 0

/-- The context after one more byte of the chunk is staged. -/
def stageByte (c : txContext_t) : txContext_t :=
  { c with workBuffer := c.workBuffer + 1,
           commandLength := c.commandLength - 1,
           rlpBuffer := c.rlpBuffer.set c.rlpBufferPos (c.chunk.getD c.workBuffer 0),
           rlpBufferPos := c.rlpBufferPos + 1 }

/-- The size ceiling of a string field of the schema, as the field table of the
specification gives it; none for the envelope and for Done. -/
def sizeCeiling : rlpTxField_e → Option Nat
  | TX_RLP_CONTENT => none
  | TX_RLP_NONCE => some 32
  | TX_RLP_GASPRICE => some 32
  | TX_RLP_STARTGAS => some 32
  | TX_RLP_FROMSHARD => some 4
  | TX_RLP_TOSHARD => some 4
  | TX_RLP_TO => some 20
  | TX_RLP_AMOUNT => some 32
  | TX_RLP_DONE => none

/-- A transaction whose recipient is declared with 21 bytes. -/
def longRecipientTx : List Nat :=
  [0xdc, 0x01, 0x0a, 0x05, 0x00, 0x01, 0x95] ++ List.replicate 21 0xff ++ [0x2a]

/-- The context is inside the payload of the string field f: the header declared n
bytes, of which j are consumed. -/
structure Copying (ctx : txContext_t) (f : rlpTxField_e) (n j : Nat) : Prop where
  field : ctx.currentField = f
  busy : ctx.processingField = true
  string : ctx.currentFieldIsList = false
  length : ctx.currentFieldLength = n
  pos : ctx.currentFieldPos = j

/-- How the switch hands on the result of the handler of a byte-string field: it goes
round the loop (and the next field is not Done), or it returns 0 at once. -/
def LoopsOrReturns (wrap : Handled → Step) (f : rlpTxField_e) : Prop :=
  (wrap = afterHandler ∧ f.incr ≠ TX_RLP_DONE) ∨ wrap = afterValue

/-- The length counter of the output slot of a stored byte-string field. -/
def storedLength : rlpTxField_e → txContent_t → Nat
  | TX_RLP_GASPRICE, c => c.gasprice.length
  | TX_RLP_STARTGAS, c => c.startgas.length
  | TX_RLP_TO, c => c.destinationLength
  | TX_RLP_AMOUNT, c => c.value.length
  | _, _ => 0

/-- The byte buffer of the output slot of a stored byte-string field. -/
def storedBytes : rlpTxField_e → txContent_t → List Nat
  | TX_RLP_GASPRICE, c => c.gasprice.value
  | TX_RLP_STARTGAS, c => c.startgas.value
  | TX_RLP_TO, c => c.destination
  | TX_RLP_AMOUNT, c => c.value.value
  | _, _ => []

/-- The contexts in which the passes of the staging loop of processTx call readTxByte
and store into rlpBuffer: one entry for every pass that gets as far as the read, in
order. The recursion is that of stageHeader. -/
def stagePasses : Nat → txContext_t → List txContext_t
  | 0, _ => []
  | passes + 1, context =>
    if context.commandLength ≠ 0 then
      if context.commandLength < 1 then []
      else
        let (data, c1) := readTxByte context
        let c2 := { c1 with rlpBuffer := c1.rlpBuffer.set c1.rlpBufferPos data,
                            rlpBufferPos := u32 (c1.rlpBufferPos + 1) }
        let (can, _) := rlpCanDecode c2.rlpBuffer c2.rlpBufferPos false
        if can then [context]
        else if c2.rlpBufferPos = RLP_BUFFER_SIZE then [context]
        else context :: stagePasses passes c2
    else []

/-- The transaction of the end-to-end example of the specification. -/
def exampleTx : List Nat :=
  txEncoding [0x01] [0x0a] [0x05] [0x00] [0x01] (List.replicate 20 0) [0x2a]

/-- The context a handler leaves, whether it finished or threw. -/
def Handled.context : Handled → txContext_t
  | .ok c => c
  | .throw c => c

/-- The context the staging loop leaves. -/
def Staged.context : Staged → txContext_t
  | .ret _ c => c
  | .left _ c => c

/-- The context after one pass of the driver loop. -/
def Step.context : Step → txContext_t
  | .done o => o.context
  | .again c => c

/-- The byte arrays of the output record have the sizes of their declarations. -/
structure SlotsSized (content : txContent_t) : Prop where
  gasprice : content.gasprice.value.length = 32
  startgas : content.startgas.value.length = 32
  value : content.value.value.length = 32
  destination : content.destination.length = 20

/-- What holds of the context whenever processTx is entered or left: the staging
buffer has its size, the consumed count does not exceed the declared length, the
counters are in the range of uint32_t, the output arrays have their sizes and the
cursor with its remaining length lies inside the chunk. -/
structure Sound (c : txContext_t) : Prop where
  staging : c.rlpBuffer.length = 5
  consumed : c.currentFieldPos ≤ c.currentFieldLength
  length32 : c.currentFieldLength < 4294967296
  slots : SlotsSized c.content
  inside : c.workBuffer + c.commandLength ≤ c.chunk.length
  count32 : c.commandLength < 4294967296

/-- How the staging loop changes a context: it touches the staging buffer, its fill
position, the cursor and the remaining length, and the cursor advances by what the
remaining length drops. -/
structure Staging (c c' : txContext_t) : Prop where
  field : c'.currentField = c.currentField
  length : c'.currentFieldLength = c.currentFieldLength
  pos : c'.currentFieldPos = c.currentFieldPos
  list : c'.currentFieldIsList = c.currentFieldIsList
  idle : c'.processingField = c.processingField
  single : c'.fieldSingleByte = c.fieldSingleByte
  data : c'.dataLength = c.dataLength
  chunk : c'.chunk = c.chunk
  content : c'.content = c.content
  buffer : c'.rlpBuffer.length = c.rlpBuffer.length
  cursor : c'.workBuffer + c'.commandLength = c.workBuffer + c.commandLength
  remaining : c'.commandLength ≤ c.commandLength

/-- The state of the staging buffer between calls that did not fail: at most four
bytes are staged, and none while a field is in progress. -/
structure Tidy (c : txContext_t) : Prop where
  fill : c.rlpBufferPos ≤ 4
  resolved : c.processingField = true → c.rlpBufferPos = 0

/-- How a context relates to an earlier one of the same call: the chunk is the same,
the cursor has advanced by what the remaining length has dropped, and the field has
not moved backward. -/
structure Progress (c c' : txContext_t) : Prop where
  chunk : c'.chunk = c.chunk
  cursor : c'.workBuffer + c'.commandLength = c.workBuffer + c.commandLength
  remaining : c'.commandLength ≤ c.commandLength
  forward : c.currentField.toNat ≤ c'.currentField.toNat

/-- A bound on the passes of the driver loop still to come: two for every field not yet
completed, less one once the chunk is exhausted. -/
def passesLeft (c : txContext_t) : Nat :=
  2 * (8 - c.currentField.toNat) + (if c.commandLength = 0 then 0 else 1)

/-- The contexts reached from a fresh context by calls of processTx, on chunks of any
content, none of which failed fatally: the contexts on which the specification allows a
further call (a context is not to be reused after a fatal failure). -/
inductive ReachedSafely : txContext_t → Prop where
  | fresh : ReachedSafely freshContext
  | call (c : txContext_t) (data : List Nat) (fuel : Nat) (o : Outcome) :
      ReachedSafely c → data.length < 4294967296 →
      processTx fuel (deliver c data) = some o → o.fatal = false →
      ReachedSafely o.context

/-- What a handler that finished leaves of a sound context with a field in progress: a
sound context later in the same chunk, the staging buffer untouched, and either the
field completed or the chunk exhausted. -/
structure Handles (c c' : txContext_t) : Prop where
  sound : Sound c'
  progress : Progress c c'
  buffer : c'.rlpBuffer = c.rlpBuffer
  fill : c'.rlpBufferPos = c.rlpBufferPos
  moved : (c'.currentField = c.currentField.incr ∧ c'.processingField = false) ∨
    (c'.currentField = c.currentField ∧ c'.processingField = true ∧ c'.commandLength = 0)

/-- The context on which the switch of processTx runs after the staged header was
decoded as d: the statements of startField between the decoder and the switch. -/
def resolve (c : txContext_t) (d : DecodedLength) : txContext_t :=
  let c1 := { c with currentFieldLength := d.fieldLength, currentFieldIsList := d.list }
  let c2 :=
    if d.offset = 0 then
      { c1 with workBuffer := c1.workBuffer - 1,
                commandLength := u32 (c1.commandLength + 1),
                fieldSingleByte := true }
    else { c1 with fieldSingleByte := false }
  { c2 with currentFieldPos := 0, rlpBufferPos := 0, processingField := true }

/-- The context after the copy branch of a handler, content being the output record
after the store: the cursor and the counters move by the copy size. A handler entered
with nothing of the field left to consume copies nothing. -/
def afterCopy (c : txContext_t) (content : txContent_t) : txContext_t :=
  if c.currentFieldPos < c.currentFieldLength then
    { c with content := content,
             workBuffer := c.workBuffer + copySize c,
             commandLength := c.commandLength - copySize c,
             currentFieldPos :=
               if c.processingField then u32 (c.currentFieldPos + copySize c)
               else c.currentFieldPos }
  else c

/-- The completion test that ends a handler of a byte-string field, fin being the
output record after the stores of the completion. -/
def completion (c1 : txContext_t) (fin : txContent_t) : txContext_t :=
  if c1.currentFieldPos = c1.currentFieldLength then
    { c1 with content := fin, currentField := c1.currentField.incr, processingField := false }
  else c1

/-- How a handler that finished has moved the field: it is completed, with the field
advanced and fieldInProgress cleared, exactly when the consumed count equals the
declared length. -/
def Moves (c c' : txContext_t) : Prop :=
  (c'.currentFieldPos = c'.currentFieldLength →
    c'.currentField = c.currentField.incr ∧ c'.processingField = false) ∧
  (c'.currentFieldPos ≠ c'.currentFieldLength →
    c'.currentField = c.currentField ∧ c'.processingField = c.processingField)

/-- The first ten bytes of the example transaction: they end three bytes into the
payload of the recipient. -/
def partTx : List Nat := exampleTx.take 10

/-- The context a fresh context is left in by a call on the first ten bytes of the
example transaction. -/
def partContext : txContext_t :=
  ((processTx 18 (deliver freshContext partTx)).map Outcome.context).getD freshContext

/-! ## Theorems -/


/-! ### The length expressions of rlpDecodeLength -/

theorem toUint32_natCast (n : Nat) (h : n < 4294967296) : toUint32 (n : Int) = n := by
  unfold toUint32
  omega

theorem addInt_emod (x y : Int) :
    addInt x y % 4294967296 = (x % 4294967296 + y % 4294967296) % 4294967296 := by
  unfold addInt wrapInt32
  omega

theorem shlInt_emod (x : Int) (k : Nat) :
    shlInt x k % 4294967296 = (x * 2 ^ k) % 4294967296 := by
  unfold shlInt wrapInt32
  omega

theorem lengthOf1_eq (b0 b1 : Nat) (rest : List Nat) (h1 : b1 < 256) :
    lengthOf1 (b0 :: b1 :: rest) = b1 := by
  simp only [lengthOf1, List.getD_cons_succ, List.getD_cons_zero]
  exact toUint32_natCast b1 (by omega)

theorem lengthOf2_eq (b0 b1 b2 : Nat) (rest : List Nat) (h1 : b1 < 256) (h2 : b2 < 256) :
    lengthOf2 (b0 :: b1 :: b2 :: rest) = b1 * 256 + b2 := by
  simp only [lengthOf2, List.getD_cons_succ, List.getD_cons_zero, toUint32, addInt_emod,
    shlInt_emod]
  norm_num
  omega

theorem lengthOf3_eq (b0 b1 b2 b3 : Nat) (rest : List Nat)
    (h1 : b1 < 256) (h2 : b2 < 256) (h3 : b3 < 256) :
    lengthOf3 (b0 :: b1 :: b2 :: b3 :: rest) = (b1 * 256 + b2) * 256 + b3 := by
  simp only [lengthOf3, List.getD_cons_succ, List.getD_cons_zero, toUint32, addInt_emod,
    shlInt_emod]
  norm_num
  omega

theorem lengthOf4_eq (b0 b1 b2 b3 b4 : Nat) (rest : List Nat)
    (h1 : b1 < 256) (h2 : b2 < 256) (h3 : b3 < 256) (h4 : b4 < 256) :
    lengthOf4 (b0 :: b1 :: b2 :: b3 :: b4 :: rest)
      = ((b1 * 256 + b2) * 256 + b3) * 256 + b4 := by
  simp only [lengthOf4, List.getD_cons_succ, List.getD_cons_zero, toUint32, addInt_emod,
    shlInt_emod]
  norm_num
  omega

/-! ### The header decoder against the reference decoder -/

/-- C9: on every buffer of bytes that holds the full header, rlpDecodeLength reports what
the reference RLP header decoder reports (length 1 and offset 0 for a self-encoded byte,
b - 0x80 or b - 0xc0 with offset 1 for the short forms, the big-endian integer of the
k length bytes with offset 1 + k for the long forms, as an unsigned 32-bit value), and
it fails exactly for a leading byte in 0xbc..0xbf or 0xfc..0xff. -/
theorem rlpDecodeLength_eq_reference (buffer : List Nat) (bufferLength fieldLength : Nat)
    (hbytes : isBytes buffer)
    (hfull : headerBytes (buffer.getD 0 0) ≤ buffer.length) :
    (rlpDecodeLength buffer bufferLength fieldLength).report = referenceHeader buffer ∧
    ((rlpDecodeLength buffer bufferLength fieldLength).ok = false ↔
      (0xbc ≤ buffer.getD 0 0 ∧ buffer.getD 0 0 ≤ 0xbf) ∨
      (0xfc ≤ buffer.getD 0 0 ∧ buffer.getD 0 0 ≤ 0xff)) := by
  match buffer, hbytes, hfull with
  | [], _, hfull => simp [headerBytes] at hfull
  | b0 :: rest, hbytes, hfull =>
    have h0 : b0 < 256 := hbytes b0 (by simp)
    simp only [List.getD_cons_zero] at hfull ⊢
    by_cases c1 : b0 ≤ 0x7f
    · simp [rlpDecodeLength, referenceHeader, DecodedLength.report, c1]
      omega
    by_cases c2 : b0 ≤ 0xb7
    · simp [rlpDecodeLength, referenceHeader, DecodedLength.report, c1, c2]
      omega
    by_cases c3 : b0 ≤ 0xbb
    · have c3' : b0 ≤ 0xbf := by omega
      have hb : b0 = 0xb8 ∨ b0 = 0xb9 ∨ b0 = 0xba ∨ b0 = 0xbb := by omega
      rcases hb with hb | hb | hb | hb <;> subst hb
      · match rest, hbytes, hfull with
        | b1 :: r, hbytes, _ =>
          have := lengthOf1_eq 0xb8 b1 r (hbytes b1 (by simp))
          simp [rlpDecodeLength, referenceHeader, DecodedLength.report, bigEndian, this]
        | [], _, hfull => simp [headerBytes] at hfull
      · match rest, hbytes, hfull with
        | b1 :: b2 :: r, hbytes, _ =>
          have := lengthOf2_eq 0xb9 b1 b2 r (hbytes b1 (by simp)) (hbytes b2 (by simp))
          simp [rlpDecodeLength, referenceHeader, DecodedLength.report, bigEndian, this]
        | [_], _, hfull => simp [headerBytes] at hfull
        | [], _, hfull => simp [headerBytes] at hfull
      · match rest, hbytes, hfull with
        | b1 :: b2 :: b3 :: r, hbytes, _ =>
          have := lengthOf3_eq 0xba b1 b2 b3 r (hbytes b1 (by simp)) (hbytes b2 (by simp))
            (hbytes b3 (by simp))
          simp [rlpDecodeLength, referenceHeader, DecodedLength.report, bigEndian, this]
        | [_, _], _, hfull => simp [headerBytes] at hfull
        | [_], _, hfull => simp [headerBytes] at hfull
        | [], _, hfull => simp [headerBytes] at hfull
      · match rest, hbytes, hfull with
        | b1 :: b2 :: b3 :: b4 :: r, hbytes, _ =>
          have := lengthOf4_eq 0xbb b1 b2 b3 b4 r (hbytes b1 (by simp)) (hbytes b2 (by simp))
            (hbytes b3 (by simp)) (hbytes b4 (by simp))
          simp [rlpDecodeLength, referenceHeader, DecodedLength.report, bigEndian, this]
        | [_, _, _], _, hfull => simp [headerBytes] at hfull
        | [_, _], _, hfull => simp [headerBytes] at hfull
        | [_], _, hfull => simp [headerBytes] at hfull
        | [], _, hfull => simp [headerBytes] at hfull
    by_cases c4 : b0 ≤ 0xbf
    · have e1 : ¬ b0 = 0xb8 := by omega
      have e2 : ¬ b0 = 0xb9 := by omega
      have e3 : ¬ b0 = 0xba := by omega
      have e4 : ¬ b0 = 0xbb := by omega
      simp [rlpDecodeLength, referenceHeader, DecodedLength.report, c1, c2, c3, c4, e1, e2,
        e3, e4]
      omega
    by_cases c5 : b0 ≤ 0xf7
    · simp [rlpDecodeLength, referenceHeader, DecodedLength.report, c1, c2, c3, c4, c5]
      omega
    by_cases c6 : b0 ≤ 0xfb
    · have hb : b0 = 0xf8 ∨ b0 = 0xf9 ∨ b0 = 0xfa ∨ b0 = 0xfb := by omega
      rcases hb with hb | hb | hb | hb <;> subst hb
      · match rest, hbytes, hfull with
        | b1 :: r, hbytes, _ =>
          have := lengthOf1_eq 0xf8 b1 r (hbytes b1 (by simp))
          simp [rlpDecodeLength, referenceHeader, DecodedLength.report, bigEndian, this]
        | [], _, hfull => simp [headerBytes] at hfull
      · match rest, hbytes, hfull with
        | b1 :: b2 :: r, hbytes, _ =>
          have := lengthOf2_eq 0xf9 b1 b2 r (hbytes b1 (by simp)) (hbytes b2 (by simp))
          simp [rlpDecodeLength, referenceHeader, DecodedLength.report, bigEndian, this]
        | [_], _, hfull => simp [headerBytes] at hfull
        | [], _, hfull => simp [headerBytes] at hfull
      · match rest, hbytes, hfull with
        | b1 :: b2 :: b3 :: r, hbytes, _ =>
          have := lengthOf3_eq 0xfa b1 b2 b3 r (hbytes b1 (by simp)) (hbytes b2 (by simp))
            (hbytes b3 (by simp))
          simp [rlpDecodeLength, referenceHeader, DecodedLength.report, bigEndian, this]
        | [_, _], _, hfull => simp [headerBytes] at hfull
        | [_], _, hfull => simp [headerBytes] at hfull
        | [], _, hfull => simp [headerBytes] at hfull
      · match rest, hbytes, hfull with
        | b1 :: b2 :: b3 :: b4 :: r, hbytes, _ =>
          have := lengthOf4_eq 0xfb b1 b2 b3 b4 r (hbytes b1 (by simp)) (hbytes b2 (by simp))
            (hbytes b3 (by simp)) (hbytes b4 (by simp))
          simp [rlpDecodeLength, referenceHeader, DecodedLength.report, bigEndian, this]
        | [_, _, _], _, hfull => simp [headerBytes] at hfull
        | [_, _], _, hfull => simp [headerBytes] at hfull
        | [_], _, hfull => simp [headerBytes] at hfull
        | [], _, hfull => simp [headerBytes] at hfull
    · have e1 : ¬ b0 = 0xf8 := by omega
      have e2 : ¬ b0 = 0xf9 := by omega
      have e3 : ¬ b0 = 0xfa := by omega
      have e4 : ¬ b0 = 0xfb := by omega
      simp [rlpDecodeLength, referenceHeader, DecodedLength.report, c1, c2, c3, c4, c5, c6,
        e1, e2, e3, e4]
      omega

theorem rlpDecodeLength_eq_reference_witness :
    (isBytes [0xbb, 0x80, 0x00, 0x00, 0x01] ∧
      headerBytes ([0xbb, 0x80, 0x00, 0x00, 0x01].getD 0 0)
        ≤ [0xbb, 0x80, 0x00, 0x00, 0x01].length) ∧
    (rlpDecodeLength [0xbb, 0x80, 0x00, 0x00, 0x01] 5 0).report
      = referenceHeader [0xbb, 0x80, 0x00, 0x00, 0x01] ∧
    referenceHeader [0xbb, 0x80, 0x00, 0x00, 0x01] = some (2147483649, 5, false) :=
  ⟨⟨by decide, by decide⟩,
   (rlpDecodeLength_eq_reference [0xbb, 0x80, 0x00, 0x00, 0x01] 5 0 (by decide) (by decide)).1,
   by decide⟩

/-! ### The probe rlpCanDecode -/

/-- C10: rlpCanDecode on valid leading bytes. With at least one byte staged, a leading
byte b ≤ 0xb7 or in 0xc0..0xf7 is reported resolvable with valid = true; for b in
0xb8..0xbb this happens exactly when at least 1 + (b - 0xb7) bytes are staged, for b in
0xf8..0xfb exactly when at least 1 + (b - 0xf7) are; with fewer bytes staged the
function returns false (need more bytes) and leaves valid as it was. -/
theorem rlpCanDecode_valid_leading (b : Nat) (rest : List Nat) (bufferLength : Nat)
    (valid : Bool) (_hlen : 1 ≤ bufferLength) :
    ((b ≤ 0xb7 ∨ (0xc0 ≤ b ∧ b ≤ 0xf7)) →
      rlpCanDecode (b :: rest) bufferLength valid = (true, true)) ∧
    ((0xb8 ≤ b ∧ b ≤ 0xbb) →
      (rlpCanDecode (b :: rest) bufferLength valid = (true, true) ↔
        1 + (b - 0xb7) ≤ bufferLength) ∧
      (bufferLength < 1 + (b - 0xb7) →
        rlpCanDecode (b :: rest) bufferLength valid = (false, valid))) ∧
    ((0xf8 ≤ b ∧ b ≤ 0xfb) →
      (rlpCanDecode (b :: rest) bufferLength valid = (true, true) ↔
        1 + (b - 0xf7) ≤ bufferLength) ∧
      (bufferLength < 1 + (b - 0xf7) →
        rlpCanDecode (b :: rest) bufferLength valid = (false, valid))) := by
  refine ⟨?_, ?_, ?_⟩
  · intro h
    simp only [rlpCanDecode, List.getD_cons_zero]
    split_ifs <;> first | rfl | omega
  · intro h
    have c1 : ¬ b ≤ 0x7f := by omega
    have c2 : ¬ b ≤ 0xb7 := by omega
    have c3 : b ≤ 0xbf := by omega
    have c4 : ¬ b > 0xbb := by omega
    simp only [rlpCanDecode, List.getD_cons_zero, c1, c2, c3, c4, if_true, if_false]
    constructor
    · by_cases hl : bufferLength < 1 + (b - 0xb7)
      · simp [hl]
      · simp [hl]; omega
    · intro hl
      simp [hl]
  · intro h
    have c1 : ¬ b ≤ 0x7f := by omega
    have c2 : ¬ b ≤ 0xb7 := by omega
    have c3 : ¬ b ≤ 0xbf := by omega
    have c4 : ¬ b ≤ 0xf7 := by omega
    have c5 : ¬ b > 0xfb := by omega
    simp only [rlpCanDecode, List.getD_cons_zero, c1, c2, c3, c4, c5, if_true, if_false]
    constructor
    · by_cases hl : bufferLength < 1 + (b - 0xf7)
      · simp [hl]
      · simp [hl]; omega
    · intro hl
      simp [hl]

theorem rlpCanDecode_valid_leading_witness :
    1 ≤ 2 ∧ rlpCanDecode [0xb9, 0x01] 2 false = (false, false) ∧
      rlpCanDecode [0x85] 2 false = (true, true) :=
  ⟨by decide,
   ((rlpCanDecode_valid_leading 0xb9 [0x01] 2 false (by decide)).2.1
      ⟨by decide, by decide⟩).2 (by decide),
   (rlpCanDecode_valid_leading 0x85 [] 2 false (by decide)).1 (Or.inl (by decide))⟩

/-! ### The handlers in their common shape -/

theorem processNonce_eq :
    processNonce = stringHandler MAX_INT256 none (fun _ c => c) := rfl

theorem processGasprice_eq :
    processGasprice = stringHandler MAX_INT256 (some storeGasprice) finishGasprice := rfl

theorem processStartGas_eq :
    processStartGas = stringHandler MAX_INT256 (some storeStartgas) finishStartgas := rfl

theorem processValue_eq :
    processValue = stringHandler MAX_INT256 (some storeValue) finishValue := rfl

theorem processTo_eq :
    processTo = stringHandler MAX_ADDRESS (some storeDestination) finishDestination := rfl

theorem processFromShard_eq :
    processFromShard
      = shardHandler 4 (fun c => c.fromShard) (fun v c => { c with fromShard := v }) := rfl

theorem processToShard_eq :
    processToShard
      = shardHandler MAX_INT32 (fun c => c.toShard) (fun v c => { c with toShard := v }) := rfl

/-! ### Staging and resolving a header -/

theorem u32_of_lt {x : Nat} (h : x < 4294967296) : u32 x = x := by
  unfold u32; omega

theorem u32_pred {c : Nat} (h0 : 0 < c) (h : c < 4294967296) :
    u32 (c + 4294967295) = c - 1 := by
  unfold u32; omega

theorem getD_of_drop_eq_cons {l : List Nat} {i b : Nat} {more : List Nat}
    (h : l.drop i = b :: more) : l.getD i 0 = b := by
  have hi : i < l.length := by
    by_contra hc
    rw [List.drop_of_length_le (by omega)] at h
    cases h
  rw [List.drop_eq_getElem_cons hi] at h
  simp only [List.cons.injEq] at h
  simp [List.getD_eq_getElem?_getD, List.getElem?_eq_getElem hi, h.1]

theorem drop_succ_of_drop_eq_cons {l : List Nat} {i b : Nat} {more : List Nat}
    (h : l.drop i = b :: more) : l.drop (i + 1) = more := by
  have hi : i < l.length := by
    by_contra hc
    rw [List.drop_of_length_le (by omega)] at h
    cases h
  rw [List.drop_eq_getElem_cons hi] at h
  simp only [List.cons.injEq] at h
  exact h.2

/-- The pass counter of the staging loop is never the reason the loop is left: with at
least commandLength passes allowed, the loop ends as with exactly commandLength. -/
theorem stageHeader_passes (n : Nat) : ∀ (c : txContext_t), c.commandLength ≤ n →
    stageHeader n c = stageHeader c.commandLength c := by
  induction n using Nat.strong_induction_on with
  | _ n ih =>
    intro c hle
    match n, ih, hle with
    | 0, _, hle =>
      have : c.commandLength = 0 := by omega
      rw [this]
    | n + 1, ih, hle =>
      by_cases h0 : c.commandLength = 0
      · rw [h0]
        simp [stageHeader, h0]
      · obtain ⟨m, hm⟩ : ∃ m, c.commandLength = m + 1 := ⟨c.commandLength - 1, by omega⟩
        have hdec : u32 (m + 1 + 4294967295) ≤ m := by unfold u32; omega
        rw [hm]
        rw [stageHeader, stageHeader]
        simp only [hm, ne_eq, Nat.add_one_ne_zero, not_false_eq_true, if_true,
          Nat.lt_one_iff, if_false, readTxByte]
        split_ifs
        all_goals first
          | rfl
          | (rw [ih n (by omega) _ (by simpa using (by omega : u32 (m + 1 + 4294967295) ≤ n)),
                ih m (by omega) _ (by simpa using hdec)])

theorem stageHeader_one (ctx : txContext_t) (b : Nat)
    (hc0 : 0 < ctx.commandLength) (hc : ctx.commandLength < 4294967296)
    (hidle : ctx.processingField = false) (hpos : ctx.rlpBufferPos = 0)
    (hbuf : ctx.rlpBuffer.length = 5)
    (hb : ctx.chunk.getD ctx.workBuffer 0 = b)
    (hone : b ≤ 0xb7 ∨ (0xc0 ≤ b ∧ b ≤ 0xf7)) :
    stageHeader ctx.commandLength ctx = .left true
      { ctx with workBuffer := ctx.workBuffer + 1, commandLength := ctx.commandLength - 1,
                 rlpBuffer := ctx.rlpBuffer.set 0 b, rlpBufferPos := 1 } := by
  obtain ⟨cf, cfl, cfp, cil, pf, fsb, dl, rb, rbp, ch, wb, cl, ct⟩ := ctx
  simp only at hc0 hc hidle hpos hbuf hb
  subst hidle hpos
  obtain ⟨k, rfl⟩ : ∃ k, cl = k + 1 := ⟨cl - 1, by omega⟩
  match rb, hbuf with
  | [r0, r1, r2, r3, r4], _ =>
    have hk : u32 (k + 1 + 4294967295) = k := by rw [u32_pred (by omega) hc]; omega
    have h1 : u32 1 = 1 := rfl
    have hb1 : ch[wb]?.getD 0 = b := by simpa using hb
    have hcan : rlpCanDecode [b, r1, r2, r3, r4] 1 false = (true, true) := by
      simp only [rlpCanDecode, List.getD_cons_zero]
      split_ifs <;> first | rfl | omega
    simp [stageHeader, readTxByte, hk, hb1, hcan, h1]

theorem body_header_short (ctx : txContext_t) (f : rlpTxField_e) (b : Nat) (more : List Nat)
    (h : Awaiting ctx f (b :: more)) (hf : f ≠ TX_RLP_DONE)
    (hlen : more.length + 1 < 4294967296) (hb : 0x80 ≤ b ∧ b ≤ 0xb7) :
    processTxBody ctx = dispatch
      { ctx with workBuffer := ctx.workBuffer + 1, commandLength := more.length,
                 rlpBuffer := ctx.rlpBuffer.set 0 b, rlpBufferPos := 0,
                 currentFieldLength := b - 0x80, currentFieldIsList := false,
                 fieldSingleByte := false, currentFieldPos := 0, processingField := true } := by
  obtain ⟨hfield, hidle, hstaged, hbuffer, hrest, hcount⟩ := h
  have hst := stageHeader_one ctx b (by rw [hcount]; simp) (by rw [hcount]; simpa using hlen)
    hidle hstaged hbuffer (getD_of_drop_eq_cons hrest) (Or.inl hb.2)
  obtain ⟨cf, cfl, cfp, cil, pf, fsb, dl, rb, rbp, ch, wb, cl, ct⟩ := ctx
  simp only at hfield hidle hstaged hbuffer hrest hcount hst
  subst hfield hidle hstaged hcount
  simp only [List.length_cons, Nat.add_sub_cancel] at hst
  match rb, hbuffer with
  | [r0, r1, r2, r3, r4], _ =>
    have c1 : ¬ b ≤ 0x7f := by omega
    simp [processTxBody, hf, hst, startField, rlpDecodeLength, c1, hb.2]

theorem body_header_single (ctx : txContext_t) (f : rlpTxField_e) (b : Nat) (more : List Nat)
    (h : Awaiting ctx f (b :: more)) (hf : f ≠ TX_RLP_DONE)
    (hlen : more.length + 1 < 4294967296) (hb : b ≤ 0x7f) :
    processTxBody ctx = dispatch
      { ctx with rlpBuffer := ctx.rlpBuffer.set 0 b, rlpBufferPos := 0,
                 currentFieldLength := 1, currentFieldIsList := false,
                 fieldSingleByte := true, currentFieldPos := 0, processingField := true } := by
  obtain ⟨hfield, hidle, hstaged, hbuffer, hrest, hcount⟩ := h
  have hst := stageHeader_one ctx b (by rw [hcount]; simp) (by rw [hcount]; simpa using hlen)
    hidle hstaged hbuffer (getD_of_drop_eq_cons hrest) (Or.inl (by omega))
  obtain ⟨cf, cfl, cfp, cil, pf, fsb, dl, rb, rbp, ch, wb, cl, ct⟩ := ctx
  simp only at hfield hidle hstaged hbuffer hrest hcount hst
  subst hfield hidle hstaged hcount
  simp only [List.length_cons, Nat.add_sub_cancel] at hst
  match rb, hbuffer with
  | [r0, r1, r2, r3, r4], _ =>
    have hu : u32 (more.length + 1) = more.length + 1 := u32_of_lt hlen
    simp [processTxBody, hf, hst, startField, rlpDecodeLength, hb, hu]

theorem body_header_shortlist (ctx : txContext_t) (f : rlpTxField_e) (b : Nat)
    (more : List Nat)
    (h : Awaiting ctx f (b :: more)) (hf : f ≠ TX_RLP_DONE)
    (hlen : more.length + 1 < 4294967296) (hb : 0xc0 ≤ b ∧ b ≤ 0xf7) :
    processTxBody ctx = dispatch
      { ctx with workBuffer := ctx.workBuffer + 1, commandLength := more.length,
                 rlpBuffer := ctx.rlpBuffer.set 0 b, rlpBufferPos := 0,
                 currentFieldLength := b - 0xc0, currentFieldIsList := true,
                 fieldSingleByte := false, currentFieldPos := 0, processingField := true } := by
  obtain ⟨hfield, hidle, hstaged, hbuffer, hrest, hcount⟩ := h
  have hst := stageHeader_one ctx b (by rw [hcount]; simp) (by rw [hcount]; simpa using hlen)
    hidle hstaged hbuffer (getD_of_drop_eq_cons hrest) (Or.inr hb)
  obtain ⟨cf, cfl, cfp, cil, pf, fsb, dl, rb, rbp, ch, wb, cl, ct⟩ := ctx
  simp only at hfield hidle hstaged hbuffer hrest hcount hst
  subst hfield hidle hstaged hcount
  simp only [List.length_cons, Nat.add_sub_cancel] at hst
  match rb, hbuffer with
  | [r0, r1, r2, r3, r4], _ =>
    have c1 : ¬ b ≤ 0x7f := by omega
    have c2 : ¬ b ≤ 0xb7 := by omega
    have c3 : ¬ b ≤ 0xbf := by omega
    simp [processTxBody, hf, hst, startField, rlpDecodeLength, c1, c2, c3, hb.2]

theorem body_header_list8 (ctx : txContext_t) (f : rlpTxField_e) (n : Nat) (more : List Nat)
    (h : Awaiting ctx f (0xf8 :: n :: more)) (hf : f ≠ TX_RLP_DONE)
    (hlen : more.length + 2 < 4294967296) (hn : n < 256) :
    processTxBody ctx = dispatch
      { ctx with workBuffer := ctx.workBuffer + 2, commandLength := more.length,
                 rlpBuffer := (ctx.rlpBuffer.set 0 0xf8).set 1 n, rlpBufferPos := 0,
                 currentFieldLength := n, currentFieldIsList := true,
                 fieldSingleByte := false, currentFieldPos := 0, processingField := true } := by
  obtain ⟨hfield, hidle, hstaged, hbuffer, hrest, hcount⟩ := h
  have hb0 := getD_of_drop_eq_cons hrest
  have hb1 := getD_of_drop_eq_cons (drop_succ_of_drop_eq_cons hrest)
  obtain ⟨cf, cfl, cfp, cil, pf, fsb, dl, rb, rbp, ch, wb, cl, ct⟩ := ctx
  simp only at hfield hidle hstaged hbuffer hrest hcount hb0 hb1
  subst hfield hidle hstaged hcount
  match rb, hbuffer with
  | [r0, r1, r2, r3, r4], _ =>
    have hk1 : u32 (more.length + 1 + 1 + 4294967295) = more.length + 1 := by
      unfold u32; omega
    have hk2 : u32 (more.length + 1 + 4294967295) = more.length := by
      unfold u32; omega
    have h1 : u32 1 = 1 := rfl
    have h2 : u32 (1 + 1) = 2 := rfl
    have hb0' : ch[wb]?.getD 0 = 0xf8 := by simpa using hb0
    have hb1' : ch[wb + 1]?.getD 0 = n := by simpa using hb1
    have hl1 : lengthOf1 [0xf8, n, r2, r3, r4] = n := lengthOf1_eq _ _ _ hn
    simp [processTxBody, hf, stageHeader, readTxByte, hk1, hk2, h1, h2, hb0', hb1',
      rlpCanDecode, RLP_BUFFER_SIZE, startField, rlpDecodeLength, hl1]

/-! ### The switch and the handlers on a resolved header -/

theorem dispatch_content (c : txContext_t) (hf : c.currentField = TX_RLP_CONTENT)
    (hl : c.currentFieldIsList = true) :
    dispatch c = .again { c with dataLength := c.currentFieldLength,
                                 currentField := TX_RLP_NONCE, processingField := false } := by
  simp [dispatch, hf, processContent, hl, afterHandler, rlpTxField_e.incr]

theorem dispatch_nonce (c : txContext_t) (hf : c.currentField = TX_RLP_NONCE) :
    dispatch c = afterHandler (stringHandler MAX_INT256 none (fun _ x => x) c) := by
  simp [dispatch, hf, processNonce_eq]

theorem dispatch_gasprice (c : txContext_t) (hf : c.currentField = TX_RLP_GASPRICE) :
    dispatch c
      = afterHandler (stringHandler MAX_INT256 (some storeGasprice) finishGasprice c) := by
  simp [dispatch, hf, processGasprice_eq]

theorem dispatch_startgas (c : txContext_t) (hf : c.currentField = TX_RLP_STARTGAS) :
    dispatch c
      = afterHandler (stringHandler MAX_INT256 (some storeStartgas) finishStartgas c) := by
  simp [dispatch, hf, processStartGas_eq]

theorem dispatch_to (c : txContext_t) (hf : c.currentField = TX_RLP_TO) :
    dispatch c
      = afterHandler (stringHandler MAX_ADDRESS (some storeDestination) finishDestination c) := by
  simp [dispatch, hf, processTo_eq]

theorem dispatch_amount (c : txContext_t) (hf : c.currentField = TX_RLP_AMOUNT) :
    dispatch c = afterValue (stringHandler MAX_INT256 (some storeValue) finishValue c) := by
  simp [dispatch, hf, processValue_eq]

theorem dispatch_fromShard (c : txContext_t) (hf : c.currentField = TX_RLP_FROMSHARD) :
    dispatch c = afterHandler
      (shardHandler 4 (fun x => x.fromShard) (fun v x => { x with fromShard := v }) c) := by
  simp [dispatch, hf, processFromShard_eq]

theorem dispatch_toShard (c : txContext_t) (hf : c.currentField = TX_RLP_TOSHARD) :
    dispatch c = afterHandler
      (shardHandler MAX_INT32 (fun x => x.toShard) (fun v x => { x with toShard := v }) c) := by
  simp [dispatch, hf, processToShard_eq]

/-- A handler of a byte-string field that finds the rest of the payload in the chunk
copies it and completes the field. -/
theorem stringHandler_complete (ceiling : Nat)
    (out : Option (Nat → txContent_t → List Nat → txContent_t))
    (finish : Nat → txContent_t → txContent_t) (c : txContext_t)
    (hl : c.currentFieldIsList = false) (hceil : c.currentFieldLength ≤ ceiling)
    (hpf : c.processingField = true) (hpos : c.currentFieldPos < c.currentFieldLength)
    (hcmd : c.currentFieldLength - c.currentFieldPos ≤ c.commandLength)
    (h32 : c.currentFieldLength < 4294967296) :
    stringHandler ceiling out finish c = .ok
      { c with
        content := finish c.currentFieldLength (applyOut out c.currentFieldPos c.content
          (readBytes c.chunk c.workBuffer (c.currentFieldLength - c.currentFieldPos))),
        workBuffer := c.workBuffer + (c.currentFieldLength - c.currentFieldPos),
        commandLength := c.commandLength - (c.currentFieldLength - c.currentFieldPos),
        currentFieldPos := c.currentFieldLength,
        currentField := c.currentField.incr,
        processingField := false } := by
  obtain ⟨cf, cfl, cfp, cil, pf, fsb, dl, rb, rbp, ch, wb, cl, ct⟩ := c
  simp only at hl hceil hpf hpos hcmd h32
  subst hl hpf
  have h1 : ¬ cfl > ceiling := by omega
  have h2 : ¬ cl < cfl - cfp := by omega
  have h3 : u32 (cfp + (cfl - cfp)) = cfl := by rw [u32_of_lt (by omega)]; omega
  cases out <;>
    simp [stringHandler, h1, hpos, copySize, h2, copyTxData, h3, applyOut]

/-- A handler of a byte-string field that finds less than the rest of the payload in
the chunk copies the whole chunk and leaves the field in progress. -/
theorem stringHandler_piece (ceiling : Nat)
    (out : Option (Nat → txContent_t → List Nat → txContent_t))
    (finish : Nat → txContent_t → txContent_t) (c : txContext_t)
    (hl : c.currentFieldIsList = false) (hceil : c.currentFieldLength ≤ ceiling)
    (hpf : c.processingField = true)
    (hcmd : c.commandLength < c.currentFieldLength - c.currentFieldPos)
    (h32 : c.currentFieldLength < 4294967296) :
    stringHandler ceiling out finish c = .ok
      { c with
        content := applyOut out c.currentFieldPos c.content
          (readBytes c.chunk c.workBuffer c.commandLength),
        workBuffer := c.workBuffer + c.commandLength,
        commandLength := 0,
        currentFieldPos := c.currentFieldPos + c.commandLength } := by
  obtain ⟨cf, cfl, cfp, cil, pf, fsb, dl, rb, rbp, ch, wb, cl, ct⟩ := c
  simp only at hl hceil hpf hcmd h32
  subst hl hpf
  have h1 : ¬ cfl > ceiling := by omega
  have h0 : cfp < cfl := by omega
  have h3 : u32 (cfp + cl) = cfp + cl := by rw [u32_of_lt (by omega)]
  have h4 : ¬ cfp + cl = cfl := by omega
  cases out <;>
    simp [stringHandler, h1, h0, copySize, hcmd, copyTxData, h3, h4, applyOut]

/-- A handler of a byte-string field of declared length 0 completes the field without
a copy. -/
theorem stringHandler_empty (ceiling : Nat)
    (out : Option (Nat → txContent_t → List Nat → txContent_t))
    (finish : Nat → txContent_t → txContent_t) (c : txContext_t)
    (hl : c.currentFieldIsList = false)
    (hpos : c.currentFieldPos = c.currentFieldLength) (hceil : c.currentFieldLength ≤ ceiling) :
    stringHandler ceiling out finish c = .ok
      { c with
        content := finish c.currentFieldLength c.content,
        currentField := c.currentField.incr,
        processingField := false } := by
  obtain ⟨cf, cfl, cfp, cil, pf, fsb, dl, rb, rbp, ch, wb, cl, ct⟩ := c
  simp only at hl hpos hceil
  subst hl hpos
  have h1 : ¬ cfp > ceiling := by omega
  simp [stringHandler, h1]

theorem rlpString_cases (p : List Nat) :
    (∃ b, p = [b] ∧ b ≤ 0x7f ∧ rlpString p = [b]) ∨
      rlpString p = (0x80 + p.length) :: p := by
  match p with
  | [] => right; rfl
  | [b] =>
    by_cases hb : b ≤ 0x7f
    · left; exact ⟨b, rfl, hb, by simp [rlpString, hb]⟩
    · right; simp [rlpString, hb]
  | _ :: _ :: _ => right; rfl

theorem rlpString_length_le (p : List Nat) : (rlpString p).length ≤ p.length + 1 := by
  rcases rlpString_cases p with ⟨b, rfl, _, h⟩ | h <;> simp [h]

/-- A byte-string field whose whole encoding is in the chunk is decoded in one pass of
the driver loop: the payload goes through the destination pointer, the completion
stores are made, and the context waits for the next header. -/
theorem field_in_chunk (wrap : Handled → Step) (ceiling : Nat)
    (out : Option (Nat → txContent_t → List Nat → txContent_t))
    (finish : Nat → txContent_t → txContent_t) (f : rlpTxField_e) (hf : f ≠ TX_RLP_DONE)
    (hd : ∀ c, c.currentField = f → dispatch c = wrap (stringHandler ceiling out finish c))
    (ctx : txContext_t) (p rest : List Nat)
    (h : Awaiting ctx f (rlpString p ++ rest))
    (hp : p.length ≤ ceiling) (hc : ceiling ≤ 55)
    (hlen : (rlpString p ++ rest).length < 4294967296) :
    ∃ ctx', processTxBody ctx = wrap (.ok ctx') ∧ Awaiting ctx' f.incr rest ∧
      ctx'.content = finish p.length
        (if p = [] then ctx.content else applyOut out 0 ctx.content p) := by
  rcases rlpString_cases p with ⟨b, rfl, hb, hs⟩ | hs
  · rw [hs] at h hlen
    simp only [List.singleton_append, List.length_cons] at h hlen
    have hbody := body_header_single ctx f b rest h hf hlen hb
    obtain ⟨hfield, hidle, hstaged, hbuffer, hrest, hcount⟩ := h
    rw [hbody, hd]
    · rw [stringHandler_complete _ _ _ _ rfl (by simp at hp ⊢; omega) rfl (by simp)
        (by simp [hcount]) (by simp)]
      refine ⟨_, rfl, ⟨by simp [hfield], rfl, rfl, by simp [hbuffer], ?_, ?_⟩, ?_⟩
      · simpa using drop_succ_of_drop_eq_cons hrest
      · simp [hcount]
      · simp [readBytes, hrest]
    · exact hfield
  · rw [hs] at h hlen
    simp only [List.cons_append, List.length_cons, List.length_append] at h hlen
    have hbody := body_header_short ctx f (0x80 + p.length) (p ++ rest) h hf
      (by simpa using hlen) ⟨by omega, by omega⟩
    obtain ⟨hfield, hidle, hstaged, hbuffer, hrest, hcount⟩ := h
    rw [hbody, hd]
    · by_cases hnil : p = []
      · subst hnil
        rw [stringHandler_empty _ _ _ _ rfl (by simp) (by simp)]
        refine ⟨_, rfl, ⟨by simp [hfield], rfl, rfl, by simp [hbuffer], ?_, ?_⟩, ?_⟩
        · simpa using drop_succ_of_drop_eq_cons hrest
        · simp
        · simp
      · have hpos : 0 < p.length := List.length_pos.mpr hnil
        rw [stringHandler_complete _ _ _ _ rfl (by simp; omega) rfl (by simpa using hpos)
          (by simp) (by simp; omega)]
        have hdrop := drop_succ_of_drop_eq_cons hrest
        refine ⟨_, rfl, ⟨by simp [hfield], rfl, rfl, by simp [hbuffer], ?_, ?_⟩, ?_⟩
        · simp [← List.drop_drop, hdrop]
        · simp
        · simp [readBytes, hdrop, hnil]
    · exact hfield


/-! ### Shard reassembly -/

theorem shard_step (acc a : Nat) (ha : a < 256) (hacc : acc < 16777216) :
    u32 (acc <<< 8) ||| a = acc * 256 + a := by
  have h := Nat.mul_add_lt_is_or (i := 8) ha acc
  rw [Nat.shiftLeft_eq, u32_of_lt (by omega), Nat.mul_comm acc (2 ^ 8), ← h]

theorem shardLoop_four (a0 a1 a2 a3 : Nat)
    (h0 : a0 < 256) (h1 : a1 < 256) (h2 : a2 < 256) (h3 : a3 < 256) :
    shardLoop [a0, a1, a2, a3] 1 = a0 ∧
    shardLoop [a0, a1, a2, a3] 2 = a0 * 256 + a1 ∧
    shardLoop [a0, a1, a2, a3] 3 = (a0 * 256 + a1) * 256 + a2 ∧
    shardLoop [a0, a1, a2, a3] 4 = ((a0 * 256 + a1) * 256 + a2) * 256 + a3 := by
  have r1 : List.range 1 = [0] := rfl
  have r2 : List.range 2 = [0, 1] := rfl
  have r3 : List.range 3 = [0, 1, 2] := rfl
  have r4 : List.range 4 = [0, 1, 2, 3] := rfl
  have s0 := shard_step 0 a0 h0 (by omega)
  have s1 := shard_step (0 * 256 + a0) a1 h1 (by omega)
  have s2 := shard_step ((0 * 256 + a0) * 256 + a1) a2 h2 (by omega)
  have s3 := shard_step (((0 * 256 + a0) * 256 + a1) * 256 + a2) a3 h3 (by omega)
  simp only [shardLoop, r1, r2, r3, r4, List.foldl, List.getD_cons_zero, List.getD_cons_succ,
    s0, s1, s2, s3]
  omega

theorem u32Bytes_bytesU32 (a0 a1 a2 a3 : Nat)
    (h0 : a0 < 256) (h1 : a1 < 256) (h2 : a2 < 256) (h3 : a3 < 256) :
    u32Bytes (bytesU32 [a0, a1, a2, a3]) = [a0, a1, a2, a3] := by
  simp only [u32Bytes, bytesU32, List.getD_cons_zero, List.getD_cons_succ]
  congr 1
  · omega
  congr 1
  · omega
  congr 1
  · omega
  congr 1
  omega

/-- The bytes of a shard field copied into a slot in one piece are reassembled to their
big-endian value. -/
theorem shard_reassembled (v : Nat) (p : List Nat) (hp : isBytes p)
    (h1 : 0 < p.length) (h4 : p.length ≤ 4) :
    shardLoop (u32Bytes (bytesU32 (writeBytes (u32Bytes v) 0 p))) p.length = bigEndian p := by
  have b1 : v / 256 % 256 < 256 := Nat.mod_lt _ (by omega)
  have b2 : v / 65536 % 256 < 256 := Nat.mod_lt _ (by omega)
  have b3 : v / 16777216 % 256 < 256 := Nat.mod_lt _ (by omega)
  match p, hp, h1, h4 with
  | [a0], hp, _, _ =>
    have h0 : a0 < 256 := hp a0 (by simp)
    have hw : writeBytes (u32Bytes v) 0 [a0]
        = [a0, v / 256 % 256, v / 65536 % 256, v / 16777216 % 256] := by
      simp [writeBytes, u32Bytes]
    rw [hw, u32Bytes_bytesU32 _ _ _ _ h0 b1 b2 b3]
    simp [(shardLoop_four _ _ _ _ h0 b1 b2 b3).1, bigEndian]
  | [a0, a1], hp, _, _ =>
    have h0 : a0 < 256 := hp a0 (by simp)
    have h1 : a1 < 256 := hp a1 (by simp)
    have hw : writeBytes (u32Bytes v) 0 [a0, a1]
        = [a0, a1, v / 65536 % 256, v / 16777216 % 256] := by
      simp [writeBytes, u32Bytes]
    rw [hw, u32Bytes_bytesU32 _ _ _ _ h0 h1 b2 b3]
    simp [(shardLoop_four _ _ _ _ h0 h1 b2 b3).2.1, bigEndian]
  | [a0, a1, a2], hp, _, _ =>
    have h0 : a0 < 256 := hp a0 (by simp)
    have h1 : a1 < 256 := hp a1 (by simp)
    have h2 : a2 < 256 := hp a2 (by simp)
    have hw : writeBytes (u32Bytes v) 0 [a0, a1, a2]
        = [a0, a1, a2, v / 16777216 % 256] := by
      simp [writeBytes, u32Bytes]
    rw [hw, u32Bytes_bytesU32 _ _ _ _ h0 h1 h2 b3]
    simp [(shardLoop_four _ _ _ _ h0 h1 h2 b3).2.2.1, bigEndian]
  | [a0, a1, a2, a3], hp, _, _ =>
    have h0 : a0 < 256 := hp a0 (by simp)
    have h1 : a1 < 256 := hp a1 (by simp)
    have h2 : a2 < 256 := hp a2 (by simp)
    have h3 : a3 < 256 := hp a3 (by simp)
    have hw : writeBytes (u32Bytes v) 0 [a0, a1, a2, a3] = [a0, a1, a2, a3] := by
      simp [writeBytes, u32Bytes]
    rw [hw, u32Bytes_bytesU32 _ _ _ _ h0 h1 h2 h3]
    simp [(shardLoop_four _ _ _ _ h0 h1 h2 h3).2.2.2, bigEndian]
  | _ :: _ :: _ :: _ :: _ :: _, _, _, h4 => simp at h4

/-- A shard handler that finds the whole payload in the chunk at the start of the field
stores its big-endian value and completes the field. -/
theorem shardHandler_whole (ceiling : Nat) (slot : txContent_t → Nat)
    (setSlot : Nat → txContent_t → txContent_t)
    (hgs : ∀ v x, slot (setSlot v x) = v)
    (hss : ∀ v w x, setSlot v (setSlot w x) = setSlot v x)
    (c : txContext_t) (p : List Nat)
    (hl : c.currentFieldIsList = false) (hlen : c.currentFieldLength = p.length)
    (hceil : p.length ≤ ceiling) (hc4 : ceiling ≤ 4)
    (hpf : c.processingField = true) (hpos : c.currentFieldPos = 0)
    (hp0 : 0 < p.length) (hcmd : p.length ≤ c.commandLength)
    (hread : readBytes c.chunk c.workBuffer p.length = p) (hbytes : isBytes p) :
    shardHandler ceiling slot setSlot c = .ok
      { c with
        content := { setSlot (bigEndian p) c.content with destinationLength := p.length },
        workBuffer := c.workBuffer + p.length,
        commandLength := c.commandLength - p.length,
        currentFieldPos := p.length,
        currentField := c.currentField.incr,
        processingField := false } := by
  obtain ⟨cf, cfl, cfp, cil, pf, fsb, dl, rb, rbp, ch, wb, cl, ct⟩ := c
  simp only at hl hlen hpf hpos hcmd hread
  subst hl hpf hpos hlen
  have h1 : ¬ p.length > ceiling := by omega
  have h2 : ¬ cl < p.length := by omega
  have h3 : u32 p.length = p.length := u32_of_lt (by omega)
  have hre := shard_reassembled (slot ct) p hbytes hp0 (by omega)
  simp [shardHandler, h1, hp0, copySize, h2, copyTxData, h3, hread, hgs, hss, hre]

/-- A shard handler at a field of declared length 0 completes the field and leaves the
slot as it is. -/
theorem shardHandler_empty (ceiling : Nat) (slot : txContent_t → Nat)
    (setSlot : Nat → txContent_t → txContent_t) (c : txContext_t)
    (hl : c.currentFieldIsList = false)
    (hpos : c.currentFieldPos = c.currentFieldLength) (hceil : c.currentFieldLength ≤ ceiling) :
    shardHandler ceiling slot setSlot c = .ok
      { c with
        content := { c.content with destinationLength := c.currentFieldLength },
        currentField := c.currentField.incr,
        processingField := false } := by
  obtain ⟨cf, cfl, cfp, cil, pf, fsb, dl, rb, rbp, ch, wb, cl, ct⟩ := c
  simp only at hl hpos hceil
  subst hl hpos
  have h1 : ¬ cfp > ceiling := by omega
  simp [shardHandler, h1]

/-- A shard field whose whole encoding is in the chunk is decoded in one pass of the
driver loop: the slot receives the big-endian value of the payload. -/
theorem shard_in_chunk (ceiling : Nat) (slot : txContent_t → Nat)
    (setSlot : Nat → txContent_t → txContent_t)
    (hgs : ∀ v x, slot (setSlot v x) = v)
    (hss : ∀ v w x, setSlot v (setSlot w x) = setSlot v x)
    (f : rlpTxField_e) (hf : f ≠ TX_RLP_DONE)
    (hd : ∀ c, c.currentField = f →
      dispatch c = afterHandler (shardHandler ceiling slot setSlot c))
    (ctx : txContext_t) (p rest : List Nat)
    (h : Awaiting ctx f (rlpString p ++ rest))
    (hp : p.length ≤ ceiling) (hc : ceiling ≤ 4) (hbytes : isBytes p)
    (hlen : (rlpString p ++ rest).length < 4294967296) :
    ∃ ctx', processTxBody ctx = .again ctx' ∧ Awaiting ctx' f.incr rest ∧
      ctx'.content =
        { (if p = [] then ctx.content else setSlot (bigEndian p) ctx.content) with
          destinationLength := p.length } := by
  rcases rlpString_cases p with ⟨b, rfl, hb, hs⟩ | hs
  · rw [hs] at h hlen
    simp only [List.singleton_append, List.length_cons] at h hlen
    have hbody := body_header_single ctx f b rest h hf hlen hb
    obtain ⟨hfield, hidle, hstaged, hbuffer, hrest, hcount⟩ := h
    rw [hbody, hd]
    · rw [shardHandler_whole ceiling slot setSlot hgs hss _ [b] rfl rfl hp hc rfl rfl
        (by simp) (by simp [hcount]) (by simp [readBytes, hrest]) hbytes]
      refine ⟨_, rfl, ⟨by simp [hfield], rfl, rfl, by simp [hbuffer], ?_, ?_⟩, ?_⟩
      · simpa using drop_succ_of_drop_eq_cons hrest
      · simp [hcount]
      · simp
    · exact hfield
  · rw [hs] at h hlen
    simp only [List.cons_append, List.length_cons, List.length_append] at h hlen
    have hbody := body_header_short ctx f (0x80 + p.length) (p ++ rest) h hf
      (by simpa using hlen) ⟨by omega, by omega⟩
    obtain ⟨hfield, hidle, hstaged, hbuffer, hrest, hcount⟩ := h
    rw [hbody, hd]
    · by_cases hnil : p = []
      · subst hnil
        rw [shardHandler_empty _ _ _ _ rfl (by simp) (by simp)]
        refine ⟨_, rfl, ⟨by simp [hfield], rfl, rfl, by simp [hbuffer], ?_, ?_⟩, ?_⟩
        · simpa using drop_succ_of_drop_eq_cons hrest
        · simp
        · simp
      · have hpos : 0 < p.length := List.length_pos.mpr hnil
        have hdrop := drop_succ_of_drop_eq_cons hrest
        rw [shardHandler_whole ceiling slot setSlot hgs hss _ p rfl (by simp) hp hc rfl rfl
          hpos (by simp) (by simp [readBytes, hdrop]) hbytes]
        refine ⟨_, rfl, ⟨by simp [hfield], rfl, rfl, by simp [hbuffer], ?_, ?_⟩, ?_⟩
        · simp [← List.drop_drop, hdrop]
        · simp
        · simp [hnil]
    · exact hfield

/-! ### A whole transaction in one chunk -/

/-- The outer list header in the chunk is decoded in one pass of the driver loop, which
leaves the context waiting for the header of the nonce. -/
theorem content_in_chunk (ctx : txContext_t) (n : Nat) (rest : List Nat)
    (h : Awaiting ctx TX_RLP_CONTENT (rlpListHeader n ++ rest)) (hn : n < 256)
    (hlen : (rlpListHeader n ++ rest).length < 4294967296) :
    ∃ ctx', processTxBody ctx = .again ctx' ∧ Awaiting ctx' TX_RLP_NONCE rest ∧
      ctx'.content = ctx.content := by
  by_cases h55 : n ≤ 55
  · simp only [rlpListHeader, h55, if_true, List.singleton_append, List.length_cons] at h hlen
    have hbody := body_header_shortlist ctx _ (0xc0 + n) rest h (by decide) hlen
      ⟨by omega, by omega⟩
    obtain ⟨hfield, hidle, hstaged, hbuffer, hrest, hcount⟩ := h
    rw [hbody, dispatch_content]
    · refine ⟨_, rfl, ⟨rfl, rfl, rfl, by simp [hbuffer], ?_, ?_⟩, rfl⟩
      · simpa using drop_succ_of_drop_eq_cons hrest
      · simp
    · exact hfield
    · rfl
  · simp only [rlpListHeader, h55, if_false, List.cons_append, List.nil_append,
      List.length_cons] at h hlen
    have hbody := body_header_list8 ctx _ n rest h (by decide) hlen hn
    obtain ⟨hfield, hidle, hstaged, hbuffer, hrest, hcount⟩ := h
    rw [hbody, dispatch_content]
    · refine ⟨_, rfl, ⟨rfl, rfl, rfl, by simp [hbuffer], ?_, ?_⟩, rfl⟩
      · have := drop_succ_of_drop_eq_cons (drop_succ_of_drop_eq_cons hrest)
        simpa using this
      · simp
    · exact hfield
    · rfl

theorem processTx_again {c c' : txContext_t} (n : Nat) (h : processTxBody c = .again c') :
    processTx (n + 1) c = processTx n c' := by
  simp [processTx, h]

theorem processTx_done {c : txContext_t} {o : Outcome} (n : Nat)
    (h : processTxBody c = .done o) : processTx (n + 1) c = some o := by
  simp [processTx, h]

theorem writeBytes_zero (arr p : List Nat) :
    writeBytes arr 0 p = p ++ arr.drop p.length := by
  simp [writeBytes]

theorem applyOut_nil (store : Nat → txContent_t → List Nat → txContent_t)
    (h : ∀ c, store 0 c [] = c) (c : txContent_t) (p : List Nat) :
    (if p = [] then c else applyOut (some store) 0 c p) = store 0 c p := by
  by_cases hp : p = []
  · simp [hp, h]
  · simp [hp, applyOut]

theorem applyOut_none (c : txContent_t) (p : List Nat) :
    (if p = [] then c else applyOut none 0 c p) = c := by
  simp [applyOut]

theorem storeGasprice_nil (c : txContent_t) : storeGasprice 0 c [] = c := by
  simp [storeGasprice, writeBytes]

theorem storeStartgas_nil (c : txContent_t) : storeStartgas 0 c [] = c := by
  simp [storeStartgas, writeBytes]

theorem storeValue_nil (c : txContent_t) : storeValue 0 c [] = c := by
  simp [storeValue, writeBytes]

theorem storeDestination_nil (c : txContent_t) : storeDestination 0 c [] = c := by
  simp [storeDestination, writeBytes]

/-- C1: a well-formed transaction encoding (outer list header, then nonce, gas price,
gas limit of at most 32 bytes, the two shards of at most 4 bytes, a recipient of at most
20 bytes and an amount of at most 32 bytes, each as an RLP string) delivered in one
chunk on a fresh context makes processTx return 0 with the field at Done; the output
record then holds gas price, gas limit, recipient and amount as exactly their payload
bytes (the rest of each zeroed slot untouched) with the stored lengths equal to the
declared ones, and the shards as the big-endian values of their payloads. -/
theorem processTx_one_chunk (nonce gasPrice gasLimit fromShard toShard recipient amount :
      List Nat)
    (hnonce : nonce.length ≤ 32) (hgasPrice : gasPrice.length ≤ 32)
    (hgasLimit : gasLimit.length ≤ 32) (hfromShard : fromShard.length ≤ 4)
    (htoShard : toShard.length ≤ 4) (hrecipient : recipient.length ≤ 20)
    (hamount : amount.length ≤ 32)
    (hfromBytes : isBytes fromShard) (htoBytes : isBytes toShard) :
    ∃ ctx, (∀ k, processTx (k + 8) (deliver freshContext
        (txEncoding nonce gasPrice gasLimit fromShard toShard recipient amount))
          = some (.ret 0 ctx)) ∧
      ctx.currentField = TX_RLP_DONE ∧
      ctx.content.gasprice
        = ⟨gasPrice ++ List.replicate (32 - gasPrice.length) 0, gasPrice.length⟩ ∧
      ctx.content.startgas
        = ⟨gasLimit ++ List.replicate (32 - gasLimit.length) 0, gasLimit.length⟩ ∧
      ctx.content.fromShard = bigEndian fromShard ∧
      ctx.content.toShard = bigEndian toShard ∧
      ctx.content.destination = recipient ++ List.replicate (20 - recipient.length) 0 ∧
      ctx.content.destinationLength = recipient.length ∧
      ctx.content.value
        = ⟨amount ++ List.replicate (32 - amount.length) 0, amount.length⟩ := by
  have l1 := rlpString_length_le nonce
  have l2 := rlpString_length_le gasPrice
  have l3 := rlpString_length_le gasLimit
  have l4 := rlpString_length_le fromShard
  have l5 := rlpString_length_le toShard
  have l6 := rlpString_length_le recipient
  have l7 := rlpString_length_le amount
  have hbodylen : (txBody nonce gasPrice gasLimit fromShard toShard recipient amount).length
      < 256 := by
    simp only [txBody, List.length_append]; omega
  have hhdr : (rlpListHeader
      (txBody nonce gasPrice gasLimit fromShard toShard recipient amount).length).length ≤ 2 := by
    unfold rlpListHeader; split_ifs <;> simp
  have h0 : Awaiting (deliver freshContext
      (txEncoding nonce gasPrice gasLimit fromShard toShard recipient amount)) TX_RLP_CONTENT
      (rlpListHeader (txBody nonce gasPrice gasLimit fromShard toShard recipient amount).length
        ++ txBody nonce gasPrice gasLimit fromShard toShard recipient amount) :=
    ⟨rfl, rfl, rfl, rfl, rfl, rfl⟩
  obtain ⟨c1, b1, a1, e1⟩ := content_in_chunk _ _ _ h0 hbodylen
    (by simp only [List.length_append]; omega)
  unfold txBody at a1
  obtain ⟨c2, b2, a2, e2⟩ := field_in_chunk afterHandler MAX_INT256 none (fun _ x => x)
    TX_RLP_NONCE (by decide) dispatch_nonce c1 nonce _ a1 hnonce (by decide)
    (by simp only [List.length_append]; omega)
  obtain ⟨c3, b3, a3, e3⟩ := field_in_chunk afterHandler MAX_INT256 (some storeGasprice)
    finishGasprice TX_RLP_GASPRICE (by decide) dispatch_gasprice c2 gasPrice _ a2 hgasPrice
    (by decide) (by simp only [List.length_append]; omega)
  obtain ⟨c4, b4, a4, e4⟩ := field_in_chunk afterHandler MAX_INT256 (some storeStartgas)
    finishStartgas TX_RLP_STARTGAS (by decide) dispatch_startgas c3 gasLimit _ a3 hgasLimit
    (by decide) (by simp only [List.length_append]; omega)
  obtain ⟨c5, b5, a5, e5⟩ := shard_in_chunk 4 (fun x => x.fromShard)
    (fun v x => { x with fromShard := v }) (fun _ _ => rfl) (fun _ _ _ => rfl)
    TX_RLP_FROMSHARD (by decide) dispatch_fromShard c4 fromShard _ a4 hfromShard (by decide)
    hfromBytes (by simp only [List.length_append]; omega)
  obtain ⟨c6, b6, a6, e6⟩ := shard_in_chunk MAX_INT32 (fun x => x.toShard)
    (fun v x => { x with toShard := v }) (fun _ _ => rfl) (fun _ _ _ => rfl)
    TX_RLP_TOSHARD (by decide) dispatch_toShard c5 toShard _ a5 htoShard (by decide)
    htoBytes (by simp only [List.length_append]; omega)
  obtain ⟨c7, b7, a7, e7⟩ := field_in_chunk afterHandler MAX_ADDRESS (some storeDestination)
    finishDestination TX_RLP_TO (by decide) dispatch_to c6 recipient _ a6 hrecipient
    (by decide) (by simp only [List.length_append]; omega)
  have a7' : Awaiting c7 TX_RLP_AMOUNT (rlpString amount ++ []) := by simpa using a7
  obtain ⟨c8, b8, a8, e8⟩ := field_in_chunk afterValue MAX_INT256 (some storeValue)
    finishValue TX_RLP_AMOUNT (by decide) dispatch_amount c7 amount [] a7' hamount
    (by decide) (by simp only [List.length_append, List.length_nil]; omega)
  have hfresh : (deliver freshContext
      (txEncoding nonce gasPrice gasLimit fromShard toShard recipient amount)).content
      = freshContext.content := rfl
  refine ⟨c8, ?_, a8.field, ?_⟩
  · intro k
    rw [processTx_again _ b1, processTx_again _ b2, processTx_again _ b3,
      processTx_again _ b4, processTx_again _ b5, processTx_again _ b6,
      processTx_again _ b7, processTx_done _ b8]
  · rw [e8, e7, e6, e5, e4, e3, e2, e1, hfresh]
    simp only [applyOut_none, applyOut_nil _ storeGasprice_nil, applyOut_nil _ storeStartgas_nil,
      applyOut_nil _ storeValue_nil, applyOut_nil _ storeDestination_nil]
    have fg : freshContext.content.gasprice.value = List.replicate 32 0 := rfl
    have fs : freshContext.content.startgas.value = List.replicate 32 0 := rfl
    have fv : freshContext.content.value.value = List.replicate 32 0 := rfl
    have fd : freshContext.content.destination = List.replicate 20 0 := rfl
    have ff : freshContext.content.fromShard = 0 := rfl
    have ft : freshContext.content.toShard = 0 := rfl
    generalize freshContext.content = fc at fg fs fv fd ff ft ⊢
    have z : bigEndian [] = 0 := rfl
    by_cases n3 : fromShard = [] <;> by_cases n4 : toShard = [] <;>
      simp only [n3, n4, if_true, if_false, finishGasprice, finishStartgas, finishValue,
        finishDestination, storeGasprice, storeStartgas, storeValue, storeDestination,
        writeBytes_zero, fg, fs, fv, fd, ff, ft, z, List.drop_replicate, and_self]

theorem processTx_one_chunk_witness :
    txEncoding [0x01] [0x0a] [0x05] [0x00] [0x01] (List.replicate 20 0) [0x2a]
        = [0xdb, 0x01, 0x0a, 0x05, 0x00, 0x01, 0x94] ++ List.replicate 20 0 ++ [0x2a] ∧
    ∃ ctx, processTx 8 (deliver freshContext
        (txEncoding [0x01] [0x0a] [0x05] [0x00] [0x01] (List.replicate 20 0) [0x2a]))
          = some (.ret 0 ctx) ∧
      ctx.content.gasprice = ⟨[10] ++ List.replicate 31 0, 1⟩ ∧
      ctx.content.startgas = ⟨[5] ++ List.replicate 31 0, 1⟩ ∧
      ctx.content.fromShard = 0 ∧ ctx.content.toShard = 1 ∧
      ctx.content.destination = List.replicate 20 0 ∧ ctx.content.destinationLength = 20 ∧
      ctx.content.value = ⟨[42] ++ List.replicate 31 0, 1⟩ := by
  refine ⟨by decide, ?_⟩
  obtain ⟨ctx, h, _, h1, h2, h3, h4, h5, h6, h7⟩ :=
    processTx_one_chunk [0x01] [0x0a] [0x05] [0x00] [0x01] (List.replicate 20 0) [0x2a]
      (by decide) (by decide) (by decide) (by decide) (by decide) (by decide) (by decide)
      (by decide) (by decide)
  exact ⟨ctx, h 0, h1, h2, h3, h4, by simpa using h5, by simpa using h6, h7⟩

/-! ### Delivery in pieces: the shard fields and the amount -/

/-- C2: the well-formed transaction with origin shard 0x01 0x02 is accepted in one chunk
(status 0, field Done) with fromShard = 258, the big-endian value; delivered one byte
per call on a fresh context, no call fatal, it ends at Done with fromShard = 2. -/
theorem byte_per_call_differs :
    (processTx 8 (deliver freshContext shardTx)).map
        (fun o => (o.status, o.context.currentField, o.context.content.fromShard))
      = some (some 0, TX_RLP_DONE, 258) ∧
    (feedChunks 8 (.ret 1 freshContext) (shardTx.map fun b => [b])).map
        (fun o => (o.status, o.context.currentField, o.context.content.fromShard))
      = some (some 0, TX_RLP_DONE, 2) := by
  decide

/-- C3: with the two payload bytes 0x01 0x02 of a shard field split between two chunks,
the field completes with the stored value 2, not the big-endian value 258 that the same
bytes give in one chunk; this holds for the origin shard and for the destination
shard, each starting from a zeroed slot. -/
theorem shard_split_value :
    bigEndian [0x01, 0x02] = 258 ∧
    (feedChunks 8 (.ret 1 freshContext) [shardTx.take 6, shardTx.drop 6]).map
        (fun o => (o.status, o.context.currentField, o.context.content.fromShard))
      = some (some 0, TX_RLP_DONE, 2) ∧
    (feedChunks 8 (.ret 1 freshContext) [shardTx]).map
        (fun o => (o.status, o.context.currentField, o.context.content.fromShard))
      = some (some 0, TX_RLP_DONE, 258) ∧
    (feedChunks 8 (.ret 1 freshContext) [toShardTx.take 7, toShardTx.drop 7]).map
        (fun o => (o.status, o.context.currentField, o.context.content.toShard))
      = some (some 0, TX_RLP_DONE, 2) ∧
    (feedChunks 8 (.ret 1 freshContext) [toShardTx]).map
        (fun o => (o.status, o.context.currentField, o.context.content.toShard))
      = some (some 0, TX_RLP_DONE, 258) := by
  decide

/-- C5: a chunk that ends inside the payload of the amount (one of its two declared
bytes delivered) makes processTx return 0 although the field is not Done and the
amount is incomplete: fieldConsumed = 1 < fieldLength = 2, chunk exhausted, no length
stored. -/
theorem amount_partial_returns_success :
    (processTx 8 (deliver freshContext amountTx.dropLast)).map
        (fun o => (o.status, o.context.currentField, o.context.currentFieldPos,
          o.context.currentFieldLength, o.context.commandLength,
          o.context.content.value.length))
      = some (some 0, TX_RLP_AMOUNT, 1, 2, 0, 0) := by
  decide


/-! ### Unsupported leading bytes -/

theorem rlpCanDecode_unsupported (buffer : List Nat) (n : Nat) (v : Bool)
    (hb : (0xbc ≤ buffer.getD 0 0 ∧ buffer.getD 0 0 ≤ 0xbf) ∨
      (0xfc ≤ buffer.getD 0 0 ∧ buffer.getD 0 0 ≤ 0xff)) (hn : n ≤ 5) :
    rlpCanDecode buffer n v = (false, v) := by
  simp only [rlpCanDecode]
  split_ifs <;> first | rfl | omega

theorem getD_set_zero (l : List Nat) (j x : Nat) (hl : l.length = 5) (hj : j ≤ 4) :
    (l.set j x).getD 0 0 = if j = 0 then x else l.getD 0 0 := by
  match l, hl with
  | [r0, r1, r2, r3, r4], _ =>
    match j with
    | 0 => simp
    | j + 1 => simp

/-- Staging a header whose leading byte is unsupported never resolves it: the loop
returns -1 when the fifth byte is staged and is left for lack of input before that. -/
theorem stageHeader_unsupported (n : Nat) : ∀ (c : txContext_t),
    c.processingField = false → c.rlpBuffer.length = 5 → c.commandLength = n →
    n < 4294967296 → c.rlpBufferPos ≤ 4 →
    ((0xbc ≤ leadingByte c ∧ leadingByte c ≤ 0xbf) ∨
      (0xfc ≤ leadingByte c ∧ leadingByte c ≤ 0xff)) →
    (5 - c.rlpBufferPos ≤ n → ∃ c', stageHeader n c = .ret (-1) c') ∧
    (n < 5 - c.rlpBufferPos → ∃ c', stageHeader n c = .left false c' ∧
      c'.rlpBufferPos = c.rlpBufferPos + n ∧ c'.processingField = false ∧
      c'.currentField = c.currentField ∧ c'.content = c.content ∧
      leadingByte c' = leadingByte c) := by
  induction n with
  | zero =>
    intro c _ _ _ _ hpos _
    refine ⟨fun h => by omega, fun _ => ⟨c, rfl, rfl, ‹_›, rfl, rfl, rfl⟩⟩
  | succ n ih =>
    intro c hidle hbuf hcmd h32 hpos hlead
    have hu1 : u32 (n + 1 + 4294967295) = n := by unfold u32; omega
    have hu2 : u32 (c.rlpBufferPos + 1) = c.rlpBufferPos + 1 := by unfold u32; omega
    have hlead' : (stageByte c).rlpBuffer.getD 0 0 = leadingByte c := by
      simp only [stageByte]
      rw [getD_set_zero _ _ _ hbuf hpos]; rfl
    have hcan := rlpCanDecode_unsupported (stageByte c).rlpBuffer (c.rlpBufferPos + 1) false
      (by rw [hlead']; exact hlead) (by omega)
    have hstep : stageHeader (n + 1) c =
        if c.rlpBufferPos + 1 = 5 then .ret (-1) (stageByte c)
        else stageHeader n (stageByte c) := by
      rw [stageHeader]
      simp only [stageByte, List.getD_eq_getElem?_getD] at hcan
      simp [hcmd, readTxByte, hidle, hu1, hu2, hcan, RLP_BUFFER_SIZE, stageByte]
    rw [hstep]
    by_cases h5 : c.rlpBufferPos + 1 = 5
    · simp only [h5, if_true]
      exact ⟨fun _ => ⟨_, rfl⟩, fun h => by omega⟩
    · simp only [h5, if_false]
      have hl2 : leadingByte (stageByte c) = leadingByte c := by
        rw [← hlead']; simp [leadingByte, stageByte]
      have hnext := ih (stageByte c) hidle (by simp [stageByte, hbuf])
        (by simp [stageByte, hcmd]) (by omega) (by simp only [stageByte]; omega)
        (by rw [hl2]; exact hlead)
      constructor
      · intro h
        exact hnext.1 (by simp only [stageByte]; omega)
      · intro h
        obtain ⟨c', e, p1, p2, p3, p4, p5⟩ := hnext.2 (by simp only [stageByte]; omega)
        exact ⟨c', e, by simp only [stageByte] at p1; omega, p2, p3, p4, by rw [p5, hl2]⟩

/-- C6 (as stated) fails: on a fresh context the one-byte chunk 0xbc makes processTx
return 1, need more input, not -1. -/
theorem lone_unsupported_byte_needs_more :
    (processTx 1 (deliver freshContext [0xbc])).map Outcome.status = some (some 1) := by
  decide

/-- C6 (amended): on a context that waits for a field header (field not Done, no field
in progress) and whose header under staging has a leading byte in 0xbc..0xbf or
0xfc..0xff (the first byte of the chunk while the staging buffer is empty), processTx
returns -1 in the call whose chunk brings the staged bytes to five, whatever bytes
follow the leading byte; a non-empty chunk that leaves fewer than five bytes staged
makes it return 1 with those bytes staged, the leading byte, the field and the output
record as they were. -/
theorem unsupported_leading_byte (ctx : txContext_t)
    (hf : ctx.currentField ≠ TX_RLP_DONE) (hidle : ctx.processingField = false)
    (hbuf : ctx.rlpBuffer.length = 5) (hpos : ctx.rlpBufferPos ≤ 4)
    (hcmd : ctx.commandLength ≠ 0) (h32 : ctx.commandLength < 4294967296)
    (hlead : (0xbc ≤ leadingByte ctx ∧ leadingByte ctx ≤ 0xbf) ∨
      (0xfc ≤ leadingByte ctx ∧ leadingByte ctx ≤ 0xff)) :
    (5 - ctx.rlpBufferPos ≤ ctx.commandLength →
      ∀ k, (processTx (k + 1) ctx).map Outcome.status = some (some (-1))) ∧
    (ctx.commandLength < 5 - ctx.rlpBufferPos →
      ∀ k, ∃ c, processTx (k + 1) ctx = some (.ret 1 c) ∧
        c.rlpBufferPos = ctx.rlpBufferPos + ctx.commandLength ∧
        c.processingField = false ∧ c.currentField = ctx.currentField ∧
        c.content = ctx.content ∧ leadingByte c = leadingByte ctx) := by
  have hst := stageHeader_unsupported ctx.commandLength ctx hidle hbuf rfl h32 hpos hlead
  constructor
  · intro h k
    obtain ⟨c, hc⟩ := hst.1 h
    simp [processTx, processTxBody, hf, hcmd, hidle, hc, Outcome.status]
  · intro h k
    obtain ⟨c, hc, p⟩ := hst.2 h
    exact ⟨c, by simp [processTx, processTxBody, hf, hcmd, hidle, hc], p⟩

theorem unsupported_leading_byte_witness :
    ((0xbc ≤ leadingByte (deliver freshContext [0xbc, 0x01, 0x02, 0x03, 0x04]) ∧
        leadingByte (deliver freshContext [0xbc, 0x01, 0x02, 0x03, 0x04]) ≤ 0xbf) ∨
      (0xfc ≤ leadingByte (deliver freshContext [0xbc, 0x01, 0x02, 0x03, 0x04]) ∧
        leadingByte (deliver freshContext [0xbc, 0x01, 0x02, 0x03, 0x04]) ≤ 0xff)) ∧
    (processTx 1 (deliver freshContext [0xbc, 0x01, 0x02, 0x03, 0x04])).map Outcome.status
      = some (some (-1)) :=
  ⟨by decide,
   (unsupported_leading_byte (deliver freshContext [0xbc, 0x01, 0x02, 0x03, 0x04])
      (by decide) rfl rfl (by decide) (by decide) (by decide) (by decide)).1 (by decide) 0⟩

/-! ### Size ceilings and type checks -/

/-- C7: a handler of a string field whose resolved header declares more than the
ceiling of the field (32 for nonce, gas price, gas limit and amount, 4 for the shards,
20 for the recipient) throws with the context exactly as it received it: no payload
byte is consumed and no output slot is written; so does the switch of processTx at
such a field. -/
theorem oversize_field_throws (ctx : txContext_t) :
    (32 < ctx.currentFieldLength →
      processNonce ctx = .throw ctx ∧ processGasprice ctx = .throw ctx ∧
      processStartGas ctx = .throw ctx ∧ processValue ctx = .throw ctx) ∧
    (4 < ctx.currentFieldLength →
      processFromShard ctx = .throw ctx ∧ processToShard ctx = .throw ctx) ∧
    (20 < ctx.currentFieldLength → processTo ctx = .throw ctx) ∧
    (∀ n, sizeCeiling ctx.currentField = some n → n < ctx.currentFieldLength →
      dispatch ctx = .done (.thrown ctx)) := by
  have h32 : 32 < ctx.currentFieldLength →
      processNonce ctx = .throw ctx ∧ processGasprice ctx = .throw ctx ∧
      processStartGas ctx = .throw ctx ∧ processValue ctx = .throw ctx := by
    intro h
    refine ⟨?_, ?_, ?_, ?_⟩ <;>
      simp [processNonce, processGasprice, processStartGas, processValue, MAX_INT256, h]
  have h4 : 4 < ctx.currentFieldLength →
      processFromShard ctx = .throw ctx ∧ processToShard ctx = .throw ctx := by
    intro h
    refine ⟨?_, ?_⟩ <;> simp [processFromShard, processToShard, MAX_INT32, h]
  have h20 : 20 < ctx.currentFieldLength → processTo ctx = .throw ctx := by
    intro h
    simp [processTo, MAX_ADDRESS, h]
  refine ⟨h32, h4, h20, ?_⟩
  intro n hn hlen
  cases hf : ctx.currentField <;> rw [hf] at hn <;> simp [sizeCeiling] at hn <;>
    subst hn <;>
    first
    | simp [dispatch, hf, h32 hlen, afterHandler, afterValue]
    | simp [dispatch, hf, h4 hlen, afterHandler, afterValue]
    | simp [dispatch, hf, h20 hlen, afterHandler, afterValue]

theorem oversize_field_throws_witness :
    sizeCeiling TX_RLP_TO = some 20 ∧
    (processTx 8 (deliver freshContext longRecipientTx)).map
        (fun o => (o.status, o.context.currentField, o.context.currentFieldLength,
          o.context.workBuffer, o.context.content.destination))
      = some (none, TX_RLP_TO, 21, 7, List.replicate 20 0) ∧
    dispatch { freshContext with currentField := TX_RLP_TO, currentFieldLength := 21,
                                 processingField := true }
      = .done (.thrown { freshContext with currentField := TX_RLP_TO,
                                           currentFieldLength := 21,
                                           processingField := true }) :=
  ⟨rfl, by decide,
   (oversize_field_throws { freshContext with currentField := TX_RLP_TO,
                                              currentFieldLength := 21,
                                              processingField := true }).2.2.2 20 rfl
      (by decide)⟩

/-- C8: type checking of resolved headers. processContent throws on a string header and
every handler of a string field throws on a list header, each with the context exactly
as it received it, so the field is not advanced and no output slot is written; the
switch of processTx does the same at the envelope and at the fields Nonce to Amount. -/
theorem type_mismatch_throws (ctx : txContext_t) :
    (ctx.currentFieldIsList = false → processContent ctx = .throw ctx) ∧
    (ctx.currentFieldIsList = true →
      processNonce ctx = .throw ctx ∧ processGasprice ctx = .throw ctx ∧
      processStartGas ctx = .throw ctx ∧ processFromShard ctx = .throw ctx ∧
      processToShard ctx = .throw ctx ∧ processTo ctx = .throw ctx ∧
      processValue ctx = .throw ctx) ∧
    (ctx.currentField = TX_RLP_CONTENT → ctx.currentFieldIsList = false →
      dispatch ctx = .done (.thrown ctx)) ∧
    (ctx.currentField ≠ TX_RLP_CONTENT → ctx.currentField ≠ TX_RLP_DONE →
      ctx.currentFieldIsList = true → dispatch ctx = .done (.thrown ctx)) := by
  have hs : ctx.currentFieldIsList = false → processContent ctx = .throw ctx := by
    intro h
    simp [processContent, h]
  have hl : ctx.currentFieldIsList = true →
      processNonce ctx = .throw ctx ∧ processGasprice ctx = .throw ctx ∧
      processStartGas ctx = .throw ctx ∧ processFromShard ctx = .throw ctx ∧
      processToShard ctx = .throw ctx ∧ processTo ctx = .throw ctx ∧
      processValue ctx = .throw ctx := by
    intro h
    refine ⟨?_, ?_, ?_, ?_, ?_, ?_, ?_⟩ <;>
      simp [processNonce, processGasprice, processStartGas, processFromShard, processToShard,
        processTo, processValue, h]
  refine ⟨hs, hl, ?_, ?_⟩
  · intro hf h
    simp [dispatch, hf, hs h, afterHandler]
  · intro hf1 hf2 h
    cases hf : ctx.currentField <;>
      first
      | exact absurd hf hf1
      | exact absurd hf hf2
      | simp [dispatch, hf, hl h, afterHandler, afterValue]

theorem type_mismatch_throws_witness :
    (processTx 8 (deliver freshContext [0x85, 0x01])).map
        (fun o => (o.status, o.context.currentField, o.context.content))
      = some (none, TX_RLP_CONTENT, freshContext.content) ∧
    (processTx 8 (deliver freshContext [0xc2, 0xc1, 0x01])).map
        (fun o => (o.status, o.context.currentField, o.context.content))
      = some (none, TX_RLP_NONCE, freshContext.content) ∧
    dispatch { freshContext with processingField := true }
      = .done (.thrown { freshContext with processingField := true }) :=
  ⟨by decide, by decide,
   (type_mismatch_throws { freshContext with processingField := true }).2.2.1 rfl rfl⟩

/-! ### Re-chunking of a stored byte-string field -/

theorem body_exhausted (c : txContext_t) (hf : c.currentField ≠ TX_RLP_DONE)
    (hc : c.commandLength = 0) : processTxBody c = .done (.ret 1 c) := by
  simp [processTxBody, hf, hc]

/-- After the handler of the field f has taken the whole chunk, the call returns 0 or 1
with the context the handler left. -/
theorem processTx_after_handler (wrap : Handled → Step) (f : rlpTxField_e)
    (hw : LoopsOrReturns wrap f) (c0 c1 : txContext_t)
    (hbody : processTxBody c0 = wrap (.ok c1)) (hcmd : c1.commandLength = 0)
    (hf : c1.currentField = f ∨ c1.currentField = f.incr) (hfd : f ≠ TX_RLP_DONE) :
    ∃ s, (s = 0 ∨ s = 1) ∧ ∀ k, processTx (k + 2) c0 = some (.ret s c1) := by
  rcases hw with ⟨rfl, hinc⟩ | rfl
  · refine ⟨1, Or.inr rfl, fun k => ?_⟩
    have hne : c1.currentField ≠ TX_RLP_DONE := by
      rcases hf with h | h <;> rw [h] <;> assumption
    rw [processTx_again _ (by simpa [afterHandler] using hbody),
      processTx_done _ (body_exhausted c1 hne hcmd)]
  · refine ⟨0, Or.inl rfl, fun k => ?_⟩
    rw [processTx_done _ (by simpa [afterValue] using hbody)]

/-- One call of processTx inside the payload of a stored byte-string field, on a chunk
that does not go beyond the declared length: the chunk is copied into the slot at the
consumed position, and the field completes exactly when the declared length is reached. -/
theorem call_copy (wrap : Handled → Step) (ceiling : Nat)
    (store : Nat → txContent_t → List Nat → txContent_t)
    (finish : Nat → txContent_t → txContent_t) (f : rlpTxField_e)
    (slot : txContent_t → List Nat) (len : txContent_t → Nat)
    (hw : LoopsOrReturns wrap f) (hfd : f ≠ TX_RLP_DONE)
    (hd : ∀ c, c.currentField = f →
      dispatch c = wrap (stringHandler ceiling (some store) finish c))
    (hss : ∀ pos c d, slot (store pos c d) = writeBytes (slot c) pos d)
    (hsf : ∀ n c, slot (finish n c) = slot c) (hlf : ∀ n c, len (finish n c) = n)
    (ctx : txContext_t) (n j : Nat) (data : List Nat)
    (h : Copying ctx f n j) (hj : j < n) (hn : n ≤ ceiling) (hc : ceiling ≤ 55)
    (hdata : data ≠ []) (hfit : data.length ≤ n - j) :
    ∃ s c', (s = 0 ∨ s = 1) ∧ (∀ k, processTx (k + 2) (deliver ctx data) = some (.ret s c')) ∧
      slot c'.content = writeBytes (slot ctx.content) j data ∧
      ((j + data.length < n ∧ Copying c' f n (j + data.length)) ∨
        (j + data.length = n ∧ c'.currentField = f.incr ∧ len c'.content = n)) := by
  obtain ⟨hfield, hbusy, hstring, hlength, hpos⟩ := h
  have hlen0 : data.length ≠ 0 := by simpa using hdata
  have hbody : processTxBody (deliver ctx data)
      = wrap (stringHandler ceiling (some store) finish (deliver ctx data)) := by
    rw [← hd _ (by simpa [deliver] using hfield)]
    simp [processTxBody, deliver, hfield, hfd, hlen0, hbusy]
  by_cases hlt : j + data.length < n
  · rw [stringHandler_piece _ _ _ _ (by simpa [deliver] using hstring)
      (by simp only [deliver]; omega) (by simpa [deliver] using hbusy)
      (by simp only [deliver]; omega) (by simp only [deliver]; omega)] at hbody
    obtain ⟨s, hs, hrun⟩ := processTx_after_handler wrap f hw _ _ hbody rfl
      (Or.inl (by simpa [deliver] using hfield)) hfd
    refine ⟨s, _, hs, hrun, ?_, Or.inl ⟨hlt, ?_⟩⟩
    · simp [deliver, applyOut, readBytes, hss, hpos]
    · exact ⟨by simpa [deliver] using hfield, by simpa [deliver] using hbusy,
        by simpa [deliver] using hstring, by simpa [deliver] using hlength,
        by simp [deliver, hpos]⟩
  · have heq : j + data.length = n := by omega
    rw [stringHandler_complete _ _ _ _ (by simpa [deliver] using hstring)
      (by simp only [deliver]; omega) (by simpa [deliver] using hbusy)
      (by simp only [deliver]; omega) (by simp only [deliver]; omega)
      (by simp only [deliver]; omega)] at hbody
    obtain ⟨s, hs, hrun⟩ := processTx_after_handler wrap f hw _ _ hbody
      (by simp only [deliver]; omega) (Or.inr (by simp [deliver, hfield])) hfd
    refine ⟨s, _, hs, hrun, ?_, Or.inr ⟨heq, by simp [deliver, hfield], ?_⟩⟩
    · have hcnt : n - j = data.length := by omega
      simp [deliver, applyOut, readBytes, hss, hsf, hpos, hlength, hcnt]
    · simp [deliver, hlf, hlength]

/-- The first call of processTx on a stored byte-string field, on a chunk that holds the
short-string header and a first piece of the payload: the piece is copied to the start
of the slot, and the field completes exactly when the piece is the whole payload. -/
theorem call_header (wrap : Handled → Step) (ceiling : Nat)
    (store : Nat → txContent_t → List Nat → txContent_t)
    (finish : Nat → txContent_t → txContent_t) (f : rlpTxField_e)
    (slot : txContent_t → List Nat) (len : txContent_t → Nat)
    (hw : LoopsOrReturns wrap f) (hfd : f ≠ TX_RLP_DONE)
    (hd : ∀ c, c.currentField = f →
      dispatch c = wrap (stringHandler ceiling (some store) finish c))
    (hss : ∀ pos c d, slot (store pos c d) = writeBytes (slot c) pos d)
    (hsf : ∀ n c, slot (finish n c) = slot c) (hlf : ∀ n c, len (finish n c) = n)
    (ctx : txContext_t) (n : Nat) (d : List Nat)
    (hfield : ctx.currentField = f) (hidle : ctx.processingField = false)
    (hstaged : ctx.rlpBufferPos = 0) (hbuf : ctx.rlpBuffer.length = 5)
    (hn : n ≤ ceiling) (hc : ceiling ≤ 55) (hfit : d.length ≤ n) :
    ∃ s c', (s = 0 ∨ s = 1) ∧
      (∀ k, processTx (k + 2) (deliver ctx ((0x80 + n) :: d)) = some (.ret s c')) ∧
      slot c'.content = writeBytes (slot ctx.content) 0 d ∧
      ((d.length < n ∧ Copying c' f n d.length) ∨
        (d.length = n ∧ c'.currentField = f.incr ∧ len c'.content = n)) := by
  have haw : Awaiting (deliver ctx ((0x80 + n) :: d)) f ((0x80 + n) :: d) :=
    ⟨hfield, hidle, hstaged, hbuf, rfl, rfl⟩
  have hbody := body_header_short _ f (0x80 + n) d haw hfd (by omega) ⟨by omega, by omega⟩
  rw [hd _ (by simpa [deliver] using hfield)] at hbody
  by_cases hlt : d.length < n
  · rw [stringHandler_piece _ _ _ _ rfl (by simp only [deliver]; omega) rfl
      (by simp only [deliver]; omega) (by simp only [deliver]; omega)] at hbody
    obtain ⟨s, hs, hrun⟩ := processTx_after_handler wrap f hw _ _ hbody rfl
      (Or.inl (by simpa [deliver] using hfield)) hfd
    refine ⟨s, _, hs, hrun, ?_, Or.inl ⟨hlt, ?_⟩⟩
    · simp [deliver, applyOut, readBytes, hss]
    · exact ⟨by simpa [deliver] using hfield, rfl, rfl, by simp, by simp⟩
  · have heq : d.length = n := by omega
    by_cases h0 : n = 0
    · subst h0
      have hd0 : d = [] := List.length_eq_zero.mp heq
      subst hd0
      rw [stringHandler_empty _ _ _ _ rfl (by simp) (by simp)] at hbody
      obtain ⟨s, hs, hrun⟩ := processTx_after_handler wrap f hw _ _ hbody
        (by simp [deliver]) (Or.inr (by simp [deliver, hfield])) hfd
      refine ⟨s, _, hs, hrun, ?_, Or.inr ⟨heq, by simp [deliver, hfield], ?_⟩⟩
      · simp [deliver, hsf, writeBytes]
      · simp [hlf]
    · rw [stringHandler_complete _ _ _ _ rfl (by simp only [deliver]; omega) rfl
        (by simp only [deliver]; omega) (by simp only [deliver]; omega)
        (by simp only [deliver]; omega)] at hbody
      obtain ⟨s, hs, hrun⟩ := processTx_after_handler wrap f hw _ _ hbody
        (by simp only [deliver]; omega) (Or.inr (by simp [deliver, hfield])) hfd
      refine ⟨s, _, hs, hrun, ?_, Or.inr ⟨heq, by simp [deliver, hfield], ?_⟩⟩
      · simp [deliver, applyOut, readBytes, hss, hsf, heq.symm]
      · simp [hlf]

theorem feedChunks_cons (fuel : Nat) (s : Int) (hs : s = 0 ∨ s = 1) (ctx : txContext_t)
    (data : List Nat) (more : List (List Nat)) (o : Outcome)
    (h : processTx fuel (deliver ctx data) = some o) :
    feedChunks fuel (.ret s ctx) (data :: more) = feedChunks fuel o more := by
  rcases hs with rfl | rfl <;> simp [feedChunks, Outcome.fatal, Outcome.context, h]

theorem writeBytes_extend (p old d : List Nat) (j : Nat) (hj : j ≤ p.length)
    (hd : d = (p.drop j).take d.length) :
    writeBytes (p.take j ++ old.drop j) j d
      = p.take (j + d.length) ++ old.drop (j + d.length) := by
  have h1 : (p.take j).length = j := by simp; omega
  have h2 : p.take (j + d.length) = p.take j ++ d := by
    rw [List.take_add, ← hd]
  simp only [writeBytes]
  rw [h2, List.take_append_of_le_length (by omega), List.take_of_length_le (by omega),
    List.drop_append_eq_append_drop, List.drop_of_length_le (by omega : (p.take j).length ≤ _)]
  simp [h1, List.drop_drop, Nat.add_comm]

/-- The chunks that follow inside the payload of a stored byte-string field: however
the rest of the payload is cut into non-empty chunks, the calls are not fatal and the
field completes with the declared length stored and the payload at the start of the
slot. -/
theorem copy_chunks (wrap : Handled → Step) (ceiling : Nat)
    (store : Nat → txContent_t → List Nat → txContent_t)
    (finish : Nat → txContent_t → txContent_t) (f : rlpTxField_e)
    (slot : txContent_t → List Nat) (len : txContent_t → Nat)
    (hw : LoopsOrReturns wrap f) (hfd : f ≠ TX_RLP_DONE)
    (hd : ∀ c, c.currentField = f →
      dispatch c = wrap (stringHandler ceiling (some store) finish c))
    (hss : ∀ pos c d, slot (store pos c d) = writeBytes (slot c) pos d)
    (hsf : ∀ n c, slot (finish n c) = slot c) (hlf : ∀ n c, len (finish n c) = n)
    (payload old : List Nat) (hn : payload.length ≤ ceiling) (hc : ceiling ≤ 55) :
    ∀ (chunks : List (List Nat)) (j : Nat) (ctx : txContext_t) (s : Int),
      Copying ctx f payload.length j → j < payload.length → (s = 0 ∨ s = 1) →
      (∀ c ∈ chunks, c ≠ []) → chunks.flatten = payload.drop j →
      slot ctx.content = payload.take j ++ old.drop j →
      ∃ o, (∀ k, feedChunks (k + 2) (.ret s ctx) chunks = some o) ∧ o.fatal = false ∧
        o.context.currentField = f.incr ∧ len o.context.content = payload.length ∧
        slot o.context.content = payload ++ old.drop payload.length := by
  intro chunks
  induction chunks with
  | nil =>
    intro j ctx s _ hj _ _ hflat _
    have : (payload.drop j).length = 0 := by rw [← hflat]; rfl
    simp at this
    omega
  | cons d ds ih =>
    intro j ctx s hcopy hj hs hne hflat hslot
    have hdne : d ≠ [] := hne d (by simp)
    have hdl : d.length + ds.flatten.length = payload.length - j := by
      have := congrArg List.length hflat
      simpa using this
    have hdeq : d = (payload.drop j).take d.length := by
      rw [← hflat]; simp
    obtain ⟨s1, c1, hs1, hrun, hsl, hcase⟩ := call_copy wrap ceiling store finish f slot len
      hw hfd hd hss hsf hlf ctx payload.length j d hcopy hj hn hc hdne (by omega)
    have hsl1 : slot c1.content
        = payload.take (j + d.length) ++ old.drop (j + d.length) := by
      rw [hsl, hslot, writeBytes_extend payload old d j (by omega) hdeq]
    rcases hcase with ⟨hlt, hcopy1⟩ | ⟨heq, hfield1, hlen1⟩
    · have hflat1 : ds.flatten = payload.drop (j + d.length) := by
        have : payload.drop j = d ++ ds.flatten := by rw [← hflat]; rfl
        rw [← List.drop_drop, this]
        simp
      obtain ⟨o, ho, hrest⟩ := ih (j + d.length) c1 s1 hcopy1 hlt hs1
        (fun c hcm => hne c (by simp [hcm])) hflat1 hsl1
      exact ⟨o, fun k => by rw [feedChunks_cons _ _ hs _ _ _ _ (hrun k), ho k], hrest⟩
    · have hds : ds = [] := by
        have h0 : ds.flatten.length = 0 := by omega
        have h1 : ds.flatten = [] := List.length_eq_zero.mp h0
        match ds, hne, h1 with
        | [], _, _ => rfl
        | e :: es, hne, h1 =>
          have := hne e (by simp)
          simp at h1
          exact absurd h1.1 this
      subst hds
      refine ⟨.ret s1 c1, fun k => ?_, ?_, hfield1, hlen1, ?_⟩
      · rw [feedChunks_cons _ _ hs _ _ _ _ (hrun k)]; rfl
      · rcases hs1 with rfl | rfl <;> rfl
      · have : Outcome.context (.ret s1 c1) = c1 := rfl
        rw [this, hsl1, heq, List.take_of_length_le (Nat.le_refl _)]

/-- A stored byte-string field delivered as a short-string header and its payload, cut
into non-empty chunks in any way: no call is fatal, the field completes, the declared
length is stored and the slot holds the payload followed by what it held before. -/
theorem rechunk_one (wrap : Handled → Step) (ceiling : Nat)
    (store : Nat → txContent_t → List Nat → txContent_t)
    (finish : Nat → txContent_t → txContent_t) (f : rlpTxField_e)
    (slot : txContent_t → List Nat) (len : txContent_t → Nat)
    (hw : LoopsOrReturns wrap f) (hfd : f ≠ TX_RLP_DONE)
    (hd : ∀ c, c.currentField = f →
      dispatch c = wrap (stringHandler ceiling (some store) finish c))
    (hss : ∀ pos c d, slot (store pos c d) = writeBytes (slot c) pos d)
    (hsf : ∀ n c, slot (finish n c) = slot c) (hlf : ∀ n c, len (finish n c) = n)
    (ctx : txContext_t) (payload : List Nat) (chunks : List (List Nat))
    (hfield : ctx.currentField = f) (hidle : ctx.processingField = false)
    (hstaged : ctx.rlpBufferPos = 0) (hbuf : ctx.rlpBuffer.length = 5)
    (hn : payload.length ≤ ceiling) (hc : ceiling ≤ 55)
    (hne : ∀ c ∈ chunks, c ≠ [])
    (hflat : chunks.flatten = (0x80 + payload.length) :: payload) :
    ∃ o, (∀ k, feedChunks (k + 2) (.ret 1 ctx) chunks = some o) ∧ o.fatal = false ∧
      o.context.currentField = f.incr ∧ len o.context.content = payload.length ∧
      slot o.context.content = payload ++ (slot ctx.content).drop payload.length := by
  match chunks, hne, hflat with
  | [], _, hflat => simp at hflat
  | [] :: _, hne, _ => exact absurd rfl (hne [] (by simp))
  | (b :: d) :: cs, hne, hflat =>
    simp only [List.flatten_cons, List.cons_append, List.cons.injEq] at hflat
    obtain ⟨rfl, hrest⟩ := hflat
    have hdl : d.length + cs.flatten.length = payload.length := by
      have := congrArg List.length hrest
      simpa using this
    obtain ⟨s1, c1, hs1, hrun, hsl, hcase⟩ := call_header wrap ceiling store finish f slot
      len hw hfd hd hss hsf hlf ctx payload.length d hfield hidle hstaged hbuf hn hc
      (by omega)
    have hdeq : d = payload.take d.length := by rw [← hrest]; simp
    have hsl1 : slot c1.content = payload.take d.length ++ (slot ctx.content).drop d.length := by
      rw [hsl, writeBytes_zero, ← hdeq]
    rcases hcase with ⟨hlt, hcopy1⟩ | ⟨heq, hfield1, hlen1⟩
    · have hflat1 : cs.flatten = payload.drop d.length := by
        rw [← hrest]; simp
      obtain ⟨o, ho, hfin⟩ := copy_chunks wrap ceiling store finish f slot len hw hfd hd hss
        hsf hlf payload (slot ctx.content) hn hc cs d.length c1 s1 hcopy1 hlt hs1
        (fun c hcm => hne c (by simp [hcm])) hflat1 hsl1
      exact ⟨o, fun k => by rw [feedChunks_cons _ _ (Or.inr rfl) _ _ _ _ (hrun k), ho k],
        hfin⟩
    · have hcs : cs = [] := by
        have h0 : cs.flatten.length = 0 := by omega
        have h1 : cs.flatten = [] := List.length_eq_zero.mp h0
        match cs, hne, h1 with
        | [], _, _ => rfl
        | e :: es, hne, h1 =>
          have := hne e (by simp)
          simp at h1
          exact absurd h1.1 this
      subst hcs
      refine ⟨.ret s1 c1, fun k => ?_, ?_, hfield1, hlen1, ?_⟩
      · rw [feedChunks_cons _ _ (Or.inr rfl) _ _ _ _ (hrun k)]; rfl
      · rcases hs1 with rfl | rfl <;> rfl
      · have : Outcome.context (.ret s1 c1) = c1 := rfl
        rw [this, hsl1, heq, List.take_of_length_le (Nat.le_refl _)]

/-- Re-chunking of one stored byte-string field, for each of the four fields. -/
theorem rechunk_field (f : rlpTxField_e)
    (hf : f = TX_RLP_GASPRICE ∨ f = TX_RLP_STARTGAS ∨ f = TX_RLP_TO ∨ f = TX_RLP_AMOUNT)
    (m : Nat) (hm : sizeCeiling f = some m)
    (ctx : txContext_t) (payload : List Nat) (chunks : List (List Nat))
    (hfield : ctx.currentField = f) (hidle : ctx.processingField = false)
    (hstaged : ctx.rlpBufferPos = 0) (hbuf : ctx.rlpBuffer.length = 5)
    (hn : payload.length ≤ m)
    (hne : ∀ c ∈ chunks, c ≠ [])
    (hflat : chunks.flatten = (0x80 + payload.length) :: payload) :
    ∃ o, (∀ k, feedChunks (k + 2) (.ret 1 ctx) chunks = some o) ∧ o.fatal = false ∧
      storedLength f o.context.content = payload.length ∧
      storedBytes f o.context.content
        = payload ++ (storedBytes f ctx.content).drop payload.length := by
  rcases hf with rfl | rfl | rfl | rfl <;> simp only [sizeCeiling, Option.some.injEq] at hm <;>
    subst hm
  · obtain ⟨o, h1, h2, _, h4, h5⟩ := rechunk_one afterHandler MAX_INT256 storeGasprice
      finishGasprice TX_RLP_GASPRICE (fun c => c.gasprice.value) (fun c => c.gasprice.length)
      (Or.inl ⟨rfl, by decide⟩) (by decide) dispatch_gasprice (fun _ _ _ => rfl)
      (fun _ _ => rfl) (fun _ _ => rfl) ctx payload chunks hfield hidle hstaged hbuf hn
      (by decide) hne hflat
    exact ⟨o, h1, h2, h4, h5⟩
  · obtain ⟨o, h1, h2, _, h4, h5⟩ := rechunk_one afterHandler MAX_INT256 storeStartgas
      finishStartgas TX_RLP_STARTGAS (fun c => c.startgas.value) (fun c => c.startgas.length)
      (Or.inl ⟨rfl, by decide⟩) (by decide) dispatch_startgas (fun _ _ _ => rfl)
      (fun _ _ => rfl) (fun _ _ => rfl) ctx payload chunks hfield hidle hstaged hbuf hn
      (by decide) hne hflat
    exact ⟨o, h1, h2, h4, h5⟩
  · obtain ⟨o, h1, h2, _, h4, h5⟩ := rechunk_one afterHandler MAX_ADDRESS storeDestination
      finishDestination TX_RLP_TO (fun c => c.destination) (fun c => c.destinationLength)
      (Or.inl ⟨rfl, by decide⟩) (by decide) dispatch_to (fun _ _ _ => rfl)
      (fun _ _ => rfl) (fun _ _ => rfl) ctx payload chunks hfield hidle hstaged hbuf hn
      (by decide) hne hflat
    exact ⟨o, h1, h2, h4, h5⟩
  · obtain ⟨o, h1, h2, _, h4, h5⟩ := rechunk_one afterValue MAX_INT256 storeValue
      finishValue TX_RLP_AMOUNT (fun c => c.value.value) (fun c => c.value.length)
      (Or.inr rfl) (by decide) dispatch_amount (fun _ _ _ => rfl)
      (fun _ _ => rfl) (fun _ _ => rfl) ctx payload chunks hfield hidle hstaged hbuf hn
      (by decide) hne hflat
    exact ⟨o, h1, h2, h4, h5⟩

/-- C4: for each stored byte-string field (gas price, gas limit, recipient, amount), a
short-string header 0x80 + n with n within the ceiling of the field and a payload of
exactly n bytes, however these bytes are cut into successive non-empty chunks and fed
to processTx from the same context waiting for the header of the field: no call is
fatal, the stored length is n and the slot holds the payload (followed by what the slot
held before); so any two ways of cutting give the same stored length and bytes. -/
theorem rechunking_independent (f : rlpTxField_e)
    (hf : f = TX_RLP_GASPRICE ∨ f = TX_RLP_STARTGAS ∨ f = TX_RLP_TO ∨ f = TX_RLP_AMOUNT)
    (m : Nat) (hm : sizeCeiling f = some m)
    (ctx : txContext_t) (payload : List Nat) (chunks₁ chunks₂ : List (List Nat))
    (hfield : ctx.currentField = f) (hidle : ctx.processingField = false)
    (hstaged : ctx.rlpBufferPos = 0) (hbuf : ctx.rlpBuffer.length = 5)
    (hn : payload.length ≤ m)
    (hne₁ : ∀ c ∈ chunks₁, c ≠ [])
    (hflat₁ : chunks₁.flatten = (0x80 + payload.length) :: payload)
    (hne₂ : ∀ c ∈ chunks₂, c ≠ [])
    (hflat₂ : chunks₂.flatten = (0x80 + payload.length) :: payload) :
    ∃ o₁ o₂, (∀ k, feedChunks (k + 2) (.ret 1 ctx) chunks₁ = some o₁) ∧
      (∀ k, feedChunks (k + 2) (.ret 1 ctx) chunks₂ = some o₂) ∧
      o₁.fatal = false ∧ o₂.fatal = false ∧
      storedLength f o₁.context.content = payload.length ∧
      storedLength f o₂.context.content = payload.length ∧
      (storedBytes f o₁.context.content).take payload.length = payload ∧
      (storedBytes f o₂.context.content).take payload.length = payload ∧
      storedBytes f o₁.context.content = storedBytes f o₂.context.content := by
  obtain ⟨o₁, a1, a2, a3, a4⟩ :=
    rechunk_field f hf m hm ctx payload chunks₁ hfield hidle hstaged hbuf hn hne₁ hflat₁
  obtain ⟨o₂, b1, b2, b3, b4⟩ :=
    rechunk_field f hf m hm ctx payload chunks₂ hfield hidle hstaged hbuf hn hne₂ hflat₂
  refine ⟨o₁, o₂, a1, b1, a2, b2, a3, b3, ?_, ?_, ?_⟩
  · rw [a4]; simp
  · rw [b4]; simp
  · rw [a4, b4]

theorem rechunking_independent_witness :
    (∀ c ∈ [[0x83, 0x0a], [0x0b, 0x0c]], c ≠ []) ∧
    (∀ c ∈ [[0x83], [0x0a], [0x0b], [0x0c]], c ≠ []) ∧
    ∃ o₁ o₂,
      feedChunks 2 (.ret 1 { freshContext with currentField := TX_RLP_TO })
        [[0x83, 0x0a], [0x0b, 0x0c]] = some o₁ ∧
      feedChunks 2 (.ret 1 { freshContext with currentField := TX_RLP_TO })
        [[0x83], [0x0a], [0x0b], [0x0c]] = some o₂ ∧
      o₁.context.content.destinationLength = 3 ∧
      o₂.context.content.destinationLength = 3 ∧
      o₁.context.content.destination.take 3 = [0x0a, 0x0b, 0x0c] ∧
      o₁.context.content.destination = o₂.context.content.destination := by
  refine ⟨by decide, by decide, ?_⟩
  obtain ⟨o₁, o₂, h1, h2, _, _, h5, h6, h7, _, h9⟩ :=
    rechunking_independent TX_RLP_TO (by decide) 20 rfl
      { freshContext with currentField := TX_RLP_TO } [0x0a, 0x0b, 0x0c]
      [[0x83, 0x0a], [0x0b, 0x0c]] [[0x83], [0x0a], [0x0b], [0x0c]] rfl rfl rfl rfl
      (by decide) (by decide) (by decide) (by decide) (by decide)
  exact ⟨o₁, o₂, h1 0, h2 0, h5, h6, h7, h9⟩

/-! ### The probe on unsupported leading bytes, the empty chunk and Done -/

/-- C11 (as stated) fails: with only the leading byte 0xbc staged, rlpCanDecode returns
false (need more bytes) and leaves valid as it was. -/
theorem rlpCanDecode_lone_unsupported :
    rlpCanDecode [0xbc] 1 true = (false, true) ∧
    rlpCanDecode [0xff, 0x00, 0x00, 0x00, 0x00] 5 true = (false, true) := by
  decide

/-- C11 (amended): for a leading byte b in 0xbc..0xbf, rlpCanDecode returns true with
valid = false exactly when at least 1 + (b - 0xb7) bytes are staged, and for b in
0xfc..0xff exactly when at least 1 + (b - 0xf7) are (six or more in both cases); with
fewer bytes staged it returns false and leaves valid as it was; so it never reports
valid = true for these leading bytes, and with at most five bytes staged it always
asks for more. -/
theorem rlpCanDecode_unsupported_leading (b : Nat) (rest : List Nat) (bufferLength : Nat)
    (valid : Bool) (hb : (0xbc ≤ b ∧ b ≤ 0xbf) ∨ (0xfc ≤ b ∧ b ≤ 0xff)) :
    ((0xbc ≤ b ∧ b ≤ 0xbf) →
      rlpCanDecode (b :: rest) bufferLength valid
        = if bufferLength < 1 + (b - 0xb7) then (false, valid) else (true, false)) ∧
    ((0xfc ≤ b ∧ b ≤ 0xff) →
      rlpCanDecode (b :: rest) bufferLength valid
        = if bufferLength < 1 + (b - 0xf7) then (false, valid) else (true, false)) ∧
    rlpCanDecode (b :: rest) bufferLength valid ≠ (true, true) ∧
    (bufferLength ≤ 5 → rlpCanDecode (b :: rest) bufferLength valid = (false, valid)) := by
  refine ⟨?_, ?_, ?_, ?_⟩
  · intro h
    simp only [rlpCanDecode, List.getD_cons_zero]
    split_ifs <;> first | rfl | omega
  · intro h
    simp only [rlpCanDecode, List.getD_cons_zero]
    split_ifs <;> first | rfl | omega
  · simp only [rlpCanDecode, List.getD_cons_zero]
    split_ifs <;> first | omega | simp
  · intro h
    exact rlpCanDecode_unsupported (b :: rest) bufferLength valid (by simpa using hb) h

theorem rlpCanDecode_unsupported_leading_witness :
    ((0xbc ≤ 0xbd ∧ 0xbd ≤ 0xbf) ∨ (0xfc ≤ 0xbd ∧ 0xbd ≤ 0xff)) ∧
    rlpCanDecode [0xbd, 0x01] 7 true = (true, false) ∧
    rlpCanDecode [0xbd, 0x01] 6 true = (false, true) := by
  have h := rlpCanDecode_unsupported_leading 0xbd [0x01] 7 true (by decide)
  have h' := rlpCanDecode_unsupported_leading 0xbd [0x01] 6 true (by decide)
  exact ⟨by decide, by simpa using h.1 (by decide), by simpa using h'.1 (by decide)⟩

/-- C13 (as stated) fails: after the example transaction is decoded the field is Done,
and the empty chunk then makes processTx return 0, not 1. -/
theorem empty_chunk_at_done :
    (feedChunks 8 (.ret 1 freshContext) [exampleTx, []]).map
        (fun o => (o.status, o.context.currentField))
      = some (some 0, TX_RLP_DONE) := by
  decide

/-- C13 (amended): on every context with no remaining chunk bytes processTx returns at
once and leaves the whole context, output record included, as it was; the status is 1
(need more input) for every field other than Done and 0 at Done. -/
theorem empty_chunk_unchanged (ctx : txContext_t) (hempty : ctx.commandLength = 0) :
    ∀ k, processTx (k + 1) ctx
      = some (.ret (if ctx.currentField = TX_RLP_DONE then 0 else 1) ctx) := by
  intro k
  by_cases hf : ctx.currentField = TX_RLP_DONE
  · simp [processTx, processTxBody, hf]
  · simp [processTx, processTxBody, hf, hempty]

theorem empty_chunk_unchanged_witness :
    (deliver { freshContext with currentField := TX_RLP_TO, processingField := true,
                                 currentFieldLength := 20, currentFieldPos := 7 }
        []).commandLength = 0 ∧
    processTx 1 (deliver { freshContext with currentField := TX_RLP_TO,
                                             processingField := true,
                                             currentFieldLength := 20,
                                             currentFieldPos := 7 } [])
      = some (.ret 1 (deliver { freshContext with currentField := TX_RLP_TO,
                                                  processingField := true,
                                                  currentFieldLength := 20,
                                                  currentFieldPos := 7 } [])) :=
  ⟨rfl, empty_chunk_unchanged _ rfl 0⟩

/-- C14: at Done every call of processTx returns 0 at once and leaves the whole context
as it was, input cursor and output record included, whatever the chunk; so after any
number of further chunks the last call has returned 0 and nothing but the caller's
chunk view differs from the context at completion. -/
theorem done_is_terminal (ctx : txContext_t) (hdone : ctx.currentField = TX_RLP_DONE) :
    (∀ k, processTx (k + 1) ctx = some (.ret 0 ctx)) ∧
    (∀ data k, processTx (k + 1) (deliver ctx data) = some (.ret 0 (deliver ctx data))) ∧
    (∀ chunks k, ∃ c, feedChunks (k + 1) (.ret 0 ctx) chunks = some (.ret 0 c) ∧
      c = { ctx with chunk := c.chunk, workBuffer := c.workBuffer,
                     commandLength := c.commandLength }) := by
  have h1 : ∀ (c : txContext_t), c.currentField = TX_RLP_DONE →
      ∀ k, processTx (k + 1) c = some (.ret 0 c) := by
    intro c hc k
    simp [processTx, processTxBody, hc]
  refine ⟨h1 ctx hdone, fun data k => h1 _ (by simpa [deliver] using hdone) k, ?_⟩
  intro chunks
  induction chunks generalizing ctx with
  | nil => intro k; exact ⟨ctx, rfl, rfl⟩
  | cons d ds ih =>
    intro k
    have hrun := h1 (deliver ctx d) (by simpa [deliver] using hdone) k
    obtain ⟨c, hc, heq⟩ := ih (deliver ctx d) (by simpa [deliver] using hdone) k
    refine ⟨c, ?_, ?_⟩
    · rw [feedChunks_cons _ _ (Or.inl rfl) _ _ _ _ hrun, hc]
    · rw [heq]; simp [deliver]

theorem done_is_terminal_witness :
    ({ freshContext with currentField := TX_RLP_DONE } : txContext_t).currentField
      = TX_RLP_DONE ∧
    processTx 1 (deliver { freshContext with currentField := TX_RLP_DONE } [0x01, 0x02])
      = some (.ret 0 (deliver { freshContext with currentField := TX_RLP_DONE }
          [0x01, 0x02])) :=
  ⟨rfl, (done_is_terminal { freshContext with currentField := TX_RLP_DONE } rfl).2.1
    [0x01, 0x02] 0⟩

/-! ### The byte reader readTxByte -/

/-- The staging loop calls readTxByte only on contexts with remaining chunk bytes. -/
theorem stagePasses_nonzero (n : Nat) : ∀ (c : txContext_t),
    ∀ c' ∈ stagePasses n c, c'.commandLength ≠ 0 := by
  induction n with
  | zero => intro c c' h; simp [stagePasses] at h
  | succ n ih =>
    intro c c' h
    by_cases h1 : c.commandLength = 0
    · simp [stagePasses, h1] at h
    · rw [stagePasses] at h
      simp only [ne_eq, h1, not_false_eq_true, if_true] at h
      split_ifs at h
      all_goals first
        | (simp at h; done)
        | (simp only [List.mem_singleton] at h; rw [h]; exact h1)
        | (simp only [List.mem_cons] at h
           rcases h with h | h
           · rw [h]; exact h1
           · exact ih _ c' h)

/-- C15 (as stated) fails: invoked with zero remaining bytes readTxByte does not fail;
it returns a byte, moves the cursor and wraps the remaining length to 2^32 - 1. -/
theorem readTxByte_wraps :
    (deliver freshContext []).commandLength = 0 ∧
    (readTxByte (deliver freshContext [])).2.commandLength = 4294967295 ∧
    (readTxByte (deliver freshContext [])).2.workBuffer = 1 := by
  decide

/-- C15 (amended): readTxByte makes no underflow test of its own; the test is made by
its caller, the staging loop of processTx, which calls it only on contexts with
remaining chunk bytes. With at least one remaining byte readTxByte returns the next
byte of the chunk, moves the cursor by one, decrements the remaining length by one,
increments fieldConsumed by one exactly when a field is in progress, and leaves the
rest of the context as it was. -/
theorem readTxByte_takes_next (ctx : txContext_t) (h1 : 1 ≤ ctx.commandLength)
    (h32 : ctx.commandLength < 4294967296) (hpos : ctx.currentFieldPos + 1 < 4294967296) :
    (readTxByte ctx).1 = ctx.chunk.getD ctx.workBuffer 0 ∧
    (readTxByte ctx).2 =
      { ctx with workBuffer := ctx.workBuffer + 1,
                 commandLength := ctx.commandLength - 1,
                 currentFieldPos :=
                   if ctx.processingField then ctx.currentFieldPos + 1
                   else ctx.currentFieldPos } ∧
    (∀ n c, ∀ c' ∈ stagePasses n c, c'.commandLength ≠ 0) ∧
    (∀ n c, c.commandLength = 0 → stageHeader n c = .left false c) := by
  refine ⟨rfl, ?_, fun n c => stagePasses_nonzero n c, ?_⟩
  · have e1 : u32 (ctx.commandLength + 4294967295) = ctx.commandLength - 1 :=
      u32_pred (by omega) h32
    have e2 : u32 (ctx.currentFieldPos + 1) = ctx.currentFieldPos + 1 := u32_of_lt hpos
    cases hp : ctx.processingField <;> simp [readTxByte, e1, e2, hp]
  · intro n c hc
    cases n <;> simp [stageHeader, hc]

theorem readTxByte_takes_next_witness :
    (1 ≤ (deliver { freshContext with processingField := true } [0x2a, 0x2b]).commandLength) ∧
    (readTxByte (deliver { freshContext with processingField := true } [0x2a, 0x2b])).1
      = 0x2a ∧
    (readTxByte (deliver { freshContext with processingField := true } [0x2a, 0x2b])).2
      = { freshContext with processingField := true, chunk := [0x2a, 0x2b], workBuffer := 1,
                            commandLength := 1, currentFieldPos := 1 } := by
  have h := readTxByte_takes_next
    (deliver { freshContext with processingField := true } [0x2a, 0x2b])
    (by decide) (by decide) (by decide)
  exact ⟨by decide, h.1, by rw [h.2.1]; rfl⟩

/-! ### Single-byte self-encoded fields -/

/-- A byte-string field whose whole encoding is the single self-encoded byte b, given
as the entire chunk: one call completes the field. -/
theorem single_byte_string (wrap : Handled → Step) (ceiling : Nat)
    (out : Option (Nat → txContent_t → List Nat → txContent_t))
    (finish : Nat → txContent_t → txContent_t) (f : rlpTxField_e)
    (hw : LoopsOrReturns wrap f) (hfd : f ≠ TX_RLP_DONE)
    (hd : ∀ c, c.currentField = f → dispatch c = wrap (stringHandler ceiling out finish c))
    (ctx : txContext_t) (b : Nat)
    (hfield : ctx.currentField = f) (hidle : ctx.processingField = false)
    (hstaged : ctx.rlpBufferPos = 0) (hbuf : ctx.rlpBuffer.length = 5)
    (hb : b ≤ 0x7f) (hc : 1 ≤ ceiling) :
    ∃ s c, (s = 0 ∨ s = 1) ∧ (∀ k, processTx (k + 2) (deliver ctx [b]) = some (.ret s c)) ∧
      c.currentField = f.incr ∧ c.processingField = false ∧ c.currentFieldLength = 1 ∧
      c.currentFieldPos = 1 ∧ c.commandLength = 0 ∧ c.workBuffer = 1 ∧
      c.content = finish 1 (applyOut out 0 ctx.content [b]) := by
  have haw : Awaiting (deliver ctx [b]) f [b] := ⟨hfield, hidle, hstaged, hbuf, rfl, rfl⟩
  have hbody := body_header_single _ f b [] haw hfd (by simp) hb
  rw [hd _ (by simpa [deliver] using hfield)] at hbody
  rw [stringHandler_complete _ _ _ _ rfl (by simpa using hc) rfl (by simp)
    (by simp [deliver]) (by simp)] at hbody
  obtain ⟨s, hs, hrun⟩ := processTx_after_handler wrap f hw _ _ hbody (by simp [deliver])
    (Or.inr (by simp [deliver, hfield])) hfd
  exact ⟨s, _, hs, hrun, by simp [deliver, hfield], rfl, rfl, rfl, by simp [deliver],
    by simp [deliver], by simp [deliver, readBytes]⟩

/-- A shard field whose whole encoding is the single self-encoded byte b, given as the
entire chunk: one call completes the field with the value b in the slot. -/
theorem single_byte_shard (ceiling : Nat) (slot : txContent_t → Nat)
    (setSlot : Nat → txContent_t → txContent_t)
    (hgs : ∀ v x, slot (setSlot v x) = v)
    (hss : ∀ v w x, setSlot v (setSlot w x) = setSlot v x)
    (hsd : ∀ x n, slot { x with destinationLength := n } = slot x)
    (f : rlpTxField_e) (hfd : f ≠ TX_RLP_DONE) (hinc : f.incr ≠ TX_RLP_DONE)
    (hd : ∀ c, c.currentField = f →
      dispatch c = afterHandler (shardHandler ceiling slot setSlot c))
    (ctx : txContext_t) (b : Nat)
    (hfield : ctx.currentField = f) (hidle : ctx.processingField = false)
    (hstaged : ctx.rlpBufferPos = 0) (hbuf : ctx.rlpBuffer.length = 5)
    (hb : b ≤ 0x7f) (hc : 1 ≤ ceiling) (hc4 : ceiling ≤ 4) :
    ∃ s c, (s = 0 ∨ s = 1) ∧ (∀ k, processTx (k + 2) (deliver ctx [b]) = some (.ret s c)) ∧
      c.currentField = f.incr ∧ c.processingField = false ∧ c.currentFieldLength = 1 ∧
      c.currentFieldPos = 1 ∧ c.commandLength = 0 ∧ c.workBuffer = 1 ∧
      slot c.content = b := by
  have haw : Awaiting (deliver ctx [b]) f [b] := ⟨hfield, hidle, hstaged, hbuf, rfl, rfl⟩
  have hbody := body_header_single _ f b [] haw hfd (by simp) hb
  rw [hd _ (by simpa [deliver] using hfield)] at hbody
  rw [shardHandler_whole ceiling slot setSlot hgs hss _ [b] rfl rfl (by simpa using hc) hc4
    rfl rfl (by simp) (by simp [deliver]) (by simp [deliver, readBytes])
    (by intro x hx; simp at hx; omega)] at hbody
  obtain ⟨s, hs, hrun⟩ := processTx_after_handler afterHandler f (Or.inl ⟨rfl, hinc⟩) _ _
    hbody (by simp [deliver]) (Or.inr (by simp [deliver, hfield])) hfd
  refine ⟨s, _, hs, hrun, by simp [deliver, hfield], rfl, rfl, rfl, by simp [deliver],
    by simp [deliver], ?_⟩
  simp [deliver, bigEndian, hsd, hgs]

/-- C12: on a context that waits for the header of a string field (Nonce to Amount), the
chunk [b] with b ≤ 0x7f is taken by one call of processTx, which does not fail: the
field is advanced by exactly one position and no field is in progress, the declared
length is 1 and one byte is consumed (cursor one byte on, nothing left of the chunk);
gas price, gas limit, recipient and amount hold the stored length 1 and the byte b at
the start of their slot, and a shard slot holds the value b. -/
theorem single_byte_field (ctx : txContext_t) (b : Nat) (hb : b ≤ 0x7f)
    (hf1 : ctx.currentField ≠ TX_RLP_CONTENT) (hf2 : ctx.currentField ≠ TX_RLP_DONE)
    (hidle : ctx.processingField = false) (hstaged : ctx.rlpBufferPos = 0)
    (hbuf : ctx.rlpBuffer.length = 5) :
    ∃ s c, (s = 0 ∨ s = 1) ∧ (∀ k, processTx (k + 2) (deliver ctx [b]) = some (.ret s c)) ∧
      c.currentField = ctx.currentField.incr ∧
      c.currentField.toNat = ctx.currentField.toNat + 1 ∧
      c.processingField = false ∧ c.currentFieldLength = 1 ∧ c.currentFieldPos = 1 ∧
      c.commandLength = 0 ∧ c.workBuffer = 1 ∧
      ((ctx.currentField = TX_RLP_GASPRICE ∨ ctx.currentField = TX_RLP_STARTGAS ∨
          ctx.currentField = TX_RLP_TO ∨ ctx.currentField = TX_RLP_AMOUNT) →
        storedLength ctx.currentField c.content = 1 ∧
        (storedBytes ctx.currentField c.content).take 1 = [b]) ∧
      (ctx.currentField = TX_RLP_FROMSHARD → c.content.fromShard = b) ∧
      (ctx.currentField = TX_RLP_TOSHARD → c.content.toShard = b) := by
  cases hf : ctx.currentField
  case TX_RLP_CONTENT => exact absurd hf hf1
  case TX_RLP_DONE => exact absurd hf hf2
  case TX_RLP_NONCE =>
    obtain ⟨s, c, hs, hrun, h1, h2, h3, h4, h5, h6, _⟩ := single_byte_string afterHandler
      MAX_INT256 none (fun _ x => x) TX_RLP_NONCE (Or.inl ⟨rfl, by decide⟩) (by decide)
      dispatch_nonce ctx b hf hidle hstaged hbuf hb (by decide)
    exact ⟨s, c, hs, hrun, h1, by rw [h1]; rfl, h2, h3, h4, h5, h6, by simp, by simp, by simp⟩
  case TX_RLP_GASPRICE =>
    obtain ⟨s, c, hs, hrun, h1, h2, h3, h4, h5, h6, h7⟩ := single_byte_string afterHandler
      MAX_INT256 (some storeGasprice) finishGasprice TX_RLP_GASPRICE
      (Or.inl ⟨rfl, by decide⟩) (by decide)
      dispatch_gasprice ctx b hf hidle hstaged hbuf hb (by decide)
    exact ⟨s, c, hs, hrun, h1, by rw [h1]; rfl, h2, h3, h4, h5, h6,
      by simp [h7, storedLength, storedBytes, finishGasprice, applyOut, storeGasprice,
        writeBytes], by simp, by simp⟩
  case TX_RLP_STARTGAS =>
    obtain ⟨s, c, hs, hrun, h1, h2, h3, h4, h5, h6, h7⟩ := single_byte_string afterHandler
      MAX_INT256 (some storeStartgas) finishStartgas TX_RLP_STARTGAS
      (Or.inl ⟨rfl, by decide⟩) (by decide)
      dispatch_startgas ctx b hf hidle hstaged hbuf hb (by decide)
    exact ⟨s, c, hs, hrun, h1, by rw [h1]; rfl, h2, h3, h4, h5, h6,
      by simp [h7, storedLength, storedBytes, finishStartgas, applyOut, storeStartgas,
        writeBytes], by simp, by simp⟩
  case TX_RLP_FROMSHARD =>
    obtain ⟨s, c, hs, hrun, h1, h2, h3, h4, h5, h6, h7⟩ := single_byte_shard 4
      (fun x => x.fromShard) (fun v x => { x with fromShard := v }) (fun _ _ => rfl)
      (fun _ _ _ => rfl) (fun _ _ => rfl) TX_RLP_FROMSHARD (by decide) (by decide)
      dispatch_fromShard ctx b hf hidle hstaged hbuf hb (by decide) (by decide)
    exact ⟨s, c, hs, hrun, h1, by rw [h1]; rfl, h2, h3, h4, h5, h6, by simp,
      fun _ => h7, by simp⟩
  case TX_RLP_TOSHARD =>
    obtain ⟨s, c, hs, hrun, h1, h2, h3, h4, h5, h6, h7⟩ := single_byte_shard MAX_INT32
      (fun x => x.toShard) (fun v x => { x with toShard := v }) (fun _ _ => rfl)
      (fun _ _ _ => rfl) (fun _ _ => rfl) TX_RLP_TOSHARD (by decide) (by decide)
      dispatch_toShard ctx b hf hidle hstaged hbuf hb (by decide) (by decide)
    exact ⟨s, c, hs, hrun, h1, by rw [h1]; rfl, h2, h3, h4, h5, h6, by simp, by simp,
      fun _ => h7⟩
  case TX_RLP_TO =>
    obtain ⟨s, c, hs, hrun, h1, h2, h3, h4, h5, h6, h7⟩ := single_byte_string afterHandler
      MAX_ADDRESS (some storeDestination) finishDestination TX_RLP_TO
      (Or.inl ⟨rfl, by decide⟩) (by decide)
      dispatch_to ctx b hf hidle hstaged hbuf hb (by decide)
    exact ⟨s, c, hs, hrun, h1, by rw [h1]; rfl, h2, h3, h4, h5, h6,
      by simp [h7, storedLength, storedBytes, finishDestination, applyOut, storeDestination,
        writeBytes], by simp, by simp⟩
  case TX_RLP_AMOUNT =>
    obtain ⟨s, c, hs, hrun, h1, h2, h3, h4, h5, h6, h7⟩ := single_byte_string afterValue
      MAX_INT256 (some storeValue) finishValue TX_RLP_AMOUNT (Or.inr rfl) (by decide)
      dispatch_amount ctx b hf hidle hstaged hbuf hb (by decide)
    exact ⟨s, c, hs, hrun, h1, by rw [h1]; rfl, h2, h3, h4, h5, h6,
      by simp [h7, storedLength, storedBytes, finishValue, applyOut, storeValue,
        writeBytes], by simp, by simp⟩

theorem single_byte_field_witness :
    (0x2a ≤ 0x7f) ∧
    ∃ s c, (s = 0 ∨ s = 1) ∧
      processTx 2 (deliver { freshContext with currentField := TX_RLP_FROMSHARD } [0x2a])
        = some (.ret s c) ∧
      c.currentField = TX_RLP_TOSHARD ∧ c.commandLength = 0 ∧ c.workBuffer = 1 ∧
      c.content.fromShard = 0x2a := by
  refine ⟨by decide, ?_⟩
  obtain ⟨s, c, hs, hrun, h1, _, _, _, _, h5, h6, _, h8, _⟩ :=
    single_byte_field { freshContext with currentField := TX_RLP_FROMSHARD } 0x2a
      (by decide) (by decide) (by decide) rfl rfl rfl
  exact ⟨s, c, hs, hrun 0, h1, h5, h6, h8 rfl⟩

/-! ### Invariants of the driver loop -/

theorem toNat_incr (f : rlpTxField_e) :
    f.toNat ≤ f.incr.toNat ∧ f.incr.toNat ≤ f.toNat + 1 := by
  cases f <;> decide

theorem toNat_incr_of_ne (f : rlpTxField_e) (h : f ≠ TX_RLP_DONE) :
    f.incr.toNat = f.toNat + 1 := by
  cases f <;> first | rfl | exact absurd rfl h

theorem toNat_le_eight (f : rlpTxField_e) : f.toNat ≤ 8 := by
  cases f <;> decide

/-- One pass of the staging loop on a context with remaining bytes and no field in
progress: the byte is staged, then the probe decides. -/
theorem stageHeader_step (n : Nat) (c : txContext_t) (h0 : c.commandLength ≠ 0)
    (h32 : c.commandLength < 4294967296) (hidle : c.processingField = false) :
    stageHeader (n + 1) c =
      if (rlpCanDecode (c.rlpBuffer.set c.rlpBufferPos (c.chunk.getD c.workBuffer 0))
            (u32 (c.rlpBufferPos + 1)) false).1 = true then
        if (rlpCanDecode (c.rlpBuffer.set c.rlpBufferPos (c.chunk.getD c.workBuffer 0))
              (u32 (c.rlpBufferPos + 1)) false).2 = false then
          .ret (-1) { stageByte c with rlpBufferPos := u32 (c.rlpBufferPos + 1) }
        else .left true { stageByte c with rlpBufferPos := u32 (c.rlpBufferPos + 1) }
      else if u32 (c.rlpBufferPos + 1) = 5 then
        .ret (-1) { stageByte c with rlpBufferPos := u32 (c.rlpBufferPos + 1) }
      else stageHeader n { stageByte c with rlpBufferPos := u32 (c.rlpBufferPos + 1) } := by
  have hu : u32 (c.commandLength + 4294967295) = c.commandLength - 1 :=
    u32_pred (by omega) h32
  have h1 : ¬ c.commandLength < 1 := by omega
  rw [stageHeader]
  simp [h0, readTxByte, hidle, hu, stageByte, RLP_BUFFER_SIZE]

theorem staging_refl (c : txContext_t) : Staging c c :=
  ⟨rfl, rfl, rfl, rfl, rfl, rfl, rfl, rfl, rfl, rfl, rfl, le_refl _⟩

theorem staging_trans {a b c : txContext_t} (h1 : Staging a b) (h2 : Staging b c) :
    Staging a c :=
  ⟨h2.field.trans h1.field, h2.length.trans h1.length, h2.pos.trans h1.pos,
    h2.list.trans h1.list, h2.idle.trans h1.idle, h2.single.trans h1.single,
    h2.data.trans h1.data, h2.chunk.trans h1.chunk, h2.content.trans h1.content,
    h2.buffer.trans h1.buffer, h2.cursor.trans h1.cursor, le_trans h2.remaining h1.remaining⟩

theorem Staging.step (c : txContext_t) (h0 : c.commandLength ≠ 0) :
    Staging c { stageByte c with rlpBufferPos := u32 (c.rlpBufferPos + 1) } := by
  refine ⟨rfl, rfl, rfl, rfl, rfl, rfl, rfl, rfl, rfl, ?_, ?_, ?_⟩
  · simp [stageByte]
  · simp only [stageByte]; omega
  · simp only [stageByte]; omega

/-- The staging loop on a context with no field in progress: what it leaves, and what
each way of leaving it tells. -/
theorem stageHeader_sound (n : Nat) : ∀ c : txContext_t, c.processingField = false →
    c.commandLength < 4294967296 →
    Staging c (stageHeader n c).context ∧
    (∀ c', stageHeader n c = .left true c' →
      c'.commandLength < c.commandLength ∧
      rlpCanDecode c'.rlpBuffer c'.rlpBufferPos false = (true, true)) ∧
    (∀ c', stageHeader n c = .left false c' →
      (c.commandLength ≤ n → c'.commandLength = 0) ∧
      (c.rlpBufferPos ≤ 4 → c'.rlpBufferPos ≤ 4)) ∧
    (∀ s c', stageHeader n c = .ret s c' → s = -1) := by
  induction n with
  | zero =>
    intro c _ _
    refine ⟨staging_refl c, ?_, ?_, ?_⟩
    · intro c' h; simp [stageHeader] at h
    · intro c' h
      simp only [stageHeader, Staged.left.injEq, true_and] at h
      subst h
      exact ⟨fun h => by omega, fun h => h⟩
    · intro s c' h; simp [stageHeader] at h
  | succ n ih =>
    intro c hidle h32
    by_cases h0 : c.commandLength = 0
    · have hs : stageHeader (n + 1) c = .left false c := by simp [stageHeader, h0]
      rw [hs]
      refine ⟨staging_refl c, ?_, ?_, ?_⟩
      · intro c' h; simp at h
      · intro c' h
        simp only [Staged.left.injEq, true_and] at h
        subst h
        exact ⟨fun _ => h0, fun h => h⟩
      · intro s c' h; simp at h
    · have hstep := Staging.step c h0
      rw [stageHeader_step n c h0 h32 hidle]
      generalize hc2 : ({ stageByte c with rlpBufferPos := u32 (c.rlpBufferPos + 1) }
        : txContext_t) = c2 at hstep
      have hbuf : c2.rlpBuffer = c.rlpBuffer.set c.rlpBufferPos (c.chunk.getD c.workBuffer 0) := by
        rw [← hc2]; rfl
      have hpos : c2.rlpBufferPos = u32 (c.rlpBufferPos + 1) := by rw [← hc2]
      have hcmd : c2.commandLength = c.commandLength - 1 := by rw [← hc2]; rfl
      rw [← hbuf, ← hpos]
      split_ifs with h1 h2 h3
      · refine ⟨hstep, ?_, ?_, ?_⟩
        · intro c' h; simp at h
        · intro c' h; simp at h
        · intro s c' h
          simp only [Staged.ret.injEq] at h
          exact h.1.symm
      · refine ⟨hstep, ?_, ?_, ?_⟩
        · intro c' h
          simp only [Staged.left.injEq, true_and] at h
          subst h
          refine ⟨by omega, ?_⟩
          simp only [Bool.not_eq_false] at h2
          exact Prod.ext h1 h2
        · intro c' h; simp at h
        · intro s c' h; simp at h
      · refine ⟨hstep, ?_, ?_, ?_⟩
        · intro c' h; simp at h
        · intro c' h; simp at h
        · intro s c' h
          simp only [Staged.ret.injEq] at h
          exact h.1.symm
      · obtain ⟨i1, i2, i3, i4⟩ := ih c2 (hstep.idle.trans hidle) (by omega)
        refine ⟨staging_trans hstep i1, ?_, ?_, i4⟩
        · intro c' h
          obtain ⟨j1, j2⟩ := i2 c' h
          exact ⟨by omega, j2⟩
        · intro c' h
          obtain ⟨j1, j2⟩ := i3 c' h
          refine ⟨fun hn => j1 (by omega), fun hp => j2 ?_⟩
          have hu : u32 (c.rlpBufferPos + 1) = c.rlpBufferPos + 1 := u32_of_lt (by omega)
          rw [hpos, hu]
          rw [hpos, hu] at h3
          omega

theorem toUint32_lt (x : Int) : toUint32 x < 4294967296 := by
  unfold toUint32
  omega

theorem decode_ok_of_canDecode (buffer : List Nat) (n fl : Nat) (v : Bool)
    (h : rlpCanDecode buffer n v = (true, true)) :
    (rlpDecodeLength buffer n fl).ok = true := by
  simp only [rlpCanDecode] at h
  simp only [rlpDecodeLength]
  split_ifs at h ⊢ <;> first | rfl | (simp at h; done) | omega

theorem decode_length_lt (buffer : List Nat) (n fl : Nat) (hfl : fl < 4294967296) :
    (rlpDecodeLength buffer n fl).fieldLength < 4294967296 := by
  have l1 : lengthOf1 buffer < 4294967296 := toUint32_lt _
  have l2 : lengthOf2 buffer < 4294967296 := toUint32_lt _
  have l3 : lengthOf3 buffer < 4294967296 := toUint32_lt _
  have l4 : lengthOf4 buffer < 4294967296 := toUint32_lt _
  simp only [rlpDecodeLength]
  split_ifs <;> dsimp only <;> omega

theorem writeBytes_length (arr data : List Nat) (pos : Nat)
    (h : pos + data.length ≤ arr.length) : (writeBytes arr pos data).length = arr.length := by
  simp only [writeBytes, List.length_append, List.length_take, List.length_drop]
  omega

theorem readBytes_length_le (chunk : List Nat) (wb n : Nat) :
    (readBytes chunk wb n).length ≤ n := by
  simp [readBytes]

theorem copySize_le (c : txContext_t) :
    copySize c ≤ c.commandLength ∧ copySize c ≤ c.currentFieldLength - c.currentFieldPos := by
  unfold copySize
  split_ifs <;> omega

/-- The copy of a handler: copyTxData with the size the handler computes does not
throw. -/
theorem copyTxData_copySize (c : txContext_t)
    (out : Option (txContent_t → List Nat → txContent_t)) (hpf : c.processingField = true) :
    copyTxData c out (copySize c) = .ok
      { c with
        content := (match out with
          | some store => store c.content (readBytes c.chunk c.workBuffer (copySize c))
          | none => c.content),
        workBuffer := c.workBuffer + copySize c,
        commandLength := c.commandLength - copySize c,
        currentFieldPos := u32 (c.currentFieldPos + copySize c) } := by
  have h := (copySize_le c).1
  have h1 : ¬ c.commandLength < copySize c := by omega
  cases out <;> simp [copyTxData, h1, hpf]

theorem SlotsSized.length {content : txContent_t} (h : SlotsSized content) (n : Nat) :
    SlotsSized { content with destinationLength := n } :=
  ⟨h.gasprice, h.startgas, h.value, h.destination⟩

/-- The context after the copy of a handler is sound, provided the store kept the sizes
of the output arrays. -/
theorem copied_sound (c : txContext_t) (content : txContent_t) (hs : Sound c)
    (hpos : c.currentFieldPos < c.currentFieldLength) (hslots : SlotsSized content) :
    Sound { c with content := content, workBuffer := c.workBuffer + copySize c,
                   commandLength := c.commandLength - copySize c,
                   currentFieldPos := u32 (c.currentFieldPos + copySize c) } ∧
    (u32 (c.currentFieldPos + copySize c) ≠ c.currentFieldLength →
      c.commandLength - copySize c = 0) := by
  obtain ⟨h1, h2⟩ := copySize_le c
  have h32 := hs.length32
  have hu : u32 (c.currentFieldPos + copySize c) = c.currentFieldPos + copySize c :=
    u32_of_lt (by omega)
  refine ⟨⟨hs.staging, ?_, hs.length32, hslots, ?_, ?_⟩, ?_⟩
  · show u32 _ ≤ c.currentFieldLength
    rw [hu]; omega
  · show c.workBuffer + copySize c + (c.commandLength - copySize c) ≤ c.chunk.length
    have := hs.inside
    omega
  · show c.commandLength - copySize c < _
    have := hs.count32
    omega
  · rw [hu]
    unfold copySize
    split_ifs <;> omega

/-- The completion test at the end of every handler of a byte-string field. -/
theorem finish_handles (c c1 : txContext_t) (fin : txContent_t) (hs : Sound c1)
    (hslots : SlotsSized fin) (hchunk : c1.chunk = c.chunk)
    (hcursor : c1.workBuffer + c1.commandLength = c.workBuffer + c.commandLength)
    (hrem : c1.commandLength ≤ c.commandLength)
    (hb : c1.rlpBuffer = c.rlpBuffer) (hf : c1.rlpBufferPos = c.rlpBufferPos)
    (hfield : c1.currentField = c.currentField) (hpf : c1.processingField = true)
    (hrest : c1.currentFieldPos ≠ c1.currentFieldLength → c1.commandLength = 0) :
    Handles c (if c1.currentFieldPos = c1.currentFieldLength then
      { c1 with content := fin, currentField := c1.currentField.incr,
                processingField := false } else c1) := by
  split_ifs with h
  · refine ⟨⟨hs.staging, hs.consumed, hs.length32, hslots, hs.inside, hs.count32⟩,
      ⟨hchunk, hcursor, hrem, ?_⟩, hb, hf, Or.inl ⟨?_, rfl⟩⟩
    · show _ ≤ c1.currentField.incr.toNat
      rw [hfield]
      exact (toNat_incr _).1
    · show c1.currentField.incr = _
      rw [hfield]
  · exact ⟨hs, ⟨hchunk, hcursor, hrem, by rw [hfield]⟩, hb, hf,
      Or.inr ⟨hfield, hpf, hrest h⟩⟩

/-- The copy branch of a handler of a byte-string field, written out. -/
theorem stringHandler_copy (ceiling : Nat)
    (out : Option (Nat → txContent_t → List Nat → txContent_t))
    (finish : Nat → txContent_t → txContent_t) (c c1 : txContext_t)
    (hl : c.currentFieldIsList = false) (hceil : c.currentFieldLength ≤ ceiling)
    (hpf : c.processingField = true) (hpos : c.currentFieldPos < c.currentFieldLength)
    (hc1 : c1 = { c with
      content := applyOut out c.currentFieldPos c.content
        (readBytes c.chunk c.workBuffer (copySize c)),
      workBuffer := c.workBuffer + copySize c,
      commandLength := c.commandLength - copySize c,
      currentFieldPos := u32 (c.currentFieldPos + copySize c) }) :
    stringHandler ceiling out finish c = .ok
      (if c1.currentFieldPos = c1.currentFieldLength then
        { c1 with content := finish c1.currentFieldLength c1.content,
                  currentField := c1.currentField.incr, processingField := false }
      else c1) := by
  subst hc1
  have h2 : ¬ c.commandLength < copySize c := by
    have := (copySize_le c).1
    omega
  obtain ⟨cf, cfl, cfp, cil, pf, fsb, dl, rb, rbp, ch, wb, cl, ct⟩ := c
  simp only at hl hceil hpf hpos h2
  subst hl hpf
  have h1 : ¬ cfl > ceiling := by omega
  cases out <;>
    (simp only [stringHandler, h1, hpos, copyTxData, h2, applyOut, Option.map, if_true,
      if_false, Bool.false_eq_true]
     split_ifs <;> rfl)

/-- A handler of a byte-string field on a sound context with the field in progress: a
THROW leaves the context as it is; otherwise the context it leaves is sound, with the
field completed or the chunk exhausted. -/
theorem stringHandler_handles (ceiling : Nat)
    (out : Option (Nat → txContent_t → List Nat → txContent_t))
    (finish : Nat → txContent_t → txContent_t)
    (hstore : ∀ pos ct d, SlotsSized ct → pos + d.length ≤ ceiling →
      SlotsSized (applyOut out pos ct d))
    (hfin : ∀ n ct, SlotsSized ct → SlotsSized (finish n ct))
    (c : txContext_t) (hs : Sound c) (hpf : c.processingField = true) :
    (∀ c', stringHandler ceiling out finish c = .throw c' → c' = c) ∧
    (∀ c', stringHandler ceiling out finish c = .ok c' → Handles c c') := by
  by_cases hl : c.currentFieldIsList = true
  · simp [stringHandler, hl]
  by_cases hc : c.currentFieldLength > ceiling
  · simp [stringHandler, hl, hc]
  simp only [Bool.not_eq_true] at hl
  by_cases hpos : c.currentFieldPos < c.currentFieldLength
  · obtain ⟨h1, h2⟩ := copySize_le c
    have hlen : (readBytes c.chunk c.workBuffer (copySize c)).length ≤ copySize c :=
      readBytes_length_le _ _ _
    have hsl : SlotsSized (applyOut out c.currentFieldPos c.content
        (readBytes c.chunk c.workBuffer (copySize c))) :=
      hstore _ _ _ hs.slots (by omega)
    obtain ⟨k1, k2⟩ := copied_sound c _ hs hpos hsl
    have hfh := finish_handles c _ (finish c.currentFieldLength
      (applyOut out c.currentFieldPos c.content
        (readBytes c.chunk c.workBuffer (copySize c)))) k1 (hfin _ _ hsl) rfl
      (by show c.workBuffer + copySize c + (c.commandLength - copySize c) = _; omega)
      (by show c.commandLength - copySize c ≤ _; omega) rfl rfl rfl hpf k2
    rw [stringHandler_copy ceiling out finish c _ hl (by omega) hpf hpos rfl]
    refine ⟨fun c' h => Handled.noConfusion h, fun c' h => ?_⟩
    cases h
    exact hfh
  · have hp : c.currentFieldPos = c.currentFieldLength := by
      have := hs.consumed
      omega
    rw [stringHandler_empty ceiling out finish c hl hp (by omega)]
    refine ⟨fun c' h => Handled.noConfusion h, fun c' h => ?_⟩
    cases h
    have hfh := finish_handles c c (finish c.currentFieldLength c.content) hs
      (hfin _ _ hs.slots) rfl rfl (le_refl _) rfl rfl rfl hpf (fun h => absurd hp h)
    rw [if_pos hp] at hfh
    exact hfh

/-- The copy branch of a shard handler, written out. -/
theorem shardHandler_copy (ceiling : Nat) (slot : txContent_t → Nat)
    (setSlot : Nat → txContent_t → txContent_t) (c c1 : txContext_t) (stored : txContent_t)
    (hl : c.currentFieldIsList = false) (hceil : c.currentFieldLength ≤ ceiling)
    (hpf : c.processingField = true) (hpos : c.currentFieldPos < c.currentFieldLength)
    (hst : stored = setSlot (bytesU32 (writeBytes (u32Bytes (slot c.content))
      c.currentFieldPos (readBytes c.chunk c.workBuffer (copySize c)))) c.content)
    (hc1 : c1 = { c with
      content := setSlot (shardLoop (u32Bytes (slot stored)) c.currentFieldLength) stored,
      workBuffer := c.workBuffer + copySize c,
      commandLength := c.commandLength - copySize c,
      currentFieldPos := u32 (c.currentFieldPos + copySize c) }) :
    shardHandler ceiling slot setSlot c = .ok
      (if c1.currentFieldPos = c1.currentFieldLength then
        { c1 with content := { c1.content with destinationLength := c1.currentFieldLength },
                  currentField := c1.currentField.incr, processingField := false }
      else c1) := by
  subst hc1 hst
  have h2 : ¬ c.commandLength < copySize c := by
    have := (copySize_le c).1
    omega
  obtain ⟨cf, cfl, cfp, cil, pf, fsb, dl, rb, rbp, ch, wb, cl, ct⟩ := c
  simp only at hl hceil hpf hpos h2
  subst hl hpf
  have h1 : ¬ cfl > ceiling := by omega
  simp only [shardHandler, h1, hpos, copyTxData, h2, if_true, if_false, Bool.false_eq_true]
  split_ifs <;> rfl

/-- A shard handler on a sound context with the field in progress: a THROW leaves the
context as it is; otherwise the context it leaves is sound, with the field completed or
the chunk exhausted. -/
theorem shardHandler_handles (ceiling : Nat) (slot : txContent_t → Nat)
    (setSlot : Nat → txContent_t → txContent_t)
    (hset : ∀ v ct, SlotsSized ct → SlotsSized (setSlot v ct))
    (c : txContext_t) (hs : Sound c) (hpf : c.processingField = true) :
    (∀ c', shardHandler ceiling slot setSlot c = .throw c' → c' = c) ∧
    (∀ c', shardHandler ceiling slot setSlot c = .ok c' → Handles c c') := by
  by_cases hl : c.currentFieldIsList = true
  · simp [shardHandler, hl]
  by_cases hc : c.currentFieldLength > ceiling
  · simp [shardHandler, hl, hc]
  simp only [Bool.not_eq_true] at hl
  by_cases hpos : c.currentFieldPos < c.currentFieldLength
  · obtain ⟨h1, h2⟩ := copySize_le c
    rw [shardHandler_copy ceiling slot setSlot c _ _ hl (by omega) hpf hpos rfl rfl]
    have hsl := hset (shardLoop (u32Bytes (slot (setSlot (bytesU32 (writeBytes
      (u32Bytes (slot c.content)) c.currentFieldPos
      (readBytes c.chunk c.workBuffer (copySize c)))) c.content))) c.currentFieldLength) _
      (hset (bytesU32 (writeBytes (u32Bytes (slot c.content)) c.currentFieldPos
        (readBytes c.chunk c.workBuffer (copySize c)))) _ hs.slots)
    obtain ⟨k1, k2⟩ := copied_sound c _ hs hpos hsl
    have hfh := finish_handles c _ _ k1 (hsl.length c.currentFieldLength) rfl
      (by show c.workBuffer + copySize c + (c.commandLength - copySize c) = _; omega)
      (by show c.commandLength - copySize c ≤ _; omega) rfl rfl rfl hpf k2
    refine ⟨fun c' h => Handled.noConfusion h, fun c' h => ?_⟩
    cases h
    exact hfh
  · have hp : c.currentFieldPos = c.currentFieldLength := by
      have := hs.consumed
      omega
    rw [shardHandler_empty ceiling slot setSlot c hl hp (by omega)]
    refine ⟨fun c' h => Handled.noConfusion h, fun c' h => ?_⟩
    cases h
    have hfh := finish_handles c c _ hs (hs.slots.length c.currentFieldLength)
      rfl rfl (le_refl _) rfl rfl rfl hpf (fun h => absurd hp h)
    rw [if_pos hp] at hfh
    exact hfh

/-- The handler of the envelope on a sound context: it throws and leaves the context as
it is, or it completes the field. -/
theorem processContent_handles (c : txContext_t) (hs : Sound c) :
    (∀ c', processContent c = .throw c' → c' = c) ∧
    (∀ c', processContent c = .ok c' → Handles c c') := by
  by_cases hl : c.currentFieldIsList = true
  · simp only [processContent, hl, Bool.not_true, Bool.false_eq_true, if_false]
    refine ⟨fun c' h => Handled.noConfusion h, fun c' h => ?_⟩
    cases h
    exact ⟨⟨hs.staging, hs.consumed, hs.length32, hs.slots, hs.inside, hs.count32⟩,
      ⟨rfl, rfl, le_refl _, (toNat_incr _).1⟩, rfl, rfl, Or.inl ⟨rfl, rfl⟩⟩
  · simp only [Bool.not_eq_true] at hl
    simp only [processContent, hl, Bool.not_false, if_true]
    refine ⟨fun c' h => ?_, fun c' h => Handled.noConfusion h⟩
    cases h
    rfl

theorem storeGasprice_sized (pos : Nat) (ct : txContent_t) (d : List Nat)
    (h : SlotsSized ct) (hp : pos + d.length ≤ 32) : SlotsSized (storeGasprice pos ct d) :=
  ⟨(writeBytes_length _ _ _ (by rw [h.gasprice]; exact hp)).trans h.gasprice,
    h.startgas, h.value, h.destination⟩

theorem storeStartgas_sized (pos : Nat) (ct : txContent_t) (d : List Nat)
    (h : SlotsSized ct) (hp : pos + d.length ≤ 32) : SlotsSized (storeStartgas pos ct d) :=
  ⟨h.gasprice, (writeBytes_length _ _ _ (by rw [h.startgas]; exact hp)).trans h.startgas,
    h.value, h.destination⟩

theorem storeValue_sized (pos : Nat) (ct : txContent_t) (d : List Nat)
    (h : SlotsSized ct) (hp : pos + d.length ≤ 32) : SlotsSized (storeValue pos ct d) :=
  ⟨h.gasprice, h.startgas,
    (writeBytes_length _ _ _ (by rw [h.value]; exact hp)).trans h.value, h.destination⟩

theorem storeDestination_sized (pos : Nat) (ct : txContent_t) (d : List Nat)
    (h : SlotsSized ct) (hp : pos + d.length ≤ 20) : SlotsSized (storeDestination pos ct d) :=
  ⟨h.gasprice, h.startgas, h.value,
    (writeBytes_length _ _ _ (by rw [h.destination]; exact hp)).trans h.destination⟩

/-- Every handler of the switch, on a sound context with the field in progress: a THROW
leaves the context as it is, and a handler that finishes leaves a sound context with
the field completed or the chunk exhausted. -/
theorem handler_handles (c : txContext_t) (hs : Sound c) (hpf : c.processingField = true) :
    ∀ H ∈ [processContent, processNonce, processGasprice, processStartGas, processFromShard,
        processToShard, processTo, processValue],
      (∀ c', H c = .throw c' → c' = c) ∧ (∀ c', H c = .ok c' → Handles c c') := by
  intro H hH
  simp only [List.mem_cons, List.mem_singleton, List.not_mem_nil, or_false] at hH
  rcases hH with h | h | h | h | h | h | h | h <;> subst h
  · exact processContent_handles c hs
  · exact stringHandler_handles MAX_INT256 none (fun _ x => x) (fun _ _ _ h _ => h)
      (fun _ _ h => h) c hs hpf
  · exact stringHandler_handles MAX_INT256 (some storeGasprice) finishGasprice
      (fun pos ct d h hp => storeGasprice_sized pos ct d h hp)
      (fun _ _ h => ⟨h.gasprice, h.startgas, h.value, h.destination⟩) c hs hpf
  · exact stringHandler_handles MAX_INT256 (some storeStartgas) finishStartgas
      (fun pos ct d h hp => storeStartgas_sized pos ct d h hp)
      (fun _ _ h => ⟨h.gasprice, h.startgas, h.value, h.destination⟩) c hs hpf
  · exact shardHandler_handles 4 (fun x => x.fromShard) (fun v x => { x with fromShard := v })
      (fun _ _ h => ⟨h.gasprice, h.startgas, h.value, h.destination⟩) c hs hpf
  · exact shardHandler_handles MAX_INT32 (fun x => x.toShard)
      (fun v x => { x with toShard := v })
      (fun _ _ h => ⟨h.gasprice, h.startgas, h.value, h.destination⟩) c hs hpf
  · exact stringHandler_handles MAX_ADDRESS (some storeDestination) finishDestination
      (fun pos ct d h hp => storeDestination_sized pos ct d h hp)
      (fun _ _ h => ⟨h.gasprice, h.startgas, h.value, h.destination⟩) c hs hpf
  · exact stringHandler_handles MAX_INT256 (some storeValue) finishValue
      (fun pos ct d h hp => storeValue_sized pos ct d h hp)
      (fun _ _ h => ⟨h.gasprice, h.startgas, h.value, h.destination⟩) c hs hpf

theorem startField_resolve (c : txContext_t)
    (h : (rlpDecodeLength c.rlpBuffer c.rlpBufferPos c.currentFieldLength).ok = true) :
    startField c
      = dispatch (resolve c (rlpDecodeLength c.rlpBuffer c.rlpBufferPos c.currentFieldLength)) := by
  simp only [startField, h, Bool.not_true, Bool.false_eq_true, if_false]
  rfl

theorem progress_refl (c : txContext_t) : Progress c c :=
  ⟨rfl, rfl, le_refl _, le_refl _⟩

theorem progress_trans {a b c : txContext_t} (h1 : Progress a b) (h2 : Progress b c) :
    Progress a c :=
  ⟨h2.chunk.trans h1.chunk, h2.cursor.trans h1.cursor, le_trans h2.remaining h1.remaining,
    le_trans h1.forward h2.forward⟩

/-- The context on which the switch runs after a header was staged and decoded is
sound, and it is later in the same chunk than the context the call was entered on. -/
theorem resolve_sound (c0 cS : txContext_t) (d : DecodedLength) (hs : Sound c0)
    (hst : Staging c0 cS) (hlt : cS.commandLength < c0.commandLength)
    (hd : d.fieldLength < 4294967296) :
    Sound (resolve cS d) ∧ Progress c0 (resolve cS d) ∧
    (resolve cS d).currentField = c0.currentField ∧
    (resolve cS d).processingField = true ∧ (resolve cS d).rlpBufferPos = 0 ∧
    (resolve cS d).currentFieldLength = d.fieldLength ∧
    (resolve cS d).currentFieldPos = 0 := by
  have h1 := hst.cursor
  have h2 := hs.inside
  have h3 := hs.count32
  have h4 := hst.chunk
  have h5 := hst.buffer
  have h6 := hs.staging
  have h7 := hst.content
  have h8 := hs.slots
  have h9 := hst.field
  obtain ⟨cf, cfl, cfp, cil, pf, fsb, dl, rb, rbp, ch, wb, cl, ct⟩ := cS
  obtain ⟨cf0, cfl0, cfp0, cil0, pf0, fsb0, dl0, rb0, rbp0, ch0, wb0, cl0, ct0⟩ := c0
  simp only at h1 h2 h3 h4 h5 h6 h7 h8 h9 hlt
  subst h4 h7 h9
  have hu : u32 (cl + 1) = cl + 1 := u32_of_lt (by omega)
  by_cases ho : d.offset = 0
  · simp only [resolve, ho, if_true, hu]
    refine ⟨⟨?_, ?_, ?_, ?_, ?_, ?_⟩, ⟨?_, ?_, ?_, ?_⟩, ?_, ?_, ?_, ?_, ?_⟩ <;>
      first
      | trivial
      | rfl
      | exact h8
      | exact hd
      | (dsimp only; omega)
  · simp only [resolve, ho, if_false]
    refine ⟨⟨?_, ?_, ?_, ?_, ?_, ?_⟩, ⟨?_, ?_, ?_, ?_⟩, ?_, ?_, ?_, ?_, ?_⟩ <;>
      first
      | trivial
      | rfl
      | exact h8
      | exact hd
      | (dsimp only; omega)

theorem afterHandler_sound (c : txContext_t) (r : Handled)
    (h : (∀ c', r = .throw c' → c' = c) ∧ (∀ c', r = .ok c' → Handles c c')) :
    (∀ o, afterHandler r = .done o → o.context = c ∨ Handles c o.context) ∧
    (∀ c', afterHandler r = .again c' → Handles c c') := by
  cases r with
  | ok c1 =>
    refine ⟨fun o ho => Step.noConfusion ho, fun c' hc => ?_⟩
    simp only [afterHandler, Step.again.injEq] at hc
    subst hc
    exact h.2 _ rfl
  | throw c1 =>
    refine ⟨fun o ho => ?_, fun c' hc => Step.noConfusion hc⟩
    simp only [afterHandler, Step.done.injEq] at ho
    subst ho
    exact Or.inl (h.1 _ rfl)

theorem afterValue_sound (c : txContext_t) (r : Handled)
    (h : (∀ c', r = .throw c' → c' = c) ∧ (∀ c', r = .ok c' → Handles c c')) :
    (∀ o, afterValue r = .done o → o.context = c ∨ Handles c o.context) ∧
    (∀ c', afterValue r = .again c' → Handles c c') := by
  cases r with
  | ok c1 =>
    refine ⟨fun o ho => ?_, fun c' hc => Step.noConfusion hc⟩
    simp only [afterValue, Step.done.injEq] at ho
    subst ho
    exact Or.inr (h.2 _ rfl)
  | throw c1 =>
    refine ⟨fun o ho => ?_, fun c' hc => Step.noConfusion hc⟩
    simp only [afterValue, Step.done.injEq] at ho
    subst ho
    exact Or.inl (h.1 _ rfl)

/-- The switch on a sound context with a field in progress: when the call ends there,
the context is as it was or as a handler left it; when the loop goes round, the context
is as a handler left it. -/
theorem dispatch_sound (c : txContext_t) (hs : Sound c) (hpf : c.processingField = true) :
    (∀ o, dispatch c = .done o → o.context = c ∨ Handles c o.context) ∧
    (∀ c', dispatch c = .again c' → Handles c c') := by
  have H := handler_handles c hs hpf
  cases hf : c.currentField <;> simp only [dispatch, hf]
  · exact afterHandler_sound c _ (H _ (by simp))
  · exact afterHandler_sound c _ (H _ (by simp))
  · exact afterHandler_sound c _ (H _ (by simp))
  · exact afterHandler_sound c _ (H _ (by simp))
  · exact afterHandler_sound c _ (H _ (by simp))
  · exact afterHandler_sound c _ (H _ (by simp))
  · exact afterHandler_sound c _ (H _ (by simp))
  · exact afterValue_sound c _ (H _ (by simp))
  · refine ⟨fun o ho => ?_, fun c' hc => Step.noConfusion hc⟩
    simp only [Step.done.injEq] at ho
    subst ho
    exact Or.inl rfl

theorem Tidy.of_zero {c : txContext_t} (h : c.rlpBufferPos = 0) : Tidy c :=
  ⟨by omega, fun _ => h⟩

theorem passesLeft_handles {c0 c3 c' : txContext_t} (hf : c0.currentField ≠ TX_RLP_DONE)
    (h0 : c0.commandLength ≠ 0) (h3 : c3.currentField = c0.currentField)
    (h : Handles c3 c') : passesLeft c' < passesLeft c0 := by
  have e1 := toNat_incr_of_ne _ hf
  have e2 := toNat_le_eight c0.currentField.incr
  unfold passesLeft
  rcases h.moved with ⟨m1, _⟩ | ⟨m1, _, m3⟩
  · rw [m1, h3, e1, if_neg h0]
    split_ifs <;> omega
  · rw [m1, h3, if_neg h0, if_pos m3]
    omega

/-- The switch entered from a sound context of the same call, with the field in
progress: what holds of the context when the call ends there or the loop goes round. -/
theorem dispatch_step (c0 c3 : txContext_t) (hf : c0.currentField ≠ TX_RLP_DONE)
    (h0 : c0.commandLength ≠ 0) (hs : Sound c3) (hp : Progress c0 c3)
    (h3 : c3.currentField = c0.currentField) (hpf : c3.processingField = true)
    (ht : Tidy c0 → c3.rlpBufferPos = 0) :
    (∀ o, dispatch c3 = .done o →
      Sound o.context ∧ Progress c0 o.context ∧ (Tidy c0 → Tidy o.context)) ∧
    (∀ c', dispatch c3 = .again c' →
      Sound c' ∧ Progress c0 c' ∧ (Tidy c0 → Tidy c') ∧ passesLeft c' < passesLeft c0) := by
  obtain ⟨d1, d2⟩ := dispatch_sound c3 hs hpf
  refine ⟨fun o ho => ?_, fun c' hc => ?_⟩
  · rcases d1 o ho with h | h
    · rw [h]
      exact ⟨hs, hp, fun t => Tidy.of_zero (ht t)⟩
    · exact ⟨h.sound, progress_trans hp h.progress,
        fun t => Tidy.of_zero (h.fill.trans (ht t))⟩
  · have h := d2 c' hc
    exact ⟨h.sound, progress_trans hp h.progress, fun t => Tidy.of_zero (h.fill.trans (ht t)),
      passesLeft_handles hf h0 h3 h⟩

theorem Staging.progress {c c' : txContext_t} (h : Staging c c') : Progress c c' :=
  ⟨h.chunk, h.cursor, h.remaining, by rw [h.field]⟩

theorem staging_sound {c c' : txContext_t} (h : Staging c c') (hs : Sound c) : Sound c' :=
  ⟨h.buffer.trans hs.staging, by rw [h.pos, h.length]; exact hs.consumed,
    by rw [h.length]; exact hs.length32, by rw [h.content]; exact hs.slots,
    by rw [h.cursor, h.chunk]; exact hs.inside, lt_of_le_of_lt h.remaining hs.count32⟩

/-- One pass of the driver loop on a sound context: the context it leaves is sound and
later in the same chunk; the staging buffer stays tidy unless the call fails; and when
the loop goes round, the bound on the passes to come has dropped. -/
theorem body_sound (c : txContext_t) (hs : Sound c) :
    (∀ o, processTxBody c = .done o →
      Sound o.context ∧ Progress c o.context ∧
      (Tidy c → o.fatal = false → Tidy o.context)) ∧
    (∀ c', processTxBody c = .again c' →
      Sound c' ∧ Progress c c' ∧ (Tidy c → Tidy c') ∧ passesLeft c' < passesLeft c) := by
  by_cases hd : c.currentField = TX_RLP_DONE
  · simp only [processTxBody, hd, if_true]
    refine ⟨fun o ho => ?_, fun c' hc => Step.noConfusion hc⟩
    simp only [Step.done.injEq] at ho
    subst ho
    exact ⟨hs, progress_refl c, fun t _ => t⟩
  by_cases h0 : c.commandLength = 0
  · simp only [processTxBody, hd, h0, if_true, if_false]
    refine ⟨fun o ho => ?_, fun c' hc => Step.noConfusion hc⟩
    simp only [Step.done.injEq] at ho
    subst ho
    exact ⟨hs, progress_refl c, fun t _ => t⟩
  by_cases hpf : c.processingField = true
  · have hb : processTxBody c = dispatch c := by
      simp [processTxBody, hd, h0, hpf]
    rw [hb]
    obtain ⟨d1, d2⟩ := dispatch_step c c hd h0 hs (progress_refl c) rfl hpf
      (fun t => t.resolved hpf)
    exact ⟨fun o ho => ⟨(d1 o ho).1, (d1 o ho).2.1, fun t _ => (d1 o ho).2.2 t⟩, d2⟩
  · simp only [Bool.not_eq_true] at hpf
    obtain ⟨s1, s2, s3, s4⟩ := stageHeader_sound c.commandLength c hpf hs.count32
    simp only [processTxBody, hd, h0, hpf, if_false, Bool.not_false, if_true]
    generalize hst : stageHeader c.commandLength c = st at s1 s2 s3 s4
    cases st with
    | ret status cS =>
      have t1 : Staging c cS := s1
      have hm := s4 status cS rfl
      subst hm
      refine ⟨fun o ho => ?_, fun c' hc => Step.noConfusion hc⟩
      simp only [Step.done.injEq] at ho
      subst ho
      exact ⟨staging_sound t1 hs, t1.progress, fun _ hfat => by simp [Outcome.fatal] at hfat⟩
    | left b cS =>
      have t1 : Staging c cS := s1
      cases b with
      | false =>
        obtain ⟨_, j2⟩ := s3 cS rfl
        refine ⟨fun o ho => ?_, fun c' hc => Step.noConfusion hc⟩
        simp only [Step.done.injEq] at ho
        subst ho
        refine ⟨staging_sound t1 hs, t1.progress, fun t _ => ⟨j2 t.fill, fun hp => ?_⟩⟩
        have : cS.processingField = false := t1.idle.trans hpf
        exact absurd hp (by simp [Outcome.context, this])
      | true =>
        obtain ⟨j1, j2⟩ := s2 cS rfl
        have hdec := decode_ok_of_canDecode cS.rlpBuffer cS.rlpBufferPos cS.currentFieldLength
          false j2
        have hlen := decode_length_lt cS.rlpBuffer cS.rlpBufferPos cS.currentFieldLength
          (by rw [t1.length]; exact hs.length32)
        show (∀ o, startField cS = .done o → _) ∧ (∀ c', startField cS = .again c' → _)
        rw [startField_resolve cS hdec]
        obtain ⟨r1, r2, r3, r4, r5, _, _⟩ := resolve_sound c cS _ hs t1 j1 hlen
        obtain ⟨d1, d2⟩ := dispatch_step c _ hd h0 r1 r2 r3 r4 (fun _ => r5)
        exact ⟨fun o ho => ⟨(d1 o ho).1, (d1 o ho).2.1, fun t _ => (d1 o ho).2.2 t⟩, d2⟩

theorem passesLeft_le (c : txContext_t) : passesLeft c ≤ 17 := by
  unfold passesLeft
  split_ifs <;> omega

/-- A call on a sound context returns once the bound on the passes of the loop exceeds
passesLeft, and the context it leaves is sound and later in the same chunk. -/
theorem processTx_sound : ∀ (n : Nat) (c : txContext_t), Sound c → passesLeft c < n →
    ∃ o, processTx n c = some o ∧ Sound o.context ∧ Progress c o.context ∧
      (Tidy c → o.fatal = false → Tidy o.context) := by
  intro n
  induction n with
  | zero => intro c _ h; omega
  | succ n ih =>
    intro c hs hn
    cases hb : processTxBody c with
    | done o => exact ⟨o, processTx_done n hb, (body_sound c hs).1 o hb⟩
    | again c' =>
      obtain ⟨s', p', t', m'⟩ := (body_sound c hs).2 c' hb
      obtain ⟨o, e, so, po, tu⟩ := ih c' s' (by omega)
      exact ⟨o, (processTx_again n hb).trans e, so, progress_trans p' po,
        fun t f => tu (t' t) f⟩

theorem processTx_fuel : ∀ (n : Nat) (c : txContext_t) (o : Outcome),
    processTx n c = some o → ∀ k, processTx (n + k) c = some o := by
  intro n
  induction n with
  | zero => intro c o h; simp [processTx] at h
  | succ n ih =>
    intro c o h k
    rw [Nat.add_right_comm]
    cases hb : processTxBody c with
    | done o1 =>
      rw [processTx_done n hb] at h
      rw [processTx_done (n + k) hb]
      exact h
    | again c' =>
      rw [processTx_again n hb] at h
      rw [processTx_again (n + k) hb]
      exact ih c' o h k

/-- A call on a sound context returns, with one outcome whatever the bound on the
passes of the loop, from 18 on. -/
theorem processTx_returns (c : txContext_t) (hs : Sound c) :
    ∃ o, (∀ k, processTx (k + 18) c = some o) ∧
      (∀ fuel o1, processTx fuel c = some o1 → o1 = o) ∧
      Sound o.context ∧ Progress c o.context ∧
      (Tidy c → o.fatal = false → Tidy o.context) := by
  have h17 := passesLeft_le c
  obtain ⟨o, e, so, po, tu⟩ := processTx_sound 18 c hs (by omega)
  refine ⟨o, fun k => ?_, fun fuel o1 h1 => ?_, so, po, tu⟩
  · rw [Nat.add_comm]
    exact processTx_fuel 18 c o e k
  · have a := processTx_fuel fuel c o1 h1 18
    have b := processTx_fuel 18 c o e fuel
    rw [Nat.add_comm] at b
    rw [a] at b
    exact Option.some.inj b

theorem deliver_sound (c : txContext_t) (data : List Nat) (hs : Sound c)
    (hd : data.length < 4294967296) : Sound (deliver c data) :=
  ⟨hs.staging, hs.consumed, hs.length32, hs.slots, by simp [deliver], hd⟩

theorem deliver_tidy (c : txContext_t) (data : List Nat) (ht : Tidy c) :
    Tidy (deliver c data) :=
  ⟨ht.fill, ht.resolved⟩

theorem freshContext_sound : Sound freshContext :=
  ⟨by simp [freshContext], le_refl _, by simp [freshContext],
    ⟨by simp [freshContext], by simp [freshContext], by simp [freshContext],
      by simp [freshContext]⟩, by simp [freshContext], by simp [freshContext]⟩

theorem freshContext_tidy : Tidy freshContext :=
  Tidy.of_zero rfl

theorem reachedSafely_sound {c : txContext_t} (h : ReachedSafely c) : Sound c := by
  induction h with
  | fresh => exact freshContext_sound
  | call c data fuel o _ hd hcall _ ih =>
    obtain ⟨o1, _, huniq, so, _, _⟩ := processTx_returns _ (deliver_sound c data ih hd)
    rw [huniq fuel o hcall]
    exact so

theorem ReachedSafely.tidy {c : txContext_t} (h : ReachedSafely c) : Tidy c := by
  induction h with
  | fresh => exact freshContext_tidy
  | call c data fuel o hr hd hcall hfat ih =>
    obtain ⟨o1, _, huniq, _, _, tu⟩ :=
      processTx_returns _ (deliver_sound c data (reachedSafely_sound hr) hd)
    have e := huniq fuel o hcall
    subst e
    exact tu (deliver_tidy c data ih) hfat

theorem afterCopy_frame (c : txContext_t) (content : txContent_t) :
    (afterCopy c content).currentField = c.currentField ∧
    (afterCopy c content).processingField = c.processingField ∧
    (afterCopy c content).currentFieldLength = c.currentFieldLength := by
  unfold afterCopy
  split_ifs <;> exact ⟨rfl, rfl, rfl⟩

theorem completion_moves (c1 : txContext_t) (fin : txContent_t) :
    ((completion c1 fin).currentFieldPos = (completion c1 fin).currentFieldLength →
      (completion c1 fin).currentField = c1.currentField.incr ∧
      (completion c1 fin).processingField = false) ∧
    ((completion c1 fin).currentFieldPos ≠ (completion c1 fin).currentFieldLength →
      (completion c1 fin).currentField = c1.currentField ∧
      (completion c1 fin).processingField = c1.processingField) := by
  unfold completion
  split_ifs with h
  · exact ⟨fun _ => ⟨rfl, rfl⟩, fun hne => absurd h hne⟩
  · exact ⟨fun he => absurd he h, fun _ => ⟨rfl, rfl⟩⟩

/-- A handler of a byte-string field past its two checks, written out. -/
theorem stringHandler_unfold (ceiling : Nat)
    (out : Option (Nat → txContent_t → List Nat → txContent_t))
    (finish : Nat → txContent_t → txContent_t) (c c1 : txContext_t)
    (hl : c.currentFieldIsList = false) (hceil : c.currentFieldLength ≤ ceiling)
    (hc1 : c1 = afterCopy c (applyOut out c.currentFieldPos c.content
      (readBytes c.chunk c.workBuffer (copySize c)))) :
    stringHandler ceiling out finish c
      = .ok (completion c1 (finish c1.currentFieldLength c1.content)) := by
  subst hc1
  have h2 : ¬ c.commandLength < copySize c := by
    have := (copySize_le c).1
    omega
  obtain ⟨cf, cfl, cfp, cil, pf, fsb, dl, rb, rbp, ch, wb, cl, ct⟩ := c
  simp only at hl hceil h2
  subst hl
  have h1 : ¬ cfl > ceiling := by omega
  by_cases hpos : cfp < cfl
  · cases pf <;> cases out <;>
      (simp only [stringHandler, h1, hpos, copyTxData, h2, applyOut, Option.map, if_true,
        if_false, Bool.false_eq_true, afterCopy, completion]
       split_ifs <;> rfl)
  · simp only [stringHandler, h1, hpos, if_false, Bool.false_eq_true, afterCopy, completion]
    split_ifs <;> rfl

/-- A shard handler past its two checks, written out. -/
theorem shardHandler_unfold (ceiling : Nat) (slot : txContent_t → Nat)
    (setSlot : Nat → txContent_t → txContent_t) (c c1 : txContext_t) (stored : txContent_t)
    (hl : c.currentFieldIsList = false) (hceil : c.currentFieldLength ≤ ceiling)
    (hst : stored = setSlot (bytesU32 (writeBytes (u32Bytes (slot c.content))
      c.currentFieldPos (readBytes c.chunk c.workBuffer (copySize c)))) c.content)
    (hc1 : c1 = afterCopy c
      (setSlot (shardLoop (u32Bytes (slot stored)) c.currentFieldLength) stored)) :
    shardHandler ceiling slot setSlot c
      = .ok (completion c1 { c1.content with destinationLength := c1.currentFieldLength }) := by
  subst hc1 hst
  have h2 : ¬ c.commandLength < copySize c := by
    have := (copySize_le c).1
    omega
  obtain ⟨cf, cfl, cfp, cil, pf, fsb, dl, rb, rbp, ch, wb, cl, ct⟩ := c
  simp only at hl hceil h2
  subst hl
  have h1 : ¬ cfl > ceiling := by omega
  by_cases hpos : cfp < cfl
  · cases pf <;>
      (simp only [shardHandler, h1, hpos, copyTxData, h2, if_true,
        if_false, Bool.false_eq_true, afterCopy, completion]
       split_ifs <;> rfl)
  · simp only [shardHandler, h1, hpos, if_false, Bool.false_eq_true, afterCopy, completion]
    split_ifs <;> rfl

theorem completion_afterCopy_moves (c : txContext_t) (content fin : txContent_t) :
    Moves c (completion (afterCopy c content) fin) := by
  obtain ⟨f1, f2, _⟩ := afterCopy_frame c content
  obtain ⟨m1, m2⟩ := completion_moves (afterCopy c content) fin
  rw [f1] at m1 m2
  rw [f2] at m2
  exact ⟨m1, m2⟩

/-- How a handler of a byte-string field ends on any context: a THROW is the type check
or the size check and leaves the context as it is; otherwise the field is completed
exactly when the consumed count equals the declared length. -/
theorem stringHandler_ends (ceiling : Nat)
    (out : Option (Nat → txContent_t → List Nat → txContent_t))
    (finish : Nat → txContent_t → txContent_t) (c : txContext_t) :
    (∀ c', stringHandler ceiling out finish c = .throw c' →
      c' = c ∧ (c.currentFieldIsList = true ∨ ceiling < c.currentFieldLength)) ∧
    (∀ c', stringHandler ceiling out finish c = .ok c' → Moves c c') := by
  by_cases hl : c.currentFieldIsList = true
  · simp [stringHandler, hl]
  by_cases hc : c.currentFieldLength > ceiling
  · simp only [stringHandler, hl, hc, if_true, if_false]
    refine ⟨fun c' h => ?_, fun c' h => Handled.noConfusion h⟩
    cases h
    exact ⟨rfl, Or.inr trivial⟩
  simp only [Bool.not_eq_true] at hl
  rw [stringHandler_unfold ceiling out finish c _ hl (by omega) rfl]
  refine ⟨fun c' h => Handled.noConfusion h, fun c' h => ?_⟩
  cases h
  exact completion_afterCopy_moves c _ _

/-- How a shard handler ends on any context: a THROW is the type check or the size
check and leaves the context as it is; otherwise the field is completed exactly when
the consumed count equals the declared length. -/
theorem shardHandler_ends (ceiling : Nat) (slot : txContent_t → Nat)
    (setSlot : Nat → txContent_t → txContent_t) (c : txContext_t) :
    (∀ c', shardHandler ceiling slot setSlot c = .throw c' →
      c' = c ∧ (c.currentFieldIsList = true ∨ ceiling < c.currentFieldLength)) ∧
    (∀ c', shardHandler ceiling slot setSlot c = .ok c' → Moves c c') := by
  by_cases hl : c.currentFieldIsList = true
  · simp [shardHandler, hl]
  by_cases hc : c.currentFieldLength > ceiling
  · simp only [shardHandler, hl, hc, if_true, if_false]
    refine ⟨fun c' h => ?_, fun c' h => Handled.noConfusion h⟩
    cases h
    exact ⟨rfl, Or.inr trivial⟩
  simp only [Bool.not_eq_true] at hl
  rw [shardHandler_unfold ceiling slot setSlot c _ _ hl (by omega) rfl rfl]
  refine ⟨fun c' h => Handled.noConfusion h, fun c' h => ?_⟩
  cases h
  exact completion_afterCopy_moves c _ _

/-- The handlers of the seven byte-string fields with their size ceilings: how each
ends on any context. -/
theorem handler_ends (c : txContext_t) :
    ∀ p ∈ [(processNonce, MAX_INT256), (processGasprice, MAX_INT256),
        (processStartGas, MAX_INT256), (processFromShard, 4), (processToShard, MAX_INT32),
        (processTo, MAX_ADDRESS), (processValue, MAX_INT256)],
      (∀ c', p.1 c = .throw c' →
        c' = c ∧ (c.currentFieldIsList = true ∨ p.2 < c.currentFieldLength)) ∧
      (∀ c', p.1 c = .ok c' → Moves c c') := by
  intro p hp
  simp only [List.mem_cons, List.mem_singleton, List.not_mem_nil, or_false] at hp
  rcases hp with h | h | h | h | h | h | h <;> subst h
  · exact stringHandler_ends MAX_INT256 none (fun _ x => x) c
  · exact stringHandler_ends MAX_INT256 (some storeGasprice) finishGasprice c
  · exact stringHandler_ends MAX_INT256 (some storeStartgas) finishStartgas c
  · exact shardHandler_ends 4 (fun x => x.fromShard) (fun v x => { x with fromShard := v }) c
  · exact shardHandler_ends MAX_INT32 (fun x => x.toShard)
      (fun v x => { x with toShard := v }) c
  · exact stringHandler_ends MAX_ADDRESS (some storeDestination) finishDestination c
  · exact stringHandler_ends MAX_INT256 (some storeValue) finishValue c

theorem moves_field {c c' : txContext_t} (h : Moves c c') :
    c'.currentField = c.currentField ∨ c'.currentField = c.currentField.incr := by
  by_cases he : c'.currentFieldPos = c'.currentFieldLength
  · exact Or.inr (h.1 he).1
  · exact Or.inl (h.2 he).1

/-- Every handler of the switch, on any context, leaves the field where it was or one
position later. -/
theorem handler_field (c : txContext_t) :
    ∀ H ∈ [processContent, processNonce, processGasprice, processStartGas, processFromShard,
        processToShard, processTo, processValue],
      (H c).context.currentField = c.currentField ∨
      (H c).context.currentField = c.currentField.incr := by
  have key : ∀ (r : Handled), (∀ c', r = .throw c' → c' = c) →
      (∀ c', r = .ok c' → Moves c c') →
      r.context.currentField = c.currentField ∨
      r.context.currentField = c.currentField.incr := by
    intro r h1 h2
    cases r with
    | ok c1 => exact moves_field (h2 c1 rfl)
    | throw c1 =>
      have := h1 c1 rfl
      subst this
      exact Or.inl rfl
  have E := handler_ends c
  intro H hH
  simp only [List.mem_cons, List.mem_singleton, List.not_mem_nil, or_false] at hH
  rcases hH with h | h | h | h | h | h | h | h <;> subst h
  · unfold processContent
    split_ifs
    · exact Or.inl rfl
    · exact Or.inr rfl
  · exact key _ (fun c' h => ((E (processNonce, MAX_INT256) (by simp)).1 c' h).1)
      (E (processNonce, MAX_INT256) (by simp)).2
  · exact key _ (fun c' h => ((E (processGasprice, MAX_INT256) (by simp)).1 c' h).1)
      (E (processGasprice, MAX_INT256) (by simp)).2
  · exact key _ (fun c' h => ((E (processStartGas, MAX_INT256) (by simp)).1 c' h).1)
      (E (processStartGas, MAX_INT256) (by simp)).2
  · exact key _ (fun c' h => ((E (processFromShard, 4) (by simp)).1 c' h).1)
      (E (processFromShard, 4) (by simp)).2
  · exact key _ (fun c' h => ((E (processToShard, MAX_INT32) (by simp)).1 c' h).1)
      (E (processToShard, MAX_INT32) (by simp)).2
  · exact key _ (fun c' h => ((E (processTo, MAX_ADDRESS) (by simp)).1 c' h).1)
      (E (processTo, MAX_ADDRESS) (by simp)).2
  · exact key _ (fun c' h => ((E (processValue, MAX_INT256) (by simp)).1 c' h).1)
      (E (processValue, MAX_INT256) (by simp)).2

theorem readTxByte_field (c : txContext_t) :
    (readTxByte c).2.currentField = c.currentField := by
  unfold readTxByte
  dsimp only
  split_ifs <;> rfl

theorem stageHeader_field : ∀ (n : Nat) (c : txContext_t),
    (stageHeader n c).context.currentField = c.currentField := by
  intro n
  induction n with
  | zero => intro c; rfl
  | succ n ih =>
    intro c
    have hr := readTxByte_field c
    rw [stageHeader]
    generalize readTxByte c = r at hr
    obtain ⟨data, c1⟩ := r
    dsimp only at hr ⊢
    split_ifs <;> first | rfl | exact hr | (rw [ih]; exact hr)

theorem resolve_field (c : txContext_t) (d : DecodedLength) :
    (resolve c d).currentField = c.currentField := by
  unfold resolve
  dsimp only
  split_ifs <;> rfl

theorem dispatch_field (c : txContext_t) :
    (dispatch c).context.currentField = c.currentField ∨
    (dispatch c).context.currentField = c.currentField.incr := by
  have H := handler_field c
  have k1 : ∀ r : Handled, (afterHandler r).context = r.context := by
    intro r; cases r <;> rfl
  have k2 : ∀ r : Handled, (afterValue r).context = r.context := by
    intro r; cases r <;> rfl
  cases hf : c.currentField <;> simp only [dispatch, hf, k1, k2]
  · rw [← hf]; exact H _ (by simp)
  · rw [← hf]; exact H _ (by simp)
  · rw [← hf]; exact H _ (by simp)
  · rw [← hf]; exact H _ (by simp)
  · rw [← hf]; exact H _ (by simp)
  · rw [← hf]; exact H _ (by simp)
  · rw [← hf]; exact H _ (by simp)
  · rw [← hf]; exact H _ (by simp)
  · exact Or.inl hf

theorem startField_field (c : txContext_t) :
    (startField c).context.currentField = c.currentField ∨
    (startField c).context.currentField = c.currentField.incr := by
  by_cases h : (rlpDecodeLength c.rlpBuffer c.rlpBufferPos c.currentFieldLength).ok = true
  · rw [startField_resolve c h]
    have := dispatch_field (resolve c (rlpDecodeLength c.rlpBuffer c.rlpBufferPos
      c.currentFieldLength))
    rw [resolve_field] at this
    exact this
  · simp only [Bool.not_eq_true] at h
    simp only [startField, h, Bool.not_false, if_true]
    exact Or.inl rfl

/-- One pass of the driver loop, on any context, leaves the field where it was or one
position later. -/
theorem body_field (c : txContext_t) :
    (processTxBody c).context.currentField = c.currentField ∨
    (processTxBody c).context.currentField = c.currentField.incr := by
  unfold processTxBody
  split_ifs
  · exact Or.inl rfl
  · exact Or.inl rfl
  · have hs := stageHeader_field c.commandLength c
    generalize stageHeader c.commandLength c = st at hs
    cases st with
    | ret s cS => exact Or.inl hs
    | left b cS =>
      cases b with
      | false => exact Or.inl hs
      | true =>
        have hs : cS.currentField = c.currentField := hs
        have := startField_field cS
        rw [hs] at this
        exact this
  · exact dispatch_field c

/-- A call of processTx on any context, whatever it returns, leaves the field where it
was or later. -/
theorem processTx_field : ∀ (fuel : Nat) (c : txContext_t) (o : Outcome),
    processTx fuel c = some o → c.currentField.toNat ≤ o.context.currentField.toNat := by
  intro fuel
  induction fuel with
  | zero => intro c o h; simp [processTx] at h
  | succ n ih =>
    intro c o h
    have hb := body_field c
    have hi := toNat_incr c.currentField
    cases hs : processTxBody c with
    | done o1 =>
      rw [processTx_done n hs] at h
      cases h
      rw [hs] at hb
      rcases hb with e | e <;>
        (simp only [Step.context] at e; have e1 := congrArg rlpTxField_e.toNat e; omega)
    | again c' =>
      rw [processTx_again n hs] at h
      have := ih c' o h
      rw [hs] at hb
      rcases hb with e | e <;>
        (simp only [Step.context] at e; have e1 := congrArg rlpTxField_e.toNat e; omega)

/-! ### Reads, writes and the staging buffer -/

theorem readTxByte_fill (c : txContext_t) :
    (readTxByte c).2.rlpBufferPos = c.rlpBufferPos ∧
    (readTxByte c).2.rlpBuffer = c.rlpBuffer := by
  unfold readTxByte
  dsimp only
  split_ifs <;> exact ⟨rfl, rfl⟩

/-- Every pass of the staging loop entered with at most four bytes staged stores at an
index below the size of the staging buffer. -/
theorem stagePasses_fill (n : Nat) : ∀ (c : txContext_t), c.rlpBufferPos ≤ 4 →
    ∀ c' ∈ stagePasses n c, c'.rlpBufferPos ≤ 4 := by
  induction n with
  | zero => intro c _ c' h; simp [stagePasses] at h
  | succ n ih =>
    intro c hc c' h
    by_cases h1 : c.commandLength = 0
    · simp [stagePasses, h1] at h
    · have hr := (readTxByte_fill c).1
      have hu : u32 (c.rlpBufferPos + 1) = c.rlpBufferPos + 1 := u32_of_lt (by omega)
      rw [stagePasses] at h
      simp only [ne_eq, h1, not_false_eq_true, if_true] at h
      generalize readTxByte c = r at hr h
      obtain ⟨data, c1⟩ := r
      simp only at hr h
      rw [hr, hu] at h
      split_ifs at h with g1 g2 g3
      all_goals first
        | (simp at h; done)
        | (simp only [List.mem_singleton] at h; rw [h]; exact hc)
        | (simp only [List.mem_cons] at h
           rcases h with h | h
           · rw [h]; exact hc
           · refine ih _ ?_ c' h
             simp only [RLP_BUFFER_SIZE] at g3
             show c.rlpBufferPos + 1 ≤ 4
             omega)

/-- A fifth byte staged without the header becoming decodable ends the call with the
fatal status. -/
theorem fifth_byte_fatal (c : txContext_t) (hf : c.currentField ≠ TX_RLP_DONE)
    (hidle : c.processingField = false) (h0 : c.commandLength ≠ 0)
    (h32 : c.commandLength < 4294967296) (h4 : c.rlpBufferPos = 4)
    (hcan : (rlpCanDecode (c.rlpBuffer.set 4 (c.chunk.getD c.workBuffer 0)) 5 false).1
      = false) :
    ∀ k, (processTx (k + 1) c).map Outcome.status = some (some (-1)) := by
  intro k
  obtain ⟨n, hn⟩ : ∃ n, c.commandLength = n + 1 := ⟨c.commandLength - 1, by omega⟩
  have hst := stageHeader_step n c h0 h32 hidle
  have hu : u32 (4 + 1) = 5 := rfl
  rw [h4, hu, hcan] at hst
  simp only [Bool.false_eq_true, if_false, if_true] at hst
  have hb : processTxBody c = .done (.ret (-1) { stageByte c with rlpBufferPos := 5 }) := by
    simp only [processTxBody, hf, h0, hidle, if_false, Bool.not_false, if_true]
    rw [hn, hst]
  rw [processTx_done k hb]
  rfl

theorem afterCopy_content (c : txContext_t) (content : txContent_t) :
    (afterCopy c content).content
      = if c.currentFieldPos < c.currentFieldLength then content else c.content := by
  unfold afterCopy
  split_ifs <;> rfl

/-- What a handler of a stored byte-string field does to the bytes of its slot: nothing,
or one write of the copied bytes at the consumed count, which ends inside the declared
length, itself within the ceiling. -/
theorem stringHandler_writes (ceiling : Nat)
    (store : Nat → txContent_t → List Nat → txContent_t)
    (finish : Nat → txContent_t → txContent_t) (slot : txContent_t → List Nat)
    (hss : ∀ pos ct d, slot (store pos ct d) = writeBytes (slot ct) pos d)
    (hsf : ∀ n ct, slot (finish n ct) = slot ct) (c c' : txContext_t)
    (h : stringHandler ceiling (some store) finish c = .ok c') :
    slot c'.content = slot c.content ∨
    (c.currentFieldPos + copySize c ≤ c.currentFieldLength ∧
      c.currentFieldLength ≤ ceiling ∧
      slot c'.content = writeBytes (slot c.content) c.currentFieldPos
        (readBytes c.chunk c.workBuffer (copySize c))) := by
  by_cases hl : c.currentFieldIsList = true
  · simp [stringHandler, hl] at h
  by_cases hc : c.currentFieldLength > ceiling
  · simp [stringHandler, hl, hc] at h
  simp only [Bool.not_eq_true] at hl
  rw [stringHandler_unfold ceiling (some store) finish c _ hl (by omega) rfl] at h
  cases h
  have hcont : ∀ c1 : txContext_t,
      slot (completion c1 (finish c1.currentFieldLength c1.content)).content
        = slot c1.content := by
    intro c1
    unfold completion
    split_ifs
    · exact hsf _ _
    · rfl
  rw [hcont, afterCopy_content]
  by_cases hpos : c.currentFieldPos < c.currentFieldLength
  · rw [if_pos hpos]
    have := (copySize_le c).2
    exact Or.inr ⟨by omega, by omega, hss _ _ _⟩
  · rw [if_neg hpos]
    exact Or.inl rfl

/-- What a shard handler does to its slot: nothing, or one write of the copied bytes into
the four bytes of the slot at the consumed count, which ends inside the declared length,
itself within the ceiling, followed by the reassembly. -/
theorem shardHandler_writes (ceiling : Nat) (slot : txContent_t → Nat)
    (setSlot : Nat → txContent_t → txContent_t)
    (hgs : ∀ v x, slot (setSlot v x) = v)
    (hsd : ∀ x n, slot { x with destinationLength := n } = slot x) (c c' : txContext_t)
    (h : shardHandler ceiling slot setSlot c = .ok c') :
    slot c'.content = slot c.content ∨
    (c.currentFieldPos + copySize c ≤ c.currentFieldLength ∧
      c.currentFieldLength ≤ ceiling ∧
      slot c'.content = shardLoop (u32Bytes (bytesU32 (writeBytes (u32Bytes (slot c.content))
        c.currentFieldPos (readBytes c.chunk c.workBuffer (copySize c)))))
        c.currentFieldLength) := by
  by_cases hl : c.currentFieldIsList = true
  · simp [shardHandler, hl] at h
  by_cases hc : c.currentFieldLength > ceiling
  · simp [shardHandler, hl, hc] at h
  simp only [Bool.not_eq_true] at hl
  rw [shardHandler_unfold ceiling slot setSlot c _ _ hl (by omega) rfl rfl] at h
  cases h
  have hcont : ∀ c1 : txContext_t,
      slot (completion c1 { c1.content with destinationLength := c1.currentFieldLength }).content
        = slot c1.content := by
    intro c1
    unfold completion
    split_ifs
    · exact hsd _ _
    · rfl
  rw [hcont, afterCopy_content]
  by_cases hpos : c.currentFieldPos < c.currentFieldLength
  · rw [if_pos hpos]
    have := (copySize_le c).2
    exact Or.inr ⟨by omega, by omega, by rw [hgs, hgs]⟩
  · rw [if_neg hpos]
    exact Or.inl rfl


theorem writeBytes_set (arr rest : List Nat) (pos b : Nat) (h : pos < arr.length) :
    writeBytes (arr.set pos b) (pos + 1) rest = writeBytes arr pos (b :: rest) := by
  have h1 : (arr.take pos).length = pos := by simp; omega
  simp only [writeBytes, List.set_eq_take_cons_drop b h, List.length_cons]
  rw [show arr.take pos ++ b :: arr.drop (pos + 1)
    = (arr.take pos ++ [b]) ++ arr.drop (pos + 1) by simp]
  rw [List.take_left' (by simp; omega),
    show pos + 1 + rest.length = (arr.take pos ++ [b]).length + rest.length by simp; omega,
    List.drop_append, List.drop_drop]
  simp only [List.length_append, List.length_take, List.length_singleton, List.append_assoc,
    List.singleton_append]
  congr 3
  omega

theorem readBytes_succ (chunk : List Nat) (wb k : Nat) (h : wb < chunk.length) :
    readBytes chunk wb (k + 1) = chunk.getD wb 0 :: readBytes chunk (wb + 1) k := by
  simp only [readBytes]
  rw [List.drop_eq_getElem_cons h, List.take_succ_cons]
  simp [List.getD_eq_getElem?_getD, List.getElem?_eq_getElem h]

theorem readBytes_length (chunk : List Nat) (wb k : Nat) (h : wb + k ≤ chunk.length) :
    (readBytes chunk wb k).length = k := by
  simp only [readBytes, List.length_take, List.length_drop]
  omega

/-- What the staging loop stores: entered with no field in progress, the cursor inside
the chunk and fewer bytes staged than the staging buffer holds, it stages k bytes of the
chunk, in order, at the indices from the fill position on, all inside the buffer. -/
theorem stageHeader_stores (n : Nat) : ∀ c : txContext_t, c.processingField = false →
    c.commandLength < 4294967296 → c.workBuffer + c.commandLength ≤ c.chunk.length →
    c.rlpBuffer.length = 5 → c.rlpBufferPos ≤ 4 →
    ∃ k, c.rlpBufferPos + k ≤ 5 ∧ k ≤ c.commandLength ∧
      (stageHeader n c).context.rlpBufferPos = c.rlpBufferPos + k ∧
      (stageHeader n c).context.workBuffer = c.workBuffer + k ∧
      (stageHeader n c).context.commandLength = c.commandLength - k ∧
      (stageHeader n c).context.rlpBuffer
        = writeBytes c.rlpBuffer c.rlpBufferPos (readBytes c.chunk c.workBuffer k) := by
  have base : ∀ c : txContext_t, c.rlpBuffer.length = 5 → c.rlpBufferPos ≤ 4 →
      c.rlpBuffer
        = writeBytes c.rlpBuffer c.rlpBufferPos (readBytes c.chunk c.workBuffer 0) := by
    intro c _ _
    simp [writeBytes, readBytes]
  induction n with
  | zero =>
    intro c _ _ _ hl hp
    exact ⟨0, by omega, by omega, rfl, rfl, rfl, base c hl hp⟩
  | succ n ih =>
    intro c hidle h32 hin hl hp
    by_cases h0 : c.commandLength = 0
    · have hs : stageHeader (n + 1) c = .left false c := by simp [stageHeader, h0]
      rw [hs]
      exact ⟨0, by omega, by omega, rfl, rfl, rfl, base c hl hp⟩
    · have hu : u32 (c.rlpBufferPos + 1) = c.rlpBufferPos + 1 := u32_of_lt (by omega)
      have hwb : c.workBuffer < c.chunk.length := by omega
      have one : (c.rlpBuffer.set c.rlpBufferPos (c.chunk.getD c.workBuffer 0))
          = writeBytes c.rlpBuffer c.rlpBufferPos (readBytes c.chunk c.workBuffer 1) := by
        rw [readBytes_succ _ _ _ hwb, ← writeBytes_set _ _ _ _ (by omega)]
        simp [writeBytes, readBytes]
      have k1 : ∃ k, c.rlpBufferPos + k ≤ 5 ∧ k ≤ c.commandLength ∧
          c.rlpBufferPos + 1 = c.rlpBufferPos + k ∧ c.workBuffer + 1 = c.workBuffer + k ∧
          c.commandLength - 1 = c.commandLength - k ∧
          (c.rlpBuffer.set c.rlpBufferPos (c.chunk.getD c.workBuffer 0))
            = writeBytes c.rlpBuffer c.rlpBufferPos (readBytes c.chunk c.workBuffer k) :=
        ⟨1, by omega, by omega, rfl, rfl, rfl, one⟩
      rw [stageHeader_step n c h0 h32 hidle, hu]
      split_ifs with g1 g2 g3
      · exact k1
      · exact k1
      · exact k1
      · obtain ⟨k, a1, a2, a3, a4, a5, a6⟩ :=
          ih { stageByte c with rlpBufferPos := c.rlpBufferPos + 1 } hidle
            (by show c.commandLength - 1 < _; omega)
            (by show c.workBuffer + 1 + (c.commandLength - 1) ≤ c.chunk.length; omega)
            (by show (c.rlpBuffer.set _ _).length = 5; simpa using hl)
            (by show c.rlpBufferPos + 1 ≤ 4; omega)
        refine ⟨k + 1, ?_, ?_, ?_, ?_, ?_, ?_⟩
        · have : c.rlpBufferPos + 1 + k ≤ 5 := a1
          omega
        · have : k ≤ c.commandLength - 1 := a2
          omega
        · rw [a3]; show c.rlpBufferPos + 1 + k = _; omega
        · rw [a4]; show c.workBuffer + 1 + k = _; omega
        · rw [a5]; show c.commandLength - 1 - k = _; omega
        · rw [a6]
          show writeBytes (c.rlpBuffer.set c.rlpBufferPos (c.chunk.getD c.workBuffer 0))
            (c.rlpBufferPos + 1) (readBytes c.chunk (c.workBuffer + 1) k) = _
          rw [writeBytes_set _ _ _ _ (by omega), readBytes_succ _ _ _ hwb]

/-! ### The claims on the reach of the reads and writes -/

/-- C16: processTx never over-reads the chunk. The handlers call copyTxData with the copy
size, for which copyTxData does not throw on any context, so that a THROW of a handler
is its type check or its size check; every pass of the staging loop that calls
readTxByte does so with bytes remaining; the bytes a copy reads lie inside the chunk on
every context of the loop; and on every context reached from a fresh context by calls
that did not fail, for every chunk, the call returns with the chunk as delivered, a
remaining length of at most the length of the chunk, and the cursor advanced by exactly
that length less the remaining length. -/
theorem never_over_reads (ctx : txContext_t) (data : List Nat) (hr : ReachedSafely ctx)
    (hd : data.length < 4294967296) :
    (∀ (c : txContext_t) (out : Option (txContent_t → List Nat → txContent_t)),
      ∃ c', copyTxData c out (copySize c) = .ok c') ∧
    (∀ (c : txContext_t), ∀ p ∈ [(processNonce, MAX_INT256), (processGasprice, MAX_INT256),
        (processStartGas, MAX_INT256), (processFromShard, 4), (processToShard, MAX_INT32),
        (processTo, MAX_ADDRESS), (processValue, MAX_INT256)],
      ∀ c', p.1 c = .throw c' →
        c' = c ∧ (c.currentFieldIsList = true ∨ p.2 < c.currentFieldLength)) ∧
    (∀ (n : Nat) (c : txContext_t), ∀ c' ∈ stagePasses n c, c'.commandLength ≠ 0) ∧
    (∀ (c : txContext_t), Sound c →
      c.workBuffer + copySize c ≤ c.chunk.length ∧
      ∀ c', processTxBody c = .again c' → Sound c') ∧
    ∃ o, (∀ k, processTx (k + 18) (deliver ctx data) = some o) ∧
      o.context.chunk = data ∧
      o.context.commandLength ≤ data.length ∧
      o.context.workBuffer = data.length - o.context.commandLength := by
  refine ⟨fun c out => ?_, fun c p hp c' h => ((handler_ends c p hp).1 c' h),
    fun n c => stagePasses_nonzero n c,
    fun c hs => ⟨?_, fun c' h => ((body_sound c hs).2 c' h).1⟩, ?_⟩
  · have h1 : ¬ c.commandLength < copySize c := by
      have := (copySize_le c).1
      omega
    unfold copyTxData
    rw [if_neg h1]
    exact ⟨_, rfl⟩
  · have h1 := (copySize_le c).1
    have h2 := hs.inside
    omega
  · obtain ⟨o, h1, _, _, hp, _⟩ :=
      processTx_returns _ (deliver_sound ctx data (reachedSafely_sound hr) hd)
    have e1 : o.context.chunk = data := hp.chunk
    have e2 : o.context.workBuffer + o.context.commandLength = 0 + data.length := hp.cursor
    have e3 : o.context.commandLength ≤ data.length := hp.remaining
    exact ⟨o, h1, e1, e3, by omega⟩

theorem never_over_reads_witness :
    ReachedSafely partContext ∧ (exampleTx.drop 10).length < 4294967296 ∧
    ∃ o, processTx 18 (deliver partContext (exampleTx.drop 10)) = some o ∧
      o.context.chunk = exampleTx.drop 10 ∧
      o.context.commandLength ≤ (exampleTx.drop 10).length ∧
      o.context.workBuffer = (exampleTx.drop 10).length - o.context.commandLength := by
  have hr : ReachedSafely partContext :=
    ReachedSafely.call freshContext partTx 18 (.ret 1 partContext) .fresh (by decide)
      (by decide) (by decide)
  obtain ⟨o, h1, h2, h3, h4⟩ :=
    (never_over_reads partContext (exampleTx.drop 10) hr (by decide)).2.2.2.2
  exact ⟨hr, by decide, o, h1 0, h2, h3, h4⟩

/-- C17: the writes into the output record stay inside their slots. In every context
reached from a fresh context by calls of processTx, on chunks of any content, none of
which failed (a context is not to be reused after a fatal failure) the byte arrays of
the record have their sizes (32 for the gas price, the gas limit and the amount, 20 for
the recipient), and every further call returns, whatever its status, and leaves them so;
a handler that finishes on a sound context leaves them so. On any context, a handler of a
stored field leaves the bytes of its slot alone or writes the copied bytes, no more than
the copy size, at the consumed count, where consumed count plus copy size is at most the
declared length, itself at most the capacity of the slot (4 bytes for the two shard
slots, which the reassembly then reads). -/
theorem output_writes_in_range (ctx : txContext_t) (data : List Nat)
    (hr : ReachedSafely ctx) (hd : data.length < 4294967296) :
    SlotsSized ctx.content ∧
    (∃ o, (∀ k, processTx (k + 18) (deliver ctx data) = some o) ∧
      SlotsSized o.context.content) ∧
    (∀ (c : txContext_t), Sound c → c.processingField = true →
      ∀ H ∈ [processContent, processNonce, processGasprice, processStartGas,
          processFromShard, processToShard, processTo, processValue],
        ∀ c', H c = .ok c' → SlotsSized c'.content) ∧
    (∀ (c c' : txContext_t), ∀ p ∈ [(processGasprice, storedBytes TX_RLP_GASPRICE, 32),
        (processStartGas, storedBytes TX_RLP_STARTGAS, 32),
        (processTo, storedBytes TX_RLP_TO, 20),
        (processValue, storedBytes TX_RLP_AMOUNT, 32)],
      p.1 c = .ok c' →
        p.2.1 c'.content = p.2.1 c.content ∨
        (c.currentFieldPos + copySize c ≤ c.currentFieldLength ∧
          c.currentFieldLength ≤ p.2.2 ∧
          p.2.1 c'.content = writeBytes (p.2.1 c.content) c.currentFieldPos
            (readBytes c.chunk c.workBuffer (copySize c)))) ∧
    (∀ (c c' : txContext_t), ∀ p ∈ [(processFromShard, fun (x : txContent_t) => x.fromShard),
        (processToShard, fun (x : txContent_t) => x.toShard)],
      p.1 c = .ok c' →
        p.2 c'.content = p.2 c.content ∨
        (c.currentFieldPos + copySize c ≤ c.currentFieldLength ∧
          c.currentFieldLength ≤ 4 ∧
          p.2 c'.content = shardLoop (u32Bytes (bytesU32 (writeBytes (u32Bytes (p.2 c.content))
            c.currentFieldPos (readBytes c.chunk c.workBuffer (copySize c)))))
            c.currentFieldLength)) ∧
    (∀ v, (u32Bytes v).length = 4) ∧
    (∀ (chunk : List Nat) (wb n : Nat), (readBytes chunk wb n).length ≤ n) ∧
    (∀ (arr d : List Nat) (pos : Nat), pos + d.length ≤ arr.length →
      (writeBytes arr pos d).length = arr.length) := by
  refine ⟨(reachedSafely_sound hr).slots, ?_,
    fun c hs hpf H hH c' h => ((handler_handles c hs hpf H hH).2 c' h).sound.slots,
    fun c c' p hp h => ?_, fun c c' p hp h => ?_, fun v => rfl,
    fun chunk wb n => readBytes_length_le chunk wb n,
    fun arr d pos h => writeBytes_length arr d pos h⟩
  · obtain ⟨o, h1, _, hs, _, _⟩ :=
      processTx_returns _ (deliver_sound ctx data (reachedSafely_sound hr) hd)
    exact ⟨o, h1, hs.slots⟩
  · simp only [List.mem_cons, List.mem_singleton, List.not_mem_nil, or_false] at hp
    rcases hp with e | e | e | e <;> subst e
    · exact stringHandler_writes MAX_INT256 storeGasprice finishGasprice
        (storedBytes TX_RLP_GASPRICE) (fun _ _ _ => rfl) (fun _ _ => rfl) c c' h
    · exact stringHandler_writes MAX_INT256 storeStartgas finishStartgas
        (storedBytes TX_RLP_STARTGAS) (fun _ _ _ => rfl) (fun _ _ => rfl) c c' h
    · exact stringHandler_writes MAX_ADDRESS storeDestination finishDestination
        (storedBytes TX_RLP_TO) (fun _ _ _ => rfl) (fun _ _ => rfl) c c' h
    · exact stringHandler_writes MAX_INT256 storeValue finishValue
        (storedBytes TX_RLP_AMOUNT) (fun _ _ _ => rfl) (fun _ _ => rfl) c c' h
  · simp only [List.mem_cons, List.mem_singleton, List.not_mem_nil, or_false] at hp
    rcases hp with e | e <;> subst e
    · exact shardHandler_writes 4 (fun x => x.fromShard) (fun v x => { x with fromShard := v })
        (fun _ _ => rfl) (fun _ _ => rfl) c c' h
    · exact shardHandler_writes MAX_INT32 (fun x => x.toShard)
        (fun v x => { x with toShard := v }) (fun _ _ => rfl) (fun _ _ => rfl) c c' h

theorem output_writes_in_range_witness :
    ReachedSafely partContext ∧ (exampleTx.drop 10).length < 4294967296 ∧
    SlotsSized partContext.content ∧
    ∃ o, processTx 18 (deliver partContext (exampleTx.drop 10)) = some o ∧
      SlotsSized o.context.content := by
  have hr : ReachedSafely partContext :=
    ReachedSafely.call freshContext partTx 18 (.ret 1 partContext) .fresh (by decide)
      (by decide) (by decide)
  obtain ⟨h1, ⟨o, h2, h3⟩, _⟩ :=
    output_writes_in_range partContext (exampleTx.drop 10) hr (by decide)
  exact ⟨hr, by decide, h1, o, h2 0, h3⟩


/-! ### The claims on the invariants of the context -/

/-- C18: the consumed count never exceeds the declared length. In every context reached
from a fresh context by any sequence of calls of processTx, on chunks of any content,
none of which failed (a context is not to be reused after a fatal failure)
currentFieldPos is at most currentFieldLength, and every further call returns, whatever
its status, and leaves it so. On any context, a handler of a byte-string field that finishes has
advanced the field and cleared processingField when it leaves currentFieldPos equal to
currentFieldLength, and has left both as they were when it leaves them different;
advancing a field other than Done moves it one position on. -/
theorem consumed_within_length (ctx : txContext_t) (data : List Nat)
    (hr : ReachedSafely ctx) (hd : data.length < 4294967296) :
    ctx.currentFieldPos ≤ ctx.currentFieldLength ∧
    (∃ o, (∀ k, processTx (k + 18) (deliver ctx data) = some o) ∧
      o.context.currentFieldPos ≤ o.context.currentFieldLength) ∧
    (∀ (c : txContext_t), ∀ p ∈ [(processNonce, MAX_INT256), (processGasprice, MAX_INT256),
        (processStartGas, MAX_INT256), (processFromShard, 4), (processToShard, MAX_INT32),
        (processTo, MAX_ADDRESS), (processValue, MAX_INT256)],
      ∀ c', p.1 c = .ok c' →
        (c'.currentFieldPos = c'.currentFieldLength →
          c'.currentField = c.currentField.incr ∧ c'.processingField = false) ∧
        (c'.currentFieldPos ≠ c'.currentFieldLength →
          c'.currentField = c.currentField ∧ c'.processingField = c.processingField)) ∧
    (∀ f : rlpTxField_e, f ≠ TX_RLP_DONE → f.incr.toNat = f.toNat + 1) := by
  refine ⟨(reachedSafely_sound hr).consumed, ?_, fun c p hp c' h => (handler_ends c p hp).2 c' h,
    fun f hf => toNat_incr_of_ne f hf⟩
  obtain ⟨o, h1, _, hs, _, _⟩ :=
    processTx_returns _ (deliver_sound ctx data (reachedSafely_sound hr) hd)
  exact ⟨o, h1, hs.consumed⟩

theorem consumed_within_length_witness :
    ReachedSafely partContext ∧ [0x00, 0x00, 0x00, 0x00].length < 4294967296 ∧
    partContext.currentFieldPos ≤ partContext.currentFieldLength ∧
    ∃ o, processTx 18 (deliver partContext [0x00, 0x00, 0x00, 0x00]) = some o ∧
      o.context.currentFieldPos ≤ o.context.currentFieldLength := by
  have hr : ReachedSafely partContext :=
    ReachedSafely.call freshContext partTx 18 (.ret 1 partContext) .fresh (by decide)
      (by decide) (by decide)
  obtain ⟨h1, ⟨o, h2, h3⟩, _⟩ :=
    consumed_within_length partContext [0x00, 0x00, 0x00, 0x00] hr (by decide)
  exact ⟨hr, by decide, h1, o, h2 0, h3⟩

/-- C19: the staging buffer stays within its five bytes. In every context reached from a
fresh context by calls of processTx that did not fail the fill position is at most 4,
and 0 while a field is in progress, and the buffer has its five bytes; every further
call returns, and unless it fails it leaves the fill position so. Every pass of the
driver loop that goes round from such a context leaves such a context. The staging loop
stageHeader, entered with no field in progress, the cursor inside the chunk and at most
four bytes staged, stages some number k of bytes of the chunk, in order, at the indices
from the fill position on, with fill position plus k at most RLP_BUFFER_SIZE: every
store is at an index below 5, and the loop leaves the buffer exactly so written. When
the fifth byte is staged and the header is still not decodable, the call returns -1. -/
theorem staging_buffer_bounded (ctx : txContext_t) (data : List Nat)
    (hr : ReachedSafely ctx) (hd : data.length < 4294967296) :
    (ctx.rlpBufferPos ≤ 4 ∧ (ctx.processingField = true → ctx.rlpBufferPos = 0)) ∧
    ctx.rlpBuffer.length = RLP_BUFFER_SIZE ∧
    (∃ o, (∀ k, processTx (k + 18) (deliver ctx data) = some o) ∧
      (o.fatal = false → o.context.rlpBufferPos ≤ 4 ∧
        (o.context.processingField = true → o.context.rlpBufferPos = 0))) ∧
    (∀ (c : txContext_t), Sound c → Tidy c →
      ∀ c', processTxBody c = .again c' → Sound c' ∧ Tidy c') ∧
    (∀ (n : Nat) (c : txContext_t), c.processingField = false →
      c.commandLength < 4294967296 → c.workBuffer + c.commandLength ≤ c.chunk.length →
      c.rlpBuffer.length = RLP_BUFFER_SIZE → c.rlpBufferPos ≤ 4 →
      ∃ k, c.rlpBufferPos + k ≤ RLP_BUFFER_SIZE ∧ k ≤ c.commandLength ∧
        ((c.chunk.drop c.workBuffer).take k).length = k ∧
        (stageHeader n c).context.rlpBufferPos = c.rlpBufferPos + k ∧
        (stageHeader n c).context.workBuffer = c.workBuffer + k ∧
        (stageHeader n c).context.commandLength = c.commandLength - k ∧
        (stageHeader n c).context.rlpBuffer
          = c.rlpBuffer.take c.rlpBufferPos ++ (c.chunk.drop c.workBuffer).take k
            ++ c.rlpBuffer.drop (c.rlpBufferPos + k)) ∧
    (∀ (c : txContext_t), c.currentField ≠ TX_RLP_DONE → c.processingField = false →
      c.commandLength ≠ 0 → c.commandLength < 4294967296 → c.rlpBufferPos = 4 →
      (rlpCanDecode (c.rlpBuffer.set 4 (c.chunk.getD c.workBuffer 0)) 5 false).1 = false →
      ∀ k, (processTx (k + 1) c).map Outcome.status = some (some (-1))) := by
  refine ⟨⟨hr.tidy.fill, hr.tidy.resolved⟩, (reachedSafely_sound hr).staging, ?_,
    fun c hs ht c' h => ⟨((body_sound c hs).2 c' h).1, ((body_sound c hs).2 c' h).2.2.1 ht⟩,
    fun n c h1 h2 h3 h4 h5 => ?_,
    fun c h1 h2 h3 h4 h5 h6 => fifth_byte_fatal c h1 h2 h3 h4 h5 h6⟩
  · obtain ⟨o, h1, _, _, _, ht⟩ :=
      processTx_returns _ (deliver_sound ctx data (reachedSafely_sound hr) hd)
    refine ⟨o, h1, fun hf => ?_⟩
    have t := ht (deliver_tidy ctx data hr.tidy) hf
    exact ⟨t.fill, t.resolved⟩
  · obtain ⟨k, a1, a2, a3, a4, a5, a6⟩ := stageHeader_stores n c h1 h2 h3 h4 h5
    have hk : (readBytes c.chunk c.workBuffer k).length = k :=
      readBytes_length _ _ _ (by omega)
    refine ⟨k, a1, a2, hk, a3, a4, a5, ?_⟩
    rw [a6]
    show c.rlpBuffer.take c.rlpBufferPos ++ readBytes c.chunk c.workBuffer k
      ++ c.rlpBuffer.drop (c.rlpBufferPos + (readBytes c.chunk c.workBuffer k).length) = _
    rw [hk]
    rfl

theorem staging_buffer_bounded_witness :
    ReachedSafely { freshContext with rlpBuffer := [0xbc, 0x01, 0x02, 0x03, 0x00],
                                      rlpBufferPos := 4,
                                      chunk := [0xbc, 0x01, 0x02, 0x03],
                                      workBuffer := 4 } ∧
    [0x05].length < 4294967296 ∧
    (processTx 1 (deliver { freshContext with rlpBuffer := [0xbc, 0x01, 0x02, 0x03, 0x00],
                                               rlpBufferPos := 4,
                                               chunk := [0xbc, 0x01, 0x02, 0x03],
                                               workBuffer := 4 } [0x05])).map Outcome.status
      = some (some (-1)) := by
  have hr : ReachedSafely { freshContext with rlpBuffer := [0xbc, 0x01, 0x02, 0x03, 0x00],
                                              rlpBufferPos := 4,
                                              chunk := [0xbc, 0x01, 0x02, 0x03],
                                              workBuffer := 4 } :=
    ReachedSafely.call freshContext [0xbc, 0x01, 0x02, 0x03] 18
      (.ret 1 { freshContext with rlpBuffer := [0xbc, 0x01, 0x02, 0x03, 0x00],
                                  rlpBufferPos := 4,
                                  chunk := [0xbc, 0x01, 0x02, 0x03],
                                  workBuffer := 4 }) .fresh (by decide) (by decide) (by decide)
  exact ⟨hr, by decide,
    (staging_buffer_bounded _ [0x05] hr (by decide)).2.2.2.2.2 _ (by decide) (by decide)
      (by decide) (by decide) (by decide) (by decide) 0⟩

/-- C20: the field never moves backward. On any context with at most four bytes staged in
the five bytes of the staging buffer and any chunk, a call of processTx that returns,
whatever its status and also when a handler throws, leaves currentField at the same or a
later position of the schema; on any context every handler leaves it where it was or
exactly one position later; and on every context reached from a fresh context by calls
none of which failed the call does return, with the field at the same or a later
position. -/
theorem field_never_moves_backward (ctx : txContext_t) (data : List Nat)
    (hr : ReachedSafely ctx) (hd : data.length < 4294967296) :
    (∀ (c : txContext_t) (chunk : List Nat) (fuel : Nat) (o : Outcome),
      c.rlpBuffer.length = RLP_BUFFER_SIZE → c.rlpBufferPos ≤ 4 →
      chunk.length < 4294967296 →
      processTx fuel (deliver c chunk) = some o →
      c.currentField.toNat ≤ o.context.currentField.toNat) ∧
    (∀ (c : txContext_t), ∀ H ∈ [processContent, processNonce, processGasprice,
        processStartGas, processFromShard, processToShard, processTo, processValue],
      c.currentField.toNat ≤ (H c).context.currentField.toNat ∧
      (H c).context.currentField.toNat ≤ c.currentField.toNat + 1) ∧
    (∃ o, (∀ k, processTx (k + 18) (deliver ctx data) = some o) ∧
      ctx.currentField.toNat ≤ o.context.currentField.toNat) := by
  refine ⟨fun c chunk fuel o _ _ _ h => processTx_field fuel (deliver c chunk) o h,
    fun c H hH => ?_, ?_⟩
  · have hi := toNat_incr c.currentField
    rcases handler_field c H hH with e | e <;> (rw [e]; omega)
  · obtain ⟨o, h1, _, _, hp, _⟩ :=
      processTx_returns _ (deliver_sound ctx data (reachedSafely_sound hr) hd)
    exact ⟨o, h1, hp.forward⟩

theorem field_never_moves_backward_witness :
    ReachedSafely partContext ∧ (exampleTx.drop 10).length < 4294967296 ∧
    partContext.currentField = TX_RLP_TO ∧
    ∃ o, processTx 18 (deliver partContext (exampleTx.drop 10)) = some o ∧
      partContext.currentField.toNat ≤ o.context.currentField.toNat := by
  have hr : ReachedSafely partContext :=
    ReachedSafely.call freshContext partTx 18 (.ret 1 partContext) .fresh (by decide)
      (by decide) (by decide)
  obtain ⟨o, h1, h2⟩ :=
    (field_never_moves_backward partContext (exampleTx.drop 10) hr (by decide)).2.2
  exact ⟨hr, by decide, by decide, o, h1 0, h2⟩

end Rlp
